import Mathlib

/-!
# mem_pool: a three-tier allocator (small / big / huge)

Shallow embedding of `src/mem_pool.c`.

Memory model.  Pointers are natural numbers, `0` is `NULL`.  The heap is split
by struct field: every field of every C struct (`chunk.next`,
`chunk.chunk_used`, `smallblock.next`, `bigblock.sz`, `bigblock.next`,
`hugeblock.sz`, `hugeblock.prev`, `hugeblock.next`) is a map from the address of
the struct to the value of the field.  The global `g_mgr` contributes its
scalar members; its embedded sentinel `g_mgr.huge_list` is the `hugeblock`
stored at the fixed address `huge_list_addr`.  A static object is zero
initialised and fresh anonymous mappings are zero filled, so every map starts
as the constant `0`.

Layout is LP64: `sizeof(struct chunk) = 16`, `sizeof(size_t) = 8`,
`sizeof(struct hugeblock) = 24`.  Sizes are natural numbers; every size the
allocator stores is far below `2^31`, so the `int` conversions of the source
are the identity on them.

Dereferencing `NULL` is the outcome `Res.fault`.  The only unbounded loop of the
allocator (the walk over the chunk list) takes a step budget and yields
`Res.spin` when the budget is exhausted.

The page source `alloc_page` (a wrapper of `mmap`) is external: the value it
returns, if it is called, is the argument `pg` of the operations, and `0` is
the failure value the code tests for.
-/

namespace MemPool

/-! ## Constants -/

def SMALLSIZE : Nat := 8
def SMALLLEVEL : Nat := 32
def CHUNKSIZE : Nat := 32 * 1024
def HUGESIZE : Nat := CHUNKSIZE - 16
def BIGSEARCHDEPTH : Nat := 128

/-- The value of `sizeof(struct chunk)`. -/
def SIZEOF_CHUNK : Nat := 16
/-- The value of `sizeof(size_t)`. -/
def SIZEOF_SIZE_T : Nat := 8
/-- The value of `sizeof(struct hugeblock)`. -/
def SIZEOF_HUGEBLOCK : Nat := 24

/-- Address of the sentinel `g_mgr.huge_list` (a static object, never `NULL`). -/
def huge_list_addr : Nat := 296

/-! ## Outcomes and state -/

/-- Outcome of a call: a value, a `NULL` dereference, or an exhausted loop budget. -/
inductive Res (α : Type) where
  | ok : α → Res α
  | fault : Res α
  | spin : Res α

/-- One store to a field map: `p->field = v`. -/
def upd (f : Nat → Nat) (a v : Nat) : Nat → Nat :=
  fun x => if x = a then v else f x

/-- The global `g_mgr` together with the heap, one map per struct field.  A store
through one member does not reach another member at the same address; this is
the real heap as long as the blocks lie inside the used part of their chunks
and do not overlap.  `Heap` below is the heap as one memory. -/
structure Mgr where
  small_list : Nat → Nat
  chunk_head : Nat
  chunk_tail : Nat
  big_head : Nat
  big_tail : Nat
  chunk_next : Nat → Nat
  chunk_used : Nat → Nat
  sb_next : Nat → Nat
  bb_sz : Nat → Nat
  bb_next : Nat → Nat
  hb_sz : Nat → Nat
  hb_prev : Nat → Nat
  hb_next : Nat → Nat
  bytes : Nat → Nat

/-- The zero-initialised `g_mgr` over an untouched heap. -/
def init : Mgr :=
  { small_list := fun _ => 0
    chunk_head := 0
    chunk_tail := 0
    big_head := 0
    big_tail := 0
    chunk_next := fun _ => 0
    chunk_used := fun _ => 0
    sb_next := fun _ => 0
    bb_sz := fun _ => 0
    bb_next := fun _ => 0
    hb_sz := fun _ => 0
    hb_prev := fun _ => 0
    hb_next := fun _ => 0
    bytes := fun _ => 0 }

/-! ## Chunk arena -/

/-- Embedding of `new_chunk(sz)`; `pg` is what `alloc_page(CHUNKSIZE)` returns,
taken to be null or the address of a fresh mapping.  The failure value
`MAP_FAILED` of `mmap` is treated in `Flat.new_chunk`. -/
def new_chunk (pg : Nat) (s : Mgr) (sz : Nat) : Nat × Mgr :=
  let nc := pg
  if nc = 0 then (0, s)
  else
    let s1 := { s with chunk_next := upd s.chunk_next nc 0 }
    let s2 := { s1 with chunk_used := upd s1.chunk_used nc (SIZEOF_CHUNK + sz) }
    let s3 := if s2.chunk_head = 0 then { s2 with chunk_head := nc } else s2
    let s4 := if s3.chunk_tail ≠ 0 then
        { s3 with chunk_next := upd s3.chunk_next s3.chunk_tail nc } else s3
    (nc + SIZEOF_CHUNK, { s4 with chunk_tail := nc })

/-! ## Small tier -/

/-- Embedding of `free_small_memory(ptr, n)`: push `ptr` on class `n`. -/
def free_small_memory (s : Mgr) (ptr n : Nat) : Res Mgr :=
  if ptr = 0 then Res.fault
  else
    let s1 := { s with sb_next := upd s.sb_next ptr (s.small_list n) }
    Res.ok { s1 with small_list := upd s1.small_list n ptr }

/-- The state after the two stores of `free_small_memory(ptr, n)`. -/
def small_push (s : Mgr) (ptr n : Nat) : Mgr :=
  { s with sb_next := upd s.sb_next ptr (s.small_list n)
           small_list := upd s.small_list n ptr }

/-- The state after `alloc_small_memory(n)` has popped the head of class `n`. -/
def small_pop (s : Mgr) (n : Nat) : Mgr :=
  { s with small_list := upd s.small_list n (s.sb_next (s.small_list n)) }

/-- The `while (nsize > 0)` loop of `split_small_memory`; every round removes at
least `SMALLSIZE` bytes, so `nsize` rounds are always enough. -/
def split_small_loop : Nat → Mgr → Nat → Nat → Mgr
  | 0, s, _, _ => s
  | k + 1, s, sb, nsize =>
    if nsize > 0 then
      let idx := (nsize - 1) / SMALLSIZE
      let s1 := { s with sb_next := upd s.sb_next sb (s.small_list idx) }
      let s2 := { s1 with small_list := upd s1.small_list idx sb }
      split_small_loop k s2 (sb + (idx + 1) * SMALLSIZE) (nsize - (idx + 1) * SMALLSIZE)
    else s

/-- Embedding of `split_small_memory(ptr, nsize)`. -/
def split_small_memory (s : Mgr) (ptr nsize : Nat) : Mgr :=
  split_small_loop nsize s ptr nsize

/-- The chunk walk of `alloc_small_memory`: the first chunk, from `chunk` on, with
`sz` bytes left, or `none` at the end of the list. -/
def find_chunk : Nat → Mgr → Nat → Nat → Res (Option Nat)
  | fuel, s, chunk, sz =>
    if chunk = 0 then Res.ok none
    else
      match fuel with
      | 0 => Res.spin
      | k + 1 =>
        if s.chunk_used chunk + sz ≤ CHUNKSIZE then Res.ok (some chunk)
        else find_chunk k s (s.chunk_next chunk) sz

/-- The scan `for (i = n + 1; i <= SMALLLEVEL; i++)` of `alloc_small_memory`, with
`k` rounds left and the loop variable at `i`. -/
def lookup_larger (s : Mgr) (sz : Nat) : Nat → Nat → Option (Nat × Mgr)
  | 0, _ => none
  | k + 1, i =>
    let ret := s.small_list i
    if ret ≠ 0 then
      let s1 := { s with small_list := upd s.small_list i (s.sb_next (s.small_list i)) }
      some (ret, split_small_memory s1 (ret + sz) ((i + 1) * SMALLSIZE - sz))
    else lookup_larger s sz k (i + 1)

/-- Embedding of `alloc_small_memory(n)`. -/
def alloc_small_memory (fuel pg : Nat) (s : Mgr) (n : Nat) : Res (Nat × Mgr) :=
  let node := s.small_list n
  if node ≠ 0 then
    Res.ok (node, { s with small_list := upd s.small_list n (s.sb_next node) })
  else
    let sz := (n + 1) * SMALLSIZE
    match find_chunk fuel s s.chunk_head sz with
    | Res.fault => Res.fault
    | Res.spin => Res.spin
    | Res.ok (some chunk) =>
      Res.ok (chunk + s.chunk_used chunk,
        { s with chunk_used := upd s.chunk_used chunk (s.chunk_used chunk + sz) })
    | Res.ok none =>
      match lookup_larger s sz (SMALLLEVEL - n) (n + 1) with
      | some r => Res.ok r
      | none => Res.ok (new_chunk pg s sz)

/-! ## Huge tier -/

/-- Embedding of `alloc_huge_memory(sz)`; `pg` is what `alloc_page` returns, taken
to be null or the address of a fresh mapping.  The
guard of the source before `h->next = g_mgr.huge_list.next` is read as a test of
the sentinel's `next`; when that is `NULL` the next statement faults either way. -/
def alloc_huge_memory (pg : Nat) (s : Mgr) (sz : Nat) : Res (Nat × Mgr) :=
  let h := pg
  if h = 0 then Res.ok (0, s)
  else
    let s1 := { s with hb_prev := upd s.hb_prev h huge_list_addr }
    let s2 := if s1.hb_next huge_list_addr ≠ 0 then
        { s1 with hb_next := upd s1.hb_next h (s1.hb_next huge_list_addr) } else s1
    let s3 := { s2 with hb_sz := upd s2.hb_sz h sz }
    if s3.hb_next huge_list_addr = 0 then Res.fault
    else
      let s4 := { s3 with hb_prev := upd s3.hb_prev (s3.hb_next huge_list_addr) h }
      Res.ok (h + SIZEOF_HUGEBLOCK, { s4 with hb_next := upd s4.hb_next huge_list_addr h })

/-- Embedding of `free_huge_memory(ptr)` for a pointer into a huge block; `munmap`
has no effect on the state.  The members `prev` and `next` are read from the
maps of the huge tier; for a pointer that was not returned by
`alloc_huge_memory` the words the code reads are those of
`Flat.free_huge_memory`. -/
def free_huge_memory (s : Mgr) (ptr : Nat) : Res Mgr :=
  if ptr ≤ SIZEOF_HUGEBLOCK then Res.fault
  else
    let h := ptr - SIZEOF_HUGEBLOCK
    if s.hb_prev h = 0 then Res.fault
    else
      let s1 := { s with hb_next := upd s.hb_next (s.hb_prev h) (s.hb_next h) }
      if s1.hb_next h = 0 then Res.fault
      else Res.ok { s1 with hb_prev := upd s1.hb_prev (s1.hb_next h) (s1.hb_prev h) }

/-! ## Big tier -/

/-- A fitting block `b` (with `b->sz > sz`) found by the rotation of
`lookup_big_memory`: shrink it to `sz` and file the remainder (lines 192-213). -/
def split_big_block (s : Mgr) (b sz : Nat) : Res (Nat × Mgr) :=
  let left := s.bb_sz b - sz
  let s1 := { s with bb_sz := upd s.bb_sz b sz }
  let idx := (left - 1) / SMALLSIZE
  let ptr := b + sz
  if idx < SMALLLEVEL then
    match free_small_memory s1 ptr idx with
    | Res.ok s2 => Res.ok (b, s2)
    | Res.fault => Res.fault
    | Res.spin => Res.spin
  else
    let left_part := ptr
    let s2 := { s1 with bb_sz := upd s1.bb_sz left_part (left - SIZEOF_SIZE_T) }
    if left > sz then
      let s3 := { s2 with bb_next := upd s2.bb_next left_part s2.big_head }
      Res.ok (b, { s3 with big_head := left_part })
    else
      let s3 := { s2 with bb_next := upd s2.bb_next left_part 0 }
      if s3.big_tail = 0 then Res.fault
      else
        let s4 := { s3 with bb_next := upd s3.bb_next s3.big_tail left_part }
        Res.ok (b, { s4 with big_tail := left_part })

/-- The `do ... while (b != term && n < BIGSEARCHDEPTH)` loop of
`lookup_big_memory`, entered with `b` and with `k` rounds of the depth budget
left (`n = BIGSEARCHDEPTH - k`). -/
def lookup_big_loop (sz term : Nat) : Nat → Mgr → Nat → Res (Nat × Mgr)
  | 0, s, _ => Res.ok (0, s)
  | k + 1, s, b =>
    if b = 0 then Res.fault
    else
      let s1 := { s with big_head := s.bb_next b }
      if s1.bb_sz b ≥ sz then
        if s1.bb_sz b = sz then Res.ok (b, s1)
        else split_big_block s1 b sz
      else
        let s2 := { s1 with bb_next := upd s1.bb_next b 0 }
        if s2.big_tail = 0 then Res.fault
        else
          let s3 := { s2 with bb_next := upd s2.bb_next s2.big_tail b }
          let s4 := { s3 with big_tail := b }
          let b1 := s4.big_head
          if b1 ≠ term ∧ k ≠ 0 then lookup_big_loop sz term k s4 b1
          else Res.ok (0, s4)

/-- Embedding of `lookup_big_memory(sz)`; the result pointer `0` is `NULL`. -/
def lookup_big_memory (s : Mgr) (sz : Nat) : Res (Nat × Mgr) :=
  if s.big_head = 0 then Res.ok (0, s)
  else
    let b := s.big_head
    if b = s.big_tail then
      if s.bb_sz b ≥ sz then
        let left := s.bb_sz b - sz
        if left = 0 then Res.ok (b, { s with big_head := 0, big_tail := 0 })
        else
          let s1 := { s with bb_sz := upd s.bb_sz b sz }
          let idx := (left - 1) / SMALLSIZE
          let ptr := b + sz
          if idx < SMALLLEVEL then
            match free_small_memory s1 ptr idx with
            | Res.ok s2 => Res.ok (b, { s2 with big_head := 0, big_tail := 0 })
            | Res.fault => Res.fault
            | Res.spin => Res.spin
          else
            let left_block := ptr
            let s2 := { s1 with bb_sz := upd s1.bb_sz left_block (left - SIZEOF_SIZE_T) }
            Res.ok (b, { s2 with big_head := left_block, big_tail := left_block })
      else Res.ok (0, s)
    else lookup_big_loop sz b BIGSEARCHDEPTH s b

/-- The normalisation `(sz + sizeof(size_t) + 7) & ~7` of `alloc_big_memory`. -/
def big_size (sz : Nat) : Nat :=
  (sz + SIZEOF_SIZE_T + 7) / 8 * 8

/-- Embedding of `alloc_big_memory(sz)`. -/
def alloc_big_memory (pg : Nat) (s : Mgr) (sz0 : Nat) : Res (Nat × Mgr) :=
  let sz := big_size sz0
  let chunk := s.chunk_tail
  if chunk = 0 then Res.fault
  else if s.chunk_used chunk + sz ≤ CHUNKSIZE then
    let b := chunk + s.chunk_used chunk
    let s1 := { s with chunk_used := upd s.chunk_used chunk (s.chunk_used chunk + sz) }
    Res.ok (b + SIZEOF_SIZE_T, { s1 with bb_sz := upd s1.bb_sz b sz })
  else
    match lookup_big_memory s sz with
    | Res.fault => Res.fault
    | Res.spin => Res.spin
    | Res.ok (b, s1) =>
      if b = 0 then
        match new_chunk pg s1 sz with
        | (b1, s2) =>
          if b1 = 0 then Res.ok (0, s2)
          else Res.ok (b1 + SIZEOF_SIZE_T, { s2 with bb_sz := upd s2.bb_sz b1 sz })
      else Res.ok (b + SIZEOF_SIZE_T, s1)

/-- Embedding of `free_big_memory(ptr)`. -/
def free_big_memory (s : Mgr) (ptr : Nat) : Res Mgr :=
  if ptr ≤ SIZEOF_SIZE_T then Res.fault
  else
    let b := ptr - SIZEOF_SIZE_T
    if s.big_head = 0 then
      let s1 := { s with bb_next := upd s.bb_next b 0 }
      Res.ok { s1 with big_head := b, big_tail := b }
    else
      let s1 := { s with bb_next := upd s.bb_next b s.big_head }
      Res.ok { s1 with big_head := b }

/-! ## Facade -/

/-- The class index `((int)(nsize) - 1) / SMALLSIZE` computed by `memory_alloc`. -/
def alloc_index (nsize : Nat) : Nat :=
  (nsize - 1) / SMALLSIZE

/-- The class index `(osize - 1) / SMALLSIZE` computed by `memory_free`, in
`size_t` arithmetic, for `osize` from 1 on (`osize never be 0`).  At `osize = 0`
the quotient wraps to `2 ^ 61 - 1` and the `int` parameter of
`free_small_memory` receives `-1`; that conversion is part of
`Flat.memory_free`. -/
def free_index (osize : Nat) : Nat :=
  (osize + 2 ^ 64 - 1) % 2 ^ 64 / SMALLSIZE

/-- Embedding of `memory_alloc(nsize, file_name)`; the result pointer `0` is `NULL`. -/
def memory_alloc (fuel pg : Nat) (s : Mgr) (nsize : Nat) : Res (Nat × Mgr) :=
  if nsize ≤ SMALLLEVEL * SMALLSIZE then
    if nsize = 0 then Res.ok (0, s)
    else alloc_small_memory fuel pg s (alloc_index nsize)
  else
    if nsize > HUGESIZE then alloc_huge_memory pg s nsize
    else alloc_big_memory pg s nsize

/-- Embedding of `memory_free(ptr, osize)`. -/
def memory_free (s : Mgr) (ptr osize : Nat) : Res Mgr :=
  if osize ≤ SMALLLEVEL * SMALLSIZE then free_small_memory s ptr (free_index osize)
  else if osize < HUGESIZE then free_big_memory s ptr
  else free_huge_memory s ptr

/-- Embedding of `realloc_huge_memory(ptr, nsize)`; `pg` is what `mremap` returns,
taken to be null or the address of the mapping (the source tests `nh == NULL`;
the failure value of `mremap` is `MAP_FAILED`, as for `mmap`).  A mapping that
moves carries its header and payload with it. -/
def realloc_huge_memory (pg : Nat) (s : Mgr) (ptr nsize : Nat) : Res (Nat × Mgr) :=
  if ptr ≤ SIZEOF_HUGEBLOCK then Res.fault
  else
    let h := ptr - SIZEOF_HUGEBLOCK
    let nh := pg
    if nh = 0 then Res.ok (0, s)
    else
      let osz := s.hb_sz h
      let s0 := if nh = h then s else
        { s with
          hb_prev := upd s.hb_prev nh (s.hb_prev h)
          hb_next := upd s.hb_next nh (s.hb_next h)
          bytes := fun a =>
            if nh + SIZEOF_HUGEBLOCK ≤ a ∧ a < nh + SIZEOF_HUGEBLOCK + min osz nsize
            then s.bytes (ptr + (a - (nh + SIZEOF_HUGEBLOCK))) else s.bytes a }
      let s1 := { s0 with hb_sz := upd s0.hb_sz nh nsize }
      if h = nh then Res.ok (ptr, s1)
      else if s1.hb_prev nh = 0 then Res.fault
      else
        let s2 := { s1 with hb_next := upd s1.hb_next (s1.hb_prev nh) nh }
        if s2.hb_next nh = 0 then Res.fault
        else
          Res.ok (nh + SIZEOF_HUGEBLOCK,
            { s2 with hb_prev := upd s2.hb_prev (s2.hb_next nh) nh })

/-- The effect of `memcpy(dst, src, n)` on the payload bytes. -/
def memcpy (s : Mgr) (dst src n : Nat) : Mgr :=
  { s with bytes := fun a =>
      if dst ≤ a ∧ a < dst + n then s.bytes (src + (a - dst)) else s.bytes a }

/-- Embedding of `memory_realloc(ptr, osize, nsize)`; `pg` is what the page source
(`mremap` or `alloc_page`) returns. -/
def memory_realloc (fuel pg : Nat) (s : Mgr) (ptr osize nsize : Nat) : Res (Nat × Mgr) :=
  if osize > HUGESIZE ∧ nsize > HUGESIZE then realloc_huge_memory pg s ptr nsize
  else if nsize ≤ osize then Res.ok (ptr, s)
  else
    match memory_alloc fuel pg s nsize with
    | Res.fault => Res.fault
    | Res.spin => Res.spin
    | Res.ok (tmp, s1) =>
      if tmp = 0 then Res.ok (0, s1)
      else
        match memory_free (memcpy s1 tmp ptr osize) ptr osize with
        | Res.ok s2 => Res.ok (tmp, s2)
        | Res.fault => Res.fault
        | Res.spin => Res.spin

/-- A manager whose only chunk, at `4096`, has `32032` of its bytes in use: the
state after `memory_alloc(8)` and `memory_alloc(32000)` on the fresh allocator,
up to the size header of the second block. -/
def full_chunk_state : Mgr :=
  { init with
    chunk_head := 4096
    chunk_tail := 4096
    chunk_used := upd init.chunk_used 4096 32032 }

/-! ## Call sequences -/

/-- One call of the public interface, with the answer `pg` of the page source
for the call when it is an allocation. -/
inductive Call where
  | alloc (n pg : Nat)
  | free (p n : Nat)

/-- The manager together with the blocks the caller holds: the pairs of a pointer
returned by `memory_alloc` and the size it was requested with. -/
structure World where
  mgr : Mgr
  live : List (Nat × Nat)

/-- One call on a world.  A free must name a block the caller holds, with the size
it was allocated with; `none` stands for a call that breaks this contract, that
faults, or that exhausts the loop budget. -/
def exec (fuel : Nat) (w : World) : Call → Option World
  | Call.alloc n pg =>
    match memory_alloc fuel pg w.mgr n with
    | Res.ok (p, s) => some ⟨s, if p = 0 then w.live else (p, n) :: w.live⟩
    | _ => none
  | Call.free p n =>
    if (p, n) ∈ w.live then
      match memory_free w.mgr p n with
      | Res.ok s => some ⟨s, w.live.erase (p, n)⟩
      | _ => none
    else none

/-- A sequence of calls, from left to right. -/
def run (fuel : Nat) : List Call → World → Option World
  | [], w => some w
  | c :: cs, w =>
    match exec fuel w c with
    | some w1 => run fuel cs w1
    | none => none

/-- Payload pointer of the `i`-th of the 1000-byte blocks allocated by
`oom_script`: 32 blocks in the chunk at `4096` behind one small block, then 32
blocks in each of the chunks at `65536`, `98304`, ... -/
def oom_block (i : Nat) : Nat :=
  if i < 32 then 4096 + 24 + 1008 * i + 8
  else 32768 * ((i - 32) / 32 + 2) + 16 + 1008 * ((i - 32) % 32) + 8

/-- A caller that allocates 8 bytes, then 129 blocks of 1000 bytes, and frees the
129 blocks in the order it got them. -/
def oom_script : List Call :=
  Call.alloc 8 4096 ::
  ((List.range 129).map (fun i => Call.alloc 1000 (32768 * ((i - 32) / 32 + 2)))) ++
  ((List.range 129).map (fun i => Call.free (oom_block i) 1000))

/-- The world `oom_script` leads to from the fresh allocator. -/
def oom_world : World :=
  (run 1 oom_script ⟨init, []⟩).getD ⟨init, []⟩

/-- The manager after `memory_alloc(32000)` in `oom_world` with a failing page
source. -/
def oom_after : Mgr :=
  match memory_alloc 1 0 oom_world.mgr 32000 with
  | Res.ok (_, s) => s
  | _ => oom_world.mgr

/-- What a call may change when it only rotates the big free list: `big_head`,
`big_tail` and the `next` links of big blocks; everything else is as before. -/
def BigLinksOnly (s t : Mgr) : Prop :=
  t.small_list = s.small_list ∧ t.chunk_head = s.chunk_head ∧
  t.chunk_tail = s.chunk_tail ∧ t.chunk_next = s.chunk_next ∧
  t.chunk_used = s.chunk_used ∧ t.sb_next = s.sb_next ∧ t.bb_sz = s.bb_sz ∧
  t.hb_sz = s.hb_sz ∧ t.hb_prev = s.hb_prev ∧ t.hb_next = s.hb_next ∧
  t.bytes = s.bytes

/-! ## Free lists and regions -/

/-- The null-terminated list that starts at `h`, link by link: its nodes are `xs`. -/
def IsList (next : Nat → Nat) : Nat → List Nat → Prop
  | h, [] => h = 0
  | h, x :: xs => h = x ∧ x ≠ 0 ∧ IsList next (next x) xs

/-- The list that runs from the node `h` to the node `t`, link by link: its nodes
are `xs`.  Nothing is said about the link of `t`. -/
def IsSeg (next : Nat → Nat) : Nat → Nat → List Nat → Prop
  | _, _, [] => False
  | h, t, [x] => h = x ∧ t = x ∧ x ≠ 0
  | h, t, x :: y :: ys => h = x ∧ x ≠ 0 ∧ IsSeg next (next x) t (y :: ys)

/-- The last node of a list of nodes, `NULL` for the empty list. -/
def lastD : List Nat → Nat
  | [] => 0
  | [x] => x
  | _ :: y :: ys => lastD (y :: ys)

/-- The node `q` is met when the list at `h` is followed link by link, not going
past the node `stop` and not past `NULL`. -/
inductive Reach (next : Nat → Nat) (stop : Nat) : Nat → Nat → Prop where
  | here (h : Nat) : h ≠ 0 → Reach next stop h h
  | step (h q : Nat) : h ≠ 0 → h ≠ stop → Reach next stop (next h) q → Reach next stop h q

/-- The block at `q` sits on the small free list of class `i`. -/
def SmallFree (s : Mgr) (i q : Nat) : Prop :=
  Reach s.sb_next 0 (s.small_list i) q

/-- The block whose header is at `b` sits on the big free list. -/
def BigFree (s : Mgr) (b : Nat) : Prop :=
  Reach s.bb_next s.big_tail s.big_head b

/-- Two byte ranges, each given by its start and its length, do not overlap. -/
def Disj (r1 r2 : Nat × Nat) : Prop :=
  r1.1 + r1.2 ≤ r2.1 ∨ r2.1 + r2.2 ≤ r1.1

/-- Two mappings of `CHUNKSIZE` bytes do not overlap. -/
def Apart (c d : Nat) : Prop :=
  c + CHUNKSIZE ≤ d ∨ d + CHUNKSIZE ≤ c

/-- The non-null answers of the page source along a sequence of calls. -/
def pages : List Call → List Nat
  | [] => []
  | Call.alloc _ pg :: cs => if pg = 0 then pages cs else pg :: pages cs
  | Call.free _ _ :: cs => pages cs

/-- The bytes a live block `(p, n)` occupies: its size class for a small block, the
header and the normalised size for a big one. -/
def lreg (x : Nat × Nat) : Nat × Nat :=
  if x.2 ≤ SMALLLEVEL * SMALLSIZE then (x.1, (alloc_index x.2 + 1) * SMALLSIZE)
  else (x.1 - SIZEOF_SIZE_T, big_size x.2)

/-- The bytes of the free small blocks, class by class. -/
def sregs (sl : Nat → List Nat) : List (Nat × Nat) :=
  (List.range SMALLLEVEL).flatMap (fun i => (sl i).map (fun q => (q, (i + 1) * SMALLSIZE)))

/-- The bytes of the free big blocks. -/
def bregs (bbsz : Nat → Nat) (bl : List Nat) : List (Nat × Nat) :=
  bl.map (fun b => (b, bbsz b))

/-- Every block, live or free: the live blocks, the nodes of the small free lists
and the nodes of the big free list with their size fields. -/
def regions (bbsz : Nat → Nat) (live : List (Nat × Nat)) (sl : Nat → List Nat)
    (bl : List Nat) : List (Nat × Nat) :=
  live.map lreg ++ (sregs sl ++ bregs bbsz bl)

/-- The nodes of the chunk list, of the small free lists and of the big free list. -/
structure Abs where
  cs : List Nat
  sl : Nat → List Nat
  bl : List Nat

/-- Blocks that do not overlap, are not empty, and lie in the used part of a chunk. -/
def RegOK (cs : List Nat) (used : Nat → Nat) (L : List (Nat × Nat)) : Prop :=
  L.Pairwise Disj ∧
  ∀ r ∈ L, 0 < r.2 ∧ ∃ c ∈ cs, c + SIZEOF_CHUNK ≤ r.1 ∧ r.1 + r.2 ≤ c + used c

/-- The invariant of the allocator on the states it reaches. -/
structure Inv (s : Mgr) (live : List (Nat × Nat)) (a : Abs) : Prop where
  chunks : IsList s.chunk_next s.chunk_head a.cs
  ctail : s.chunk_tail = lastD a.cs
  capart : a.cs.Pairwise Apart
  cused : ∀ c ∈ a.cs, SIZEOF_CHUNK ≤ s.chunk_used c ∧ s.chunk_used c ≤ CHUNKSIZE + 8
  small : ∀ i, IsList s.sb_next (s.small_list i) (a.sl i)
  shigh : ∀ i, SMALLLEVEL ≤ i → a.sl i = []
  big : (a.bl = [] ∧ s.big_head = 0) ∨ IsSeg s.bb_next s.big_head s.big_tail a.bl
  bsz : ∀ b ∈ a.bl, s.bb_sz b % 8 = 0
  lsz : ∀ x ∈ live, 1 ≤ x.2 ∧ x.2 ≤ HUGESIZE ∧
    (SMALLLEVEL * SMALLSIZE < x.2 → SIZEOF_SIZE_T ≤ x.1 ∧
      s.bb_sz (x.1 - SIZEOF_SIZE_T) = big_size x.2)
  reg : RegOK a.cs s.chunk_used (regions s.bb_sz live a.sl a.bl)
  huge : s.hb_prev = (fun _ => 0) ∧ s.hb_next huge_list_addr = 0

/-- The invariant without what it says about the links of the big free list. -/
structure InvNB (s : Mgr) (live : List (Nat × Nat)) (a : Abs) : Prop where
  chunks : IsList s.chunk_next s.chunk_head a.cs
  ctail : s.chunk_tail = lastD a.cs
  capart : a.cs.Pairwise Apart
  cused : ∀ c ∈ a.cs, SIZEOF_CHUNK ≤ s.chunk_used c ∧ s.chunk_used c ≤ CHUNKSIZE + 8
  small : ∀ i, IsList s.sb_next (s.small_list i) (a.sl i)
  shigh : ∀ i, SMALLLEVEL ≤ i → a.sl i = []
  bsz : ∀ b ∈ a.bl, s.bb_sz b % 8 = 0
  lsz : ∀ x ∈ live, 1 ≤ x.2 ∧ x.2 ≤ HUGESIZE ∧
    (SMALLLEVEL * SMALLSIZE < x.2 → SIZEOF_SIZE_T ≤ x.1 ∧
      s.bb_sz (x.1 - SIZEOF_SIZE_T) = big_size x.2)
  reg : RegOK a.cs s.chunk_used (regions s.bb_sz live a.sl a.bl)
  huge : s.hb_prev = (fun _ => 0) ∧ s.hb_next huge_list_addr = 0

/-- The pages along a run stay apart from the chunks and from each other. -/
def PagesOK (cs : List Nat) (calls : List Call) : Prop :=
  (pages calls).Pairwise Apart ∧ ∀ c ∈ cs, ∀ pg ∈ pages calls, Apart c pg

/-- A caller that allocates a small and a big block, frees both, and then asks for
a block that needs a second chunk. -/
def demo_calls : List Call :=
  [Call.alloc 24 4096, Call.alloc 1000 0, Call.free 4112 24, Call.free 4144 1000,
    Call.alloc 32000 40960]

/-- The world `demo_calls` leads to from the fresh allocator. -/
def demo_world : World :=
  (run 1 demo_calls ⟨init, []⟩).getD ⟨init, []⟩

/-! ## Calls with realloc, frames and further states -/

/-- What no call changes: the payload bytes (outside `memcpy`) and the slots of
`small_list` past the array; and the spare slot `small_list[SMALLLEVEL]` stays
empty if it was. -/
def Kept (s t : Mgr) : Prop :=
  t.bytes = s.bytes ∧ (∀ i, SMALLLEVEL < i → t.small_list i = s.small_list i) ∧
  (s.small_list SMALLLEVEL = 0 → t.small_list SMALLLEVEL = 0)

/-- One call of the public interface, `memory_realloc` included, with the answer
`pg` of the page source for the call when it may ask for a mapping. -/
inductive Op where
  | alloc (n pg : Nat)
  | free (p n : Nat)
  | realloc (p osize nsize pg : Nat)

/-- One call on a world, under the caller's contract: `memory_free` and
`memory_realloc` name a block the caller holds, with the size it has for the
caller, and that size is not 0 (`osize never be 0`).  A block that went through
`memory_realloc` is held with its new size.  The result `none` stands for a call
that breaks the contract, faults, or exhausts the loop budget. -/
def step (fuel : Nat) (w : World) : Op → Option World
  | Op.alloc n pg =>
    match memory_alloc fuel pg w.mgr n with
    | Res.ok (p, s) => some ⟨s, if p = 0 then w.live else (p, n) :: w.live⟩
    | _ => none
  | Op.free p n =>
    if (p, n) ∈ w.live ∧ 1 ≤ n then
      match memory_free w.mgr p n with
      | Res.ok s => some ⟨s, w.live.erase (p, n)⟩
      | _ => none
    else none
  | Op.realloc p osize nsize pg =>
    if (p, osize) ∈ w.live ∧ 1 ≤ osize then
      match memory_realloc fuel pg w.mgr p osize nsize with
      | Res.ok (q, s) =>
        some ⟨s, if q = 0 then w.live else (q, nsize) :: w.live.erase (p, osize)⟩
      | _ => none
    else none

/-- A sequence of calls, from left to right. -/
def steps (fuel : Nat) : List Op → World → Option World
  | [], w => some w
  | c :: cs, w =>
    match step fuel w c with
    | some w1 => steps fuel cs w1
    | none => none

/-- What the small tier and the chunk arena leave alone: the big list, the size
fields of the big blocks and the huge ring. -/
def BigKept (s t : Mgr) : Prop :=
  t.big_head = s.big_head ∧ t.big_tail = s.big_tail ∧ t.bb_sz = s.bb_sz ∧
  t.bb_next = s.bb_next ∧ t.hb_prev = s.hb_prev ∧ t.hb_next = s.hb_next

/-- The size fields of the big tier: every size field that was ever written
holds a multiple of 8 between 256 and `CHUNKSIZE - 8`; the head of the big list
and every block a `next` link leads to have a written size field; and the huge
ring is as in the fresh allocator. -/
structure BigSizes (s : Mgr) : Prop where
  range : ∀ x, s.bb_sz x % 8 = 0 ∧ s.bb_sz x ≤ CHUNKSIZE - 8 ∧
    (s.bb_sz x = 0 ∨ SMALLLEVEL * SMALLSIZE ≤ s.bb_sz x)
  head : s.big_head ≠ 0 → s.bb_sz s.big_head ≠ 0
  link : ∀ y, s.bb_next y ≠ 0 → s.bb_sz (s.bb_next y) ≠ 0
  hprev : ∀ x, s.hb_prev x = 0
  hnext : s.hb_next huge_list_addr = 0

/-- The blocks the caller holds: none is of a huge size, and every block of a big
size has a written size field in front of its payload. -/
def LiveSizes (w : World) : Prop :=
  ∀ pn ∈ w.live, pn.2 ≤ HUGESIZE ∧
    (SMALLLEVEL * SMALLSIZE < pn.2 → w.mgr.bb_sz (pn.1 - SIZEOF_SIZE_T) ≠ 0)

/-- A caller that allocates 8, 1000 and 31000 bytes, frees the 1000-byte block
and allocates 736 bytes. -/
def rem256_ops : List Op :=
  [Op.alloc 8 4096, Op.alloc 1000 0, Op.alloc 31000 0, Op.free 4128 1000, Op.alloc 736 0]

/-- The world after `rem256_ops` on the fresh allocator. -/
def rem256_world : World :=
  (steps 1 rem256_ops ⟨init, []⟩).getD ⟨init, []⟩

/-- The state after the rotation of `lookup_big_memory` has moved the head `b`,
which does not fit, behind the tail (lines 185 and 216-218). -/
def big_rotate (s : Mgr) (b : Nat) : Mgr :=
  { s with
    big_head := s.bb_next b
    bb_next := upd (upd s.bb_next b 0) s.big_tail b
    big_tail := b }

/-- A big list of three blocks of size 1008 in a full chunk. -/
def three_big_state : Mgr :=
  { init with
    chunk_head := 4096
    chunk_tail := 4096
    chunk_used := upd init.chunk_used 4096 32768
    big_head := 4120
    big_tail := 6136
    bb_sz := upd (upd (upd init.bb_sz 4120 1008) 5128 1008) 6136 1008
    bb_next := upd (upd init.bb_next 4120 5128) 5128 6136 }

/-- The loop of `lookup_big_memory` as `lookup_big_loop` has it, together with
the number of list nodes it visits: one for every round it enters. -/
def lookup_big_loop_count (sz term : Nat) : Nat → Mgr → Nat → Res (Nat × Mgr) × Nat
  | 0, s, _ => (Res.ok (0, s), 0)
  | k + 1, s, b =>
    if b = 0 then (Res.fault, 1)
    else
      let s1 := { s with big_head := s.bb_next b }
      if s1.bb_sz b ≥ sz then
        (if s1.bb_sz b = sz then Res.ok (b, s1) else split_big_block s1 b sz, 1)
      else
        let s2 := { s1 with bb_next := upd s1.bb_next b 0 }
        if s2.big_tail = 0 then (Res.fault, 1)
        else
          let s3 := { s2 with bb_next := upd s2.bb_next s2.big_tail b }
          let s4 := { s3 with big_tail := b }
          let b1 := s4.big_head
          if b1 ≠ term ∧ k ≠ 0 then
            ((lookup_big_loop_count sz term k s4 b1).1,
              (lookup_big_loop_count sz term k s4 b1).2 + 1)
          else (Res.ok (0, s4), 1)

/-- The result of `lookup_big_memory(sz)` together with the number of list nodes
it visits: none on the empty list, the one block of a single-element list, and
the rounds of the rotation otherwise. -/
def lookup_big_memory_count (s : Mgr) (sz : Nat) : Res (Nat × Mgr) × Nat :=
  if s.big_head = 0 then (lookup_big_memory s sz, 0)
  else if s.big_head = s.big_tail then (lookup_big_memory s sz, 1)
  else lookup_big_loop_count sz s.big_head BIGSEARCHDEPTH s s.big_head

/-- The huge blocks `xs` are linked in this order, both ways, from the node `p`
on and back to the sentinel `G`: `p.next` is the first of them and points back
to `p`, and the last of them (or `p`) has `G` as its `next`, `G` pointing back
to it. -/
def RingFrom (next prev : Nat → Nat) (G : Nat) : Nat → List Nat → Prop
  | p, [] => next p = G ∧ prev G = p
  | p, x :: xs => next p = x ∧ prev x = p ∧ x ≠ 0 ∧ x ≠ G ∧ RingFrom next prev G x xs

/-- The huge list is a circular doubly linked ring through the sentinel
`g_mgr.huge_list`, with the blocks `xs` in the order of the `next` links. -/
def IsRing (s : Mgr) (xs : List Nat) : Prop :=
  RingFrom s.hb_next s.hb_prev huge_list_addr huge_list_addr xs ∧ xs.Nodup

/-- A manager whose sentinel has been made a ring of no block: it points to
itself both ways. -/
def ring_state : Mgr :=
  { init with
    hb_next := upd init.hb_next huge_list_addr huge_list_addr
    hb_prev := upd init.hb_prev huge_list_addr huge_list_addr }

/-- The state after `alloc_huge_memory(sz)` has spliced the mapping `h` in between
the sentinel and the sentinel's `next` (lines 134-140). -/
def huge_link (s : Mgr) (h sz : Nat) : Mgr :=
  { s with
    hb_sz := upd s.hb_sz h sz
    hb_prev := upd (upd s.hb_prev h huge_list_addr) (s.hb_next huge_list_addr) h
    hb_next := upd (upd s.hb_next h (s.hb_next huge_list_addr)) huge_list_addr h }

/-- The state after `free_huge_memory` has spliced the block `h` out (lines
147-148). -/
def huge_unlink (s : Mgr) (h : Nat) : Mgr :=
  { s with
    hb_next := upd s.hb_next (s.hb_prev h) (s.hb_next h)
    hb_prev := upd s.hb_prev (upd s.hb_next (s.hb_prev h) (s.hb_next h) h) (s.hb_prev h) }

/-! ## The heap as one memory -/

/-- The value `MAP_FAILED`, `(void *) -1`, that `mmap` returns when it fails. -/
def MAP_FAILED : Nat := 2 ^ 64 - 1

/-- Outcome of a call on the flat heap: a value, an access to an address that is
not mapped, an exhausted budget of the chunk walk, or an access to
`g_mgr.small_list` at an index outside `0 .. SMALLLEVEL`. -/
inductive Out (α : Type) where
  | ok : α → Out α
  | fault : Out α
  | spin : Out α
  | wild : Int → Out α

/-- Sequencing: the first outcome that is not a value ends the call. -/
def Out.bind {α β : Type} : Out α → (α → Out β) → Out β
  | Out.ok a, f => f a
  | Out.fault, _ => Out.fault
  | Out.spin, _ => Out.spin
  | Out.wild i, _ => Out.wild i

instance : Monad Out where
  pure := Out.ok
  bind := Out.bind

/-- A 64-bit word read as a C `int`: its low 32 bits in two's complement. -/
def toInt32 (w : Nat) : Int :=
  if w % 2 ^ 32 < 2 ^ 31 then ((w % 2 ^ 32 : Nat) : Int)
  else ((w % 2 ^ 32 : Nat) : Int) - 2 ^ 32

/-- A C integer converted to `size_t`. -/
def toU64 (i : Int) : Nat :=
  (i % 2 ^ 64).toNat

/-- Pointer plus a signed byte offset, in 64-bit arithmetic. -/
def padd (p : Nat) (off : Int) : Nat :=
  toU64 ((p : Int) + off)

/-- The global `g_mgr` and the heap as one memory: `mem a` is the 8-byte word at
the address `a`, whatever struct it is read through, and `maps` lists the mapped
ranges, each with its start and its length.  The sentinel `g_mgr.huge_list` is
the mapped range at `huge_list_addr`.  Every address the code forms from
8-aligned mappings and sizes is 8-aligned; words that overlap at unaligned
addresses are not modelled. -/
structure Heap where
  small_list : Nat → Nat
  chunk_head : Nat
  chunk_tail : Nat
  big_head : Nat
  big_tail : Nat
  mem : Nat → Nat
  maps : List (Nat × Nat)

namespace Flat

/-- The zero-initialised `g_mgr`; nothing but the sentinel is mapped. -/
def init : Heap :=
  { small_list := fun _ => 0
    chunk_head := 0
    chunk_tail := 0
    big_head := 0
    big_tail := 0
    mem := fun _ => 0
    maps := [(huge_list_addr, SIZEOF_HUGEBLOCK)] }

/-- The `n` bytes at `a` lie in one mapped range and below the end of the address
space. -/
def mapped (h : Heap) (a n : Nat) : Bool :=
  decide (a + n ≤ 2 ^ 64) && h.maps.any (fun r => decide (r.1 ≤ a) && decide (a + n ≤ r.1 + r.2))

/-- Read of a pointer or `size_t` member at address `a`. -/
def load (h : Heap) (a : Nat) : Out Nat :=
  if mapped h a 8 then Out.ok (h.mem a) else Out.fault

/-- Write of a pointer or `size_t` member at address `a`. -/
def store (h : Heap) (a v : Nat) : Out Heap :=
  if mapped h a 8 then Out.ok { h with mem := upd h.mem a v } else Out.fault

/-- Read of an `int` member at address `a`: the low half of the word there. -/
def load_int (h : Heap) (a : Nat) : Out Int :=
  if mapped h a 4 then Out.ok (toInt32 (h.mem a)) else Out.fault

/-- Write of an `int` member at address `a`: the high half of the word stays. -/
def store_int (h : Heap) (a : Nat) (v : Int) : Out Heap :=
  if mapped h a 4 then
    Out.ok { h with mem := upd h.mem a (h.mem a / 2 ^ 32 * 2 ^ 32 + toU64 v % 2 ^ 32) }
  else Out.fault

/-- The effect of `alloc_page(len)` when `mmap` answers `pg`: a fresh zero-filled
mapping at `pg`, or nothing when `pg` is `MAP_FAILED` (or null). -/
def alloc_page (h : Heap) (pg len : Nat) : Heap :=
  if pg = MAP_FAILED ∨ pg = 0 then h
  else
    { h with
      maps := (pg, len) :: h.maps
      mem := fun a => if pg ≤ a ∧ a < pg + len then 0 else h.mem a }

/-- Embedding of `new_chunk(sz)`; `pg` is what `mmap` returns. -/
def new_chunk (pg : Nat) (h : Heap) (sz : Int) : Out (Nat × Heap) :=
  let nc := pg
  let h0 := alloc_page h pg CHUNKSIZE
  if nc = 0 then Out.ok (0, h0)
  else do
    let h1 ← store h0 nc 0
    let h2 ← store_int h1 (padd nc 8) (SIZEOF_CHUNK + sz)
    let h3 := if h2.chunk_head = 0 then { h2 with chunk_head := nc } else h2
    let h4 ← if h3.chunk_tail ≠ 0 then store h3 h3.chunk_tail nc else Out.ok h3
    Out.ok (padd nc SIZEOF_CHUNK, { h4 with chunk_tail := nc })

/-- Embedding of `free_small_memory(ptr, n)` with the `int` index `n`. -/
def free_small_memory (h : Heap) (ptr : Nat) (n : Int) : Out Heap :=
  if n < 0 ∨ (SMALLLEVEL : Int) < n then Out.wild n
  else do
    let h1 ← store h ptr (h.small_list n.toNat)
    Out.ok { h1 with small_list := upd h1.small_list n.toNat ptr }

/-- The `while (nsize > 0)` loop of `split_small_memory`; `nsize` rounds are
always enough. -/
def split_small_loop : Nat → Heap → Nat → Int → Out Heap
  | 0, h, _, nsize => if nsize > 0 then Out.spin else Out.ok h
  | k + 1, h, sb, nsize =>
    if nsize > 0 then
      let idx := (nsize - 1).tdiv SMALLSIZE
      if (SMALLLEVEL : Int) < idx then Out.wild idx
      else do
        let h1 ← store h sb (h.small_list idx.toNat)
        let h2 := { h1 with small_list := upd h1.small_list idx.toNat sb }
        split_small_loop k h2 (padd sb ((idx + 1) * SMALLSIZE)) (nsize - (idx + 1) * SMALLSIZE)
    else Out.ok h

/-- Embedding of `split_small_memory(ptr, nsize)`. -/
def split_small_memory (h : Heap) (ptr : Nat) (nsize : Int) : Out Heap :=
  split_small_loop nsize.toNat h ptr nsize

/-- The chunk walk of `alloc_small_memory`: the block carved from the first chunk,
from `chunk` on, whose `chunk_used + sz` is at most `CHUNKSIZE`, or `none` at the
end of the list. -/
def find_chunk : Nat → Heap → Nat → Int → Out (Option (Nat × Heap))
  | 0, _, chunk, _ => if chunk = 0 then Out.ok none else Out.spin
  | k + 1, h, chunk, sz =>
    if chunk = 0 then Out.ok none
    else do
      let used ← load_int h (padd chunk 8)
      if used + sz ≤ CHUNKSIZE then
        let h1 ← store_int h (padd chunk 8) (used + sz)
        Out.ok (some (padd chunk used, h1))
      else
        let nx ← load h chunk
        find_chunk k h nx sz

/-- The scan `for (i = n + 1; i <= SMALLLEVEL; i++)` of `alloc_small_memory`, with
`k` rounds left and the loop variable at `i`. -/
def lookup_larger (h : Heap) (sz : Int) : Nat → Nat → Out (Option (Nat × Heap))
  | 0, _ => Out.ok none
  | k + 1, i =>
    let ret := h.small_list i
    if ret ≠ 0 then do
      let nx ← load h ret
      let h1 := { h with small_list := upd h.small_list i nx }
      let h2 ← split_small_memory h1 (padd ret sz) ((i + 1) * SMALLSIZE - sz)
      Out.ok (some (ret, h2))
    else lookup_larger h sz k (i + 1)

/-- Embedding of `alloc_small_memory(n)`. -/
def alloc_small_memory (fuel pg : Nat) (h : Heap) (n : Int) : Out (Nat × Heap) :=
  if n < 0 ∨ (SMALLLEVEL : Int) < n then Out.wild n
  else
    let node := h.small_list n.toNat
    if node ≠ 0 then do
      let nx ← load h node
      Out.ok (node, { h with small_list := upd h.small_list n.toNat nx })
    else
      let sz : Int := (n + 1) * SMALLSIZE
      match find_chunk fuel h h.chunk_head sz with
      | Out.ok (some r) => Out.ok r
      | Out.ok none =>
        match lookup_larger h sz (SMALLLEVEL - n.toNat) (n.toNat + 1) with
        | Out.ok (some r) => Out.ok r
        | Out.ok none => new_chunk pg h sz
        | Out.fault => Out.fault
        | Out.spin => Out.spin
        | Out.wild i => Out.wild i
      | Out.fault => Out.fault
      | Out.spin => Out.spin
      | Out.wild i => Out.wild i

/-- Embedding of `alloc_huge_memory(sz)`; `pg` is what `mmap` returns.  The guard
before `h->next = g_mgr.huge_list.next` is read as a test of the sentinel's
`next`. -/
def alloc_huge_memory (pg : Nat) (h : Heap) (sz : Nat) : Out (Nat × Heap) :=
  let hb := pg
  let h0 := alloc_page h pg ((sz + SIZEOF_HUGEBLOCK + 4095) / 4096 * 4096)
  if hb = 0 then Out.ok (0, h0)
  else do
    let h1 ← store h0 (padd hb 8) huge_list_addr
    let nx ← load h1 (huge_list_addr + 16)
    let h2 ← if nx ≠ 0 then store h1 (padd hb 16) nx else Out.ok h1
    let h3 ← store h2 hb sz
    let nx1 ← load h3 (huge_list_addr + 16)
    let h4 ← store h3 (padd nx1 8) hb
    let h5 ← store h4 (huge_list_addr + 16) hb
    Out.ok (padd hb SIZEOF_HUGEBLOCK, h5)

/-- Embedding of `free_huge_memory(ptr)`; `munmap` takes away the mapping that
starts at the block (for a pointer into a chunk, where no mapping starts, the
list of mappings stays as it is). -/
def free_huge_memory (h : Heap) (ptr : Nat) : Out Heap := do
  let hb := padd ptr (-24)
  let pv ← load h (padd hb 8)
  let nx ← load h (padd hb 16)
  let h1 ← store h (padd pv 16) nx
  let nx1 ← load h1 (padd hb 16)
  let pv1 ← load h1 (padd hb 8)
  let h2 ← store h1 (padd nx1 8) pv1
  let _ ← load h2 hb
  Out.ok { h2 with maps := h2.maps.filter (fun r => decide (r.1 ≠ hb)) }

/-- The block `b`, whose size `bsz` is more than `sz`, is cut by the rotation of
`lookup_big_memory` (lines 192-213); `left`, `idx` are C `int`s. -/
def split_big_block (h : Heap) (b bsz : Nat) (sz : Int) : Out (Nat × Heap) :=
  let left := toInt32 ((bsz + 2 ^ 64 - toU64 sz) % 2 ^ 64)
  let idx := (left - 1).tdiv SMALLSIZE
  let ptr := padd b sz
  do
    let h1 ← store h b (toU64 sz)
    if idx < SMALLLEVEL then
      let h2 ← free_small_memory h1 ptr idx
      Out.ok (b, h2)
    else
      let h2 ← store h1 ptr (toU64 (left - SIZEOF_SIZE_T))
      if left > sz then
        let h3 ← store h2 (padd ptr 8) h2.big_head
        Out.ok (b, { h3 with big_head := ptr })
      else
        let h3 ← store h2 (padd ptr 8) 0
        let h4 ← store h3 (padd h3.big_tail 8) ptr
        Out.ok (b, { h4 with big_tail := ptr })

/-- The `do ... while (b != term && n < BIGSEARCHDEPTH)` loop of
`lookup_big_memory`, with `k` rounds of the depth budget left. -/
def lookup_big_loop (sz : Int) (term : Nat) : Nat → Heap → Nat → Out (Nat × Heap)
  | 0, h, _ => Out.ok (0, h)
  | k + 1, h, b => do
    let nx ← load h (padd b 8)
    let h1 := { h with big_head := nx }
    let bsz ← load h1 b
    if bsz ≥ toU64 sz then
      if bsz = toU64 sz then Out.ok (b, h1)
      else split_big_block h1 b bsz sz
    else
      let h2 ← store h1 (padd b 8) 0
      let h3 ← store h2 (padd h2.big_tail 8) b
      let h4 := { h3 with big_tail := b }
      let b1 := h4.big_head
      if b1 ≠ term ∧ k ≠ 0 then lookup_big_loop sz term k h4 b1
      else Out.ok (0, h4)

/-- Embedding of `lookup_big_memory(sz)`; `left` and `idx` are C `int`s, the
comparison `b->sz >= sz` is one of `size_t`s. -/
def lookup_big_memory (h : Heap) (sz : Int) : Out (Nat × Heap) :=
  if h.big_head = 0 then Out.ok (0, h)
  else
    let b := h.big_head
    if b = h.big_tail then do
      let bsz ← load h b
      if bsz ≥ toU64 sz then
        let left := toInt32 ((bsz + 2 ^ 64 - toU64 sz) % 2 ^ 64)
        if left = 0 then Out.ok (b, { h with big_head := 0, big_tail := 0 })
        else
          let h1 ← store h b (toU64 sz)
          let idx := (left - 1).tdiv SMALLSIZE
          let ptr := padd b sz
          if idx < SMALLLEVEL then
            let h2 ← free_small_memory h1 ptr idx
            Out.ok (b, { h2 with big_head := 0, big_tail := 0 })
          else
            let h2 ← store h1 ptr (toU64 (left - SIZEOF_SIZE_T))
            Out.ok (b, { h2 with big_head := ptr, big_tail := ptr })
      else Out.ok (0, h)
    else lookup_big_loop sz b BIGSEARCHDEPTH h b

/-- The normalisation `(sz + sizeof(size_t) + 7) & ~7` of `alloc_big_memory`,
computed in `size_t` and stored in an `int`. -/
def big_size (sz : Int) : Int :=
  toInt32 ((toU64 sz + SIZEOF_SIZE_T + 7) % 2 ^ 64 / 8 * 8)

/-- Embedding of `alloc_big_memory(sz)`. -/
def alloc_big_memory (pg : Nat) (h : Heap) (sz0 : Int) : Out (Nat × Heap) :=
  let sz := big_size sz0
  let chunk := h.chunk_tail
  do
    let used ← load_int h (padd chunk 8)
    if used + sz ≤ CHUNKSIZE then
      let b := padd chunk used
      let h1 ← store_int h (padd chunk 8) (used + sz)
      let h2 ← store h1 b (toU64 sz)
      Out.ok (padd b SIZEOF_SIZE_T, h2)
    else
      let r ← lookup_big_memory h sz
      if r.1 = 0 then
        let r1 ← new_chunk pg r.2 sz
        if r1.1 = 0 then Out.ok (0, r1.2)
        else
          let h2 ← store r1.2 r1.1 (toU64 sz)
          Out.ok (padd r1.1 SIZEOF_SIZE_T, h2)
      else Out.ok (padd r.1 SIZEOF_SIZE_T, r.2)

/-- Embedding of `free_big_memory(ptr)`. -/
def free_big_memory (h : Heap) (ptr : Nat) : Out Heap :=
  let b := padd ptr (-8)
  if h.big_head = 0 then do
    let h1 ← store h (padd b 8) 0
    Out.ok { h1 with big_head := b, big_tail := b }
  else do
    let h1 ← store h (padd b 8) h.big_head
    Out.ok { h1 with big_head := b }

/-- Embedding of `memory_alloc(nsize, file_name)`; `nsize` is a `size_t`. -/
def memory_alloc (fuel pg : Nat) (h : Heap) (nsize : Nat) : Out (Nat × Heap) :=
  if nsize ≤ SMALLLEVEL * SMALLSIZE then
    if nsize = 0 then Out.ok (0, h)
    else alloc_small_memory fuel pg h ((toInt32 nsize - 1).tdiv SMALLSIZE)
  else
    if nsize > HUGESIZE then alloc_huge_memory pg h nsize
    else alloc_big_memory pg h (toInt32 nsize)

/-- Embedding of `memory_free(ptr, osize)`; the index `(osize - 1) / SMALLSIZE` is
computed in `size_t` and passed as an `int`. -/
def memory_free (h : Heap) (ptr osize : Nat) : Out Heap :=
  if osize ≤ SMALLLEVEL * SMALLSIZE then
    free_small_memory h ptr (toInt32 ((osize + 2 ^ 64 - 1) % 2 ^ 64 / SMALLSIZE))
  else if osize < HUGESIZE then free_big_memory h ptr
  else free_huge_memory h ptr

end Flat

/-- The flat heap together with the blocks the caller holds. -/
structure HWorld where
  heap : Heap
  live : List (Nat × Nat)

namespace Flat

/-- One call on a world of the flat heap.  The result `none` stands for a
`memory_free` that does not name a block the caller holds with the size it was
allocated with; the caller writes nothing into its blocks. -/
def exec (fuel : Nat) (w : HWorld) : Call → Option (Out HWorld)
  | Call.alloc n pg =>
    match memory_alloc fuel pg w.heap n with
    | Out.ok (p, h) => some (Out.ok ⟨h, if p = 0 then w.live else (p, n) :: w.live⟩)
    | Out.fault => some Out.fault
    | Out.spin => some Out.spin
    | Out.wild i => some (Out.wild i)
  | Call.free p n =>
    if (p, n) ∈ w.live then
      match memory_free w.heap p n with
      | Out.ok h => some (Out.ok ⟨h, w.live.erase (p, n)⟩)
      | Out.fault => some Out.fault
      | Out.spin => some Out.spin
      | Out.wild i => some (Out.wild i)
    else none

/-- A sequence of calls, from left to right, up to the first call that does not
return. -/
def run (fuel : Nat) : List Call → HWorld → Option (Out HWorld)
  | [], w => some (Out.ok w)
  | c :: cs, w =>
    match exec fuel w c with
    | some (Out.ok w1) => run fuel cs w1
    | r => r

end Flat

/-- The run that ends with a block inside a live block: the pages are `73728` and,
right below it, `40960`. -/
def alias_ops : List Call :=
  [Call.alloc 8 73728, Call.alloc 32736 0, Call.free 73744 8, Call.alloc 32745 40960,
    Call.free 40984 32745, Call.alloc 32737 0, Call.alloc 16 0]

/-- The world after `alias_ops` on the fresh allocator. -/
def alias_world : HWorld :=
  match Flat.run 8 alias_ops ⟨Flat.init, []⟩ with
  | some (Out.ok w) => w
  | _ => ⟨Flat.init, []⟩

/-- The run that ends with a pointer in the size word of a block on the big list:
the pages are `2415951872`, the page right below it, and the page right above
it. -/
def wild_ops : List Call :=
  [Call.alloc 8 2415951872, Call.alloc 32736 0, Call.free 2415951888 8,
    Call.alloc 32745 2415919104, Call.free 2415919128 32745, Call.alloc 32737 0,
    Call.alloc 24 0, Call.alloc 1000 2415984640, Call.free 2415951904 32736,
    Call.alloc 32745 0, Call.free 2415984664 1000]

/-- The world after `wild_ops` on the fresh allocator. -/
def wild_world : HWorld :=
  match Flat.run 8 wild_ops ⟨Flat.init, []⟩ with
  | some (Out.ok w) => w
  | _ => ⟨Flat.init, []⟩

/-- A caller that fills the chunk at `73728`: 8 bytes, then a big block up to the
last byte of the chunk. -/
def full_ops : List Call :=
  [Call.alloc 8 73728, Call.alloc 32736 0]

/-- The world after `full_ops` on the fresh allocator. -/
def full_world : HWorld :=
  match Flat.run 8 full_ops ⟨Flat.init, []⟩ with
  | some (Out.ok w) => w
  | _ => ⟨Flat.init, []⟩

/-- The calls of `rem256_ops` as calls on the flat heap. -/
def rem256_calls : List Call :=
  [Call.alloc 8 4096, Call.alloc 1000 0, Call.alloc 31000 0, Call.free 4128 1000,
    Call.alloc 736 0]

/-- The world after `rem256_calls` on the fresh allocator. -/
def rem256_heap : HWorld :=
  match Flat.run 8 rem256_calls ⟨Flat.init, []⟩ with
  | some (Out.ok w) => w
  | _ => ⟨Flat.init, []⟩

/-! ## Runs that stay inside the chunks -/

/-- The size a call asks the allocator for. -/
def Op.request : Op → Nat
  | Op.alloc n _ => n
  | Op.free _ _ => 0
  | Op.realloc _ _ nsize _ => nsize

/-- The big request sizes that `new_chunk` serves with a `chunk_used` above
`CHUNKSIZE`: the sizes `32745 .. 32752`. -/
def overflow_size (n : Nat) : Prop :=
  SMALLLEVEL * SMALLSIZE < n ∧ n ≤ HUGESIZE ∧ CHUNKSIZE < SIZEOF_CHUNK + big_size n

/-- No `chunk_used` is above `CHUNKSIZE`. -/
def UsedOK (s : Mgr) : Prop :=
  ∀ c, s.chunk_used c ≤ CHUNKSIZE

/-! ## Basic facts -/

theorem upd_same (f : Nat → Nat) (a v : Nat) : upd f a v a = v := by
  simp [upd]

theorem upd_other (f : Nat → Nat) (a v x : Nat) (h : x ≠ a) : upd f a v x = f x := by
  simp [upd, h]

theorem index_agree (n : Nat) (h1 : 1 ≤ n) (h2 : n ≤ 256) : free_index n = alloc_index n := by
  unfold free_index alloc_index SMALLSIZE
  omega

theorem find_chunk_null (fuel : Nat) (s : Mgr) (sz : Nat) :
    find_chunk fuel s 0 sz = Res.ok none := by
  cases fuel <;> simp [find_chunk]

theorem lookup_larger_none (s : Mgr) (sz : Nat) (h : ∀ i, s.small_list i = 0) :
    ∀ k i, lookup_larger s sz k i = none := by
  intro k
  induction k with
  | zero => intro i; rfl
  | succ k ih => intro i; simp [lookup_larger, h, ih]

theorem alloc_index_lt (n : Nat) (h2 : n ≤ 256) : alloc_index n < 32 := by
  unfold alloc_index SMALLSIZE
  omega

theorem class_span_eq (n : Nat) (h1 : 1 ≤ n) :
    (alloc_index n + 1) * SMALLSIZE = 8 * ((n + 7) / 8) := by
  unfold alloc_index SMALLSIZE
  omega

theorem new_chunk_fst (pg : Nat) (s : Mgr) (sz : Nat) (hpg : pg ≠ 0) :
    (new_chunk pg s sz).1 = pg + 16 := by
  simp [new_chunk, hpg, SIZEOF_CHUNK]

theorem new_chunk_small_list (pg : Nat) (s : Mgr) (sz : Nat) :
    (new_chunk pg s sz).2.small_list = s.small_list := by
  unfold new_chunk
  by_cases hpg : pg = 0
  · simp [hpg]
  · simp only [hpg, if_false]
    split <;> split <;> rfl

theorem new_chunk_head (pg : Nat) (s : Mgr) (sz : Nat) (hpg : pg ≠ 0) :
    (new_chunk pg s sz).2.chunk_head = if s.chunk_head = 0 then pg else s.chunk_head := by
  unfold new_chunk
  simp only [hpg, if_false]
  split <;> split <;> simp_all

theorem new_chunk_tail (pg : Nat) (s : Mgr) (sz : Nat) (hpg : pg ≠ 0) :
    (new_chunk pg s sz).2.chunk_tail = pg := by
  simp [new_chunk, hpg]

theorem new_chunk_used (pg : Nat) (s : Mgr) (sz : Nat) (hpg : pg ≠ 0) :
    (new_chunk pg s sz).2.chunk_used = upd s.chunk_used pg (16 + sz) := by
  unfold new_chunk
  simp only [hpg, if_false, SIZEOF_CHUNK]
  split <;> split <;> rfl

theorem new_chunk_next (pg : Nat) (s : Mgr) (sz : Nat) (hpg : pg ≠ 0) :
    (new_chunk pg s sz).2.chunk_next =
      if s.chunk_tail ≠ 0 then upd (upd s.chunk_next pg 0) s.chunk_tail pg
      else upd s.chunk_next pg 0 := by
  unfold new_chunk
  simp only [hpg, if_false]
  split <;> split <;> simp_all

theorem memory_free_small (s : Mgr) (p n : Nat) (h1 : 1 ≤ n)
    (h2 : n ≤ SMALLLEVEL * SMALLSIZE) (hp : p ≠ 0) :
    memory_free s p n = Res.ok (small_push s p (alloc_index n)) := by
  have h256 : n ≤ 256 := by simpa [SMALLLEVEL, SMALLSIZE] using h2
  simp only [memory_free, if_pos h2, free_small_memory, if_neg hp, index_agree n h1 h256,
    small_push]

theorem memory_alloc_pop (fuel pg : Nat) (s : Mgr) (n : Nat) (h1 : 1 ≤ n)
    (h2 : n ≤ SMALLLEVEL * SMALLSIZE) (hne : s.small_list (alloc_index n) ≠ 0) :
    memory_alloc fuel pg s n =
      Res.ok (s.small_list (alloc_index n), small_pop s (alloc_index n)) := by
  have hn0 : n ≠ 0 := by omega
  simp only [memory_alloc, if_pos h2, if_neg hn0, alloc_small_memory, small_pop]
  rw [if_pos hne]

theorem BigLinksOnly.refl (s : Mgr) : BigLinksOnly s s :=
  ⟨rfl, rfl, rfl, rfl, rfl, rfl, rfl, rfl, rfl, rfl, rfl⟩

theorem BigLinksOnly.trans {s t u : Mgr} (h1 : BigLinksOnly s t) (h2 : BigLinksOnly t u) :
    BigLinksOnly s u := by
  obtain ⟨a1, a2, a3, a4, a5, a6, a7, a8, a9, a10, a11⟩ := h1
  obtain ⟨b1, b2, b3, b4, b5, b6, b7, b8, b9, b10, b11⟩ := h2
  exact ⟨b1.trans a1, b2.trans a2, b3.trans a3, b4.trans a4, b5.trans a5, b6.trans a6,
    b7.trans a7, b8.trans a8, b9.trans a9, b10.trans a10, b11.trans a11⟩

theorem find_chunk_ne_zero (fuel : Nat) (s : Mgr) (sz : Nat) :
    ∀ c ch, find_chunk fuel s c sz = Res.ok (some ch) → ch ≠ 0 := by
  induction fuel with
  | zero =>
    intro c ch h
    unfold find_chunk at h
    split at h <;> simp at h
  | succ k ih =>
    intro c ch h
    unfold find_chunk at h
    split at h
    · simp at h
    · rename_i hc
      simp only at h
      split at h
      · simp only [Res.ok.injEq, Option.some.injEq] at h
        exact h ▸ hc
      · exact ih _ _ h

theorem lookup_larger_ne_zero (s : Mgr) (sz : Nat) :
    ∀ k i r, lookup_larger s sz k i = some r → r.1 ≠ 0 := by
  intro k
  induction k with
  | zero => intro i r h; simp [lookup_larger] at h
  | succ k ih =>
    intro i r h
    unfold lookup_larger at h
    simp only at h
    split at h
    · rename_i hne
      simp only [Option.some.injEq] at h
      rw [← h]
      exact hne
    · exact ih _ _ h

theorem split_big_block_ptr (s : Mgr) (b sz : Nat) (r : Nat × Mgr)
    (h : split_big_block s b sz = Res.ok r) : r.1 = b := by
  unfold split_big_block at h
  simp only at h
  split at h
  · split at h
    · simp only [Res.ok.injEq] at h; rw [← h]
    · simp at h
    · simp at h
  · split at h
    · simp only [Res.ok.injEq] at h; rw [← h]
    · split at h
      · simp at h
      · simp only [Res.ok.injEq] at h; rw [← h]

/-- A rotation of `lookup_big_memory` that ends without a block has only touched
the links of the big list. -/
theorem lookup_big_loop_frame (sz term : Nat) :
    ∀ k s b r, lookup_big_loop sz term k s b = Res.ok r → r.1 = 0 → BigLinksOnly s r.2 := by
  intro k
  induction k with
  | zero =>
    intro s b r h _
    simp only [lookup_big_loop, Res.ok.injEq] at h
    rw [← h]
    exact BigLinksOnly.refl s
  | succ k ih =>
    intro s b r h hr
    unfold lookup_big_loop at h
    split at h
    · simp at h
    · rename_i hb
      simp only at h
      split at h
      · split at h
        · simp only [Res.ok.injEq] at h
          rw [← h] at hr
          exact absurd hr hb
        · have := split_big_block_ptr _ _ _ _ h
          rw [hr] at this
          exact absurd this.symm hb
      · split at h
        · simp at h
        · have hstep : BigLinksOnly s
              { s with big_head := s.bb_next b
                       bb_next := upd (upd s.bb_next b 0) s.big_tail b
                       big_tail := b } :=
            ⟨rfl, rfl, rfl, rfl, rfl, rfl, rfl, rfl, rfl, rfl, rfl⟩
          split at h
          · exact hstep.trans (ih _ _ _ h hr)
          · simp only [Res.ok.injEq] at h
            rw [← h]
            exact hstep

theorem lookup_big_memory_frame (s : Mgr) (sz : Nat) (r : Nat × Mgr)
    (h : lookup_big_memory s sz = Res.ok r) (hr : r.1 = 0) : BigLinksOnly s r.2 := by
  unfold lookup_big_memory at h
  split at h
  · simp only [Res.ok.injEq] at h
    rw [← h]
    exact BigLinksOnly.refl s
  · rename_i hb
    simp only at h
    split at h
    · split at h
      · split at h
        · simp only [Res.ok.injEq] at h
          rw [← h] at hr
          exact absurd hr hb
        · split at h
          · split at h
            · simp only [Res.ok.injEq] at h
              rw [← h] at hr
              exact absurd hr hb
            · simp at h
            · simp at h
          · simp only [Res.ok.injEq] at h
            rw [← h] at hr
            exact absurd hr hb
      · simp only [Res.ok.injEq] at h
        rw [← h]
        exact BigLinksOnly.refl s
    · exact lookup_big_loop_frame _ _ _ _ _ _ h hr

theorem alloc_small_memory_oom (fuel : Nat) (s : Mgr) (i r : Nat) (s1 : Mgr)
    (h : alloc_small_memory fuel 0 s i = Res.ok (r, s1)) :
    (r = 0 → s1 = s) ∧ (r ≠ 0 → ∀ pg, alloc_small_memory fuel pg s i = Res.ok (r, s1)) := by
  unfold alloc_small_memory at h
  simp only at h
  split at h
  · rename_i hne
    simp only [Res.ok.injEq, Prod.mk.injEq] at h
    refine ⟨fun h0 => absurd (h.1.trans h0) hne, fun _ pg => ?_⟩
    unfold alloc_small_memory
    simp only [if_pos hne, ← h.1, ← h.2]
  · rename_i hne
    split at h
    · simp at h
    · simp at h
    · rename_i chunk hfc
      simp only [Res.ok.injEq, Prod.mk.injEq] at h
      have hc := find_chunk_ne_zero _ _ _ _ _ hfc
      refine ⟨fun h0 => ?_, fun _ pg => ?_⟩
      · omega
      · unfold alloc_small_memory
        simp only [if_neg hne, hfc, ← h.1, ← h.2]
    · rename_i hfc
      split at h
      · rename_i r1 hl
        have hr1 := lookup_larger_ne_zero _ _ _ _ _ hl
        simp only [Res.ok.injEq] at h
        rw [h] at hr1 hl
        refine ⟨fun h0 => absurd h0 hr1, fun _ pg => ?_⟩
        unfold alloc_small_memory
        simp only [if_neg hne, hfc, hl]
      · simp only [new_chunk, if_true, Res.ok.injEq, Prod.mk.injEq] at h
        exact ⟨fun _ => h.2.symm, fun h0 => absurd h.1.symm h0⟩

theorem alloc_big_memory_oom (s : Mgr) (n r : Nat) (s1 : Mgr)
    (h : alloc_big_memory 0 s n = Res.ok (r, s1)) :
    (r = 0 → BigLinksOnly s s1 ∧ (s.big_head = 0 → s1 = s)) ∧
    (r ≠ 0 → ∀ pg, alloc_big_memory pg s n = Res.ok (r, s1)) := by
  unfold alloc_big_memory at h
  simp only at h
  split at h
  · simp at h
  · rename_i ht
    split at h
    · rename_i hfit
      simp only [Res.ok.injEq, Prod.mk.injEq, SIZEOF_SIZE_T] at h
      refine ⟨fun h0 => ?_, fun _ pg => ?_⟩
      · omega
      · unfold alloc_big_memory
        simp only [if_neg ht, if_pos hfit, SIZEOF_SIZE_T, ← h.1, ← h.2]
    · rename_i hfit
      split at h
      · simp at h
      · simp at h
      · rename_i b s2 hl
        split at h
        · rename_i hb0
          simp only [new_chunk, if_true, Res.ok.injEq, Prod.mk.injEq] at h
          have hfr := lookup_big_memory_frame s _ _ hl hb0
          simp only at hfr
          refine ⟨fun _ => ⟨h.2 ▸ hfr, fun hh => ?_⟩, fun h0 => absurd h.1.symm h0⟩
          rw [← h.2]
          simp only [lookup_big_memory, if_pos hh, Res.ok.injEq, Prod.mk.injEq] at hl
          exact hl.2.symm
        · rename_i hb0
          simp only [Res.ok.injEq, Prod.mk.injEq, SIZEOF_SIZE_T] at h
          refine ⟨fun h0 => ?_, fun _ pg => ?_⟩
          · omega
          · unfold alloc_big_memory
            simp only [if_neg ht, if_neg hfit, hl, if_neg hb0, SIZEOF_SIZE_T, ← h.1, ← h.2]

/-! ## Lists in the heap -/

theorem IsList.frame {next : Nat → Nat} {a v : Nat} :
    ∀ {xs : List Nat} {h : Nat}, a ∉ xs → IsList next h xs → IsList (upd next a v) h xs := by
  intro xs
  induction xs with
  | nil => intro h _ hl; exact hl
  | cons x xs ih =>
    intro h ha hl
    obtain ⟨h1, h2, h3⟩ := hl
    simp only [List.mem_cons, not_or] at ha
    refine ⟨h1, h2, ?_⟩
    rw [upd_other _ _ _ _ (Ne.symm ha.1)]
    exact ih ha.2 h3

theorem IsList.mem_ne_zero {next : Nat → Nat} :
    ∀ {xs : List Nat} {h : Nat}, IsList next h xs → ∀ x ∈ xs, x ≠ 0 := by
  intro xs
  induction xs with
  | nil => intro h _ x hx; simp at hx
  | cons y ys ih =>
    intro h hl x hx
    obtain ⟨_, h2, h3⟩ := hl
    rcases List.mem_cons.1 hx with rfl | hx
    · exact h2
    · exact ih h3 x hx

theorem IsList.head_zero {next : Nat → Nat} {xs : List Nat} (hl : IsList next 0 xs) :
    xs = [] := by
  cases xs with
  | nil => rfl
  | cons x xs => exact absurd hl.1.symm hl.2.1

theorem IsList.head_ne_zero {next : Nat → Nat} {xs : List Nat} {h : Nat}
    (hl : IsList next h xs) (hh : h ≠ 0) : ∃ ys, xs = h :: ys ∧ IsList next (next h) ys := by
  cases xs with
  | nil => exact absurd hl hh
  | cons x xs =>
    obtain ⟨h1, _, h3⟩ := hl
    subst h1
    exact ⟨xs, rfl, h3⟩

theorem lastD_mem : ∀ {xs : List Nat}, xs ≠ [] → lastD xs ∈ xs := by
  intro xs
  induction xs with
  | nil => intro h; exact absurd rfl h
  | cons y ys ih =>
    intro _
    cases ys with
    | nil => simp [lastD]
    | cons z zs =>
      have := ih (by simp)
      simp only [lastD]
      exact List.mem_cons_of_mem _ this

theorem lastD_append (xs : List Nat) (x : Nat) : lastD (xs ++ [x]) = x := by
  induction xs with
  | nil => rfl
  | cons y ys ih =>
    cases ys with
    | nil => rfl
    | cons z zs => simpa [lastD] using ih

theorem lastD_cons_cons (x y : Nat) (ys : List Nat) : lastD (x :: y :: ys) = lastD (y :: ys) :=
  rfl

/-- Appending a node to a null-terminated list, as `new_chunk` does. -/
theorem IsList.append {next : Nat → Nat} {x : Nat} (hx : x ≠ 0) :
    ∀ {xs : List Nat} {h : Nat}, IsList next h xs → xs ≠ [] → x ∉ xs → xs.Nodup →
      IsList (upd (upd next x 0) (lastD xs) x) h (xs ++ [x]) := by
  intro xs
  induction xs with
  | nil => intro h _ hne; exact absurd rfl hne
  | cons y ys ih =>
    intro h hl _ hx' hnd
    obtain ⟨h1, h2, h3⟩ := hl
    simp only [List.mem_cons, not_or] at hx'
    rw [List.nodup_cons] at hnd
    cases ys with
    | nil =>
      refine ⟨h1, h2, ?_, hx, ?_⟩
      · simp [upd, lastD]
      · show upd (upd next x 0) y x x = 0
        rw [upd_other _ _ _ _ hx'.1, upd_same]
    | cons z zs =>
      rw [lastD_cons_cons]
      refine ⟨h1, h2, ?_⟩
      have hy : y ≠ lastD (z :: zs) := by
        intro he
        exact hnd.1 (he ▸ lastD_mem (by simp))
      rw [upd_other _ _ _ _ hy, upd_other _ _ _ _ (Ne.symm hx'.1)]
      exact ih h3 (by simp) hx'.2 hnd.2

/-! ### Segments -/

theorem IsSeg.frame_seg {next : Nat → Nat} {a v : Nat} :
    ∀ {xs : List Nat} {h t : Nat}, a ∉ xs → IsSeg next h t xs → IsSeg (upd next a v) h t xs := by
  intro xs
  induction xs with
  | nil => intro h t _ hl; exact hl
  | cons x xs ih =>
    intro h t ha hl
    cases xs with
    | nil => exact hl
    | cons y ys =>
      obtain ⟨h1, h2, h3⟩ := hl
      simp only [List.mem_cons, not_or] at ha
      refine ⟨h1, h2, ?_⟩
      rw [upd_other _ _ _ _ (Ne.symm ha.1)]
      exact ih (by simp only [List.mem_cons, not_or]; exact ha.2) h3

theorem IsSeg.head_eq {next : Nat → Nat} {x : Nat} {xs : List Nat} {h t : Nat}
    (hl : IsSeg next h t (x :: xs)) : h = x ∧ x ≠ 0 := by
  cases xs with
  | nil => exact ⟨hl.1, hl.2.2⟩
  | cons y ys => exact ⟨hl.1, hl.2.1⟩

theorem IsSeg.tail_eq {next : Nat → Nat} :
    ∀ {xs : List Nat} {h t : Nat}, IsSeg next h t xs → t = lastD xs := by
  intro xs
  induction xs with
  | nil => intro h t hl; exact absurd hl id
  | cons x xs ih =>
    intro h t hl
    cases xs with
    | nil => exact hl.2.1
    | cons y ys => exact ih hl.2.2

theorem IsSeg.cons {next : Nat → Nat} {x : Nat} {xs : List Nat} {h t : Nat}
    (hl : IsSeg next h t xs) (hx : x ≠ 0) (hn : next x = h) : IsSeg next x t (x :: xs) := by
  cases xs with
  | nil => exact absurd hl id
  | cons y ys => exact ⟨rfl, hx, hn ▸ hl⟩

theorem IsSeg.tail {next : Nat → Nat} {x y : Nat} {ys : List Nat} {h t : Nat}
    (hl : IsSeg next h t (x :: y :: ys)) : IsSeg next (next x) t (y :: ys) :=
  hl.2.2

/-- Appending a node behind the tail, as the rotation of `lookup_big_memory` does. -/
theorem IsSeg.append_seg {next : Nat → Nat} {x : Nat} (hx : x ≠ 0) :
    ∀ {xs : List Nat} {h t : Nat}, IsSeg next h t xs → xs.Nodup →
      IsSeg (upd next t x) h x (xs ++ [x]) := by
  intro xs
  induction xs with
  | nil => intro h t hl; exact absurd hl id
  | cons y ys ih =>
    intro h t hl hnd
    rw [List.nodup_cons] at hnd
    cases ys with
    | nil =>
      obtain ⟨h1, h2, h3⟩ := hl
      subst h2
      exact ⟨h1, h3, upd_same _ _ _, rfl, hx⟩
    | cons z zs =>
      obtain ⟨h1, h2, h3⟩ := hl
      have ht := IsSeg.tail_eq h3
      have hy : y ≠ t := by
        intro he
        exact hnd.1 (he ▸ ht ▸ lastD_mem (by simp))
      have := ih h3 hnd.2
      refine ⟨h1, h2, ?_⟩
      rw [upd_other _ _ _ _ hy]
      exact this

theorem Reach.mem_of_isList {next : Nat → Nat} {h q : Nat} (hr : Reach next 0 h q) :
    ∀ {xs : List Nat}, IsList next h xs → q ∈ xs := by
  induction hr with
  | here h hh =>
    intro xs hl
    obtain ⟨ys, rfl, _⟩ := hl.head_ne_zero hh
    exact List.mem_cons_self _ _
  | step h q hh _ _ ih =>
    intro xs hl
    obtain ⟨ys, rfl, hl2⟩ := hl.head_ne_zero hh
    exact List.mem_cons_of_mem _ (ih hl2)

theorem Reach.mem_of_isSeg {next : Nat → Nat} {t h q : Nat} (hr : Reach next t h q) :
    ∀ {xs : List Nat}, IsSeg next h t xs → q ∈ xs := by
  induction hr with
  | here h hh =>
    intro xs hl
    cases xs with
    | nil => exact absurd hl id
    | cons x xs =>
      rw [hl.head_eq.1]
      exact List.mem_cons_self _ _
  | step h q hh hne _ ih =>
    intro xs hl
    cases xs with
    | nil => exact absurd hl id
    | cons x xs =>
      cases xs with
      | nil => exact absurd (hl.1.trans hl.2.1.symm) hne
      | cons y ys =>
        obtain ⟨h1, _, h3⟩ := hl
        subst h1
        exact List.mem_cons_of_mem _ (ih h3)

/-! ## Regions -/

theorem Disj.symm {r1 r2 : Nat × Nat} (h : Disj r1 r2) : Disj r2 r1 :=
  Or.symm h

theorem RegOK.perm {cs : List Nat} {used : Nat → Nat} {L M : List (Nat × Nat)}
    (hp : L.Perm M) (h : RegOK cs used L) : RegOK cs used M :=
  ⟨(hp.pairwise_iff (fun h => Disj.symm h)).1 h.1, fun r hr => h.2 r (hp.mem_iff.2 hr)⟩

/-- A block may be replaced by a non-empty part of itself. -/
theorem RegOK.shrink {cs : List Nat} {used : Nat → Nat} {X Y : Nat × Nat}
    {L : List (Nat × Nat)} (h : RegOK cs used (X :: L))
    (h1 : X.1 ≤ Y.1) (h2 : Y.1 + Y.2 ≤ X.1 + X.2) (h3 : 0 < Y.2) :
    RegOK cs used (Y :: L) := by
  obtain ⟨hd, hin⟩ := h
  rw [List.pairwise_cons] at hd
  refine ⟨List.pairwise_cons.2 ⟨fun r hr => ?_, hd.2⟩, fun r hr => ?_⟩
  · have := hd.1 r hr
    unfold Disj at this ⊢
    omega
  · rcases List.mem_cons.1 hr with rfl | hr
    · obtain ⟨_, c, hc, hc1, hc2⟩ := hin X (List.mem_cons_self _ _)
      exact ⟨h3, c, hc, by omega, by omega⟩
    · exact hin r (List.mem_cons_of_mem _ hr)

/-- A block may be replaced by two non-empty parts of itself that do not overlap. -/
theorem RegOK.split {cs : List Nat} {used : Nat → Nat} {X Y Z : Nat × Nat}
    {L : List (Nat × Nat)} (h : RegOK cs used (X :: L))
    (h1 : X.1 ≤ Y.1) (h2 : Y.1 + Y.2 ≤ Z.1) (h3 : Z.1 + Z.2 ≤ X.1 + X.2)
    (h4 : 0 < Y.2) (h5 : 0 < Z.2) :
    RegOK cs used (Y :: Z :: L) := by
  have hZ : RegOK cs used (Z :: L) := h.shrink (by omega) h3 h5
  have hY : RegOK cs used (Y :: L) := h.shrink h1 (by omega) h4
  refine ⟨List.pairwise_cons.2 ⟨fun r hr => ?_, hZ.1⟩, fun r hr => ?_⟩
  · rcases List.mem_cons.1 hr with rfl | hr
    · exact Or.inl h2
    · exact (List.pairwise_cons.1 hY.1).1 r hr
  · rcases List.mem_cons.1 hr with rfl | hr
    · exact hY.2 _ (List.mem_cons_self _ _)
    · exact hZ.2 r hr

/-- The start of another block does not lie inside a block. -/
theorem RegOK.start_out {cs : List Nat} {used : Nat → Nat} {X r : Nat × Nat}
    {L : List (Nat × Nat)} (h : RegOK cs used (X :: L)) (hr : r ∈ L) :
    r.1 < X.1 ∨ X.1 + X.2 ≤ r.1 := by
  have h1 := (List.pairwise_cons.1 h.1).1 r hr
  have h2 := (h.2 r (List.mem_cons_of_mem _ hr)).1
  unfold Disj at h1
  omega

theorem Apart.ne {c d : Nat} (h : Apart c d) : c ≠ d := by
  unfold Apart CHUNKSIZE at h
  omega

theorem apart_of_mem {cs : List Nat} (h : cs.Pairwise Apart) {c d : Nat} (hc : c ∈ cs)
    (hd : d ∈ cs) : c = d ∨ Apart c d := by
  induction cs with
  | nil => simp at hc
  | cons x xs ih =>
    rw [List.pairwise_cons] at h
    rcases List.mem_cons.1 hc with hc1 | hc1 <;> rcases List.mem_cons.1 hd with hd1 | hd1
    · exact Or.inl (hc1.trans hd1.symm)
    · exact Or.inr (hc1 ▸ h.1 d hd1)
    · exact Or.inr (Or.symm (hd1 ▸ h.1 c hc1))
    · exact ih h.2 hc1 hd1

/-- Bumping `chunk_used` of a chunk by `sz` bytes adds a block. -/
theorem RegOK.bump {cs : List Nat} {used : Nat → Nat} {L : List (Nat × Nat)}
    (h : RegOK cs used L) (hap : cs.Pairwise Apart)
    (hu : ∀ c ∈ cs, SIZEOF_CHUNK ≤ used c ∧ used c ≤ CHUNKSIZE + 8)
    {c sz : Nat} (hc : c ∈ cs) (hfit : used c + sz ≤ CHUNKSIZE) (hsz : 0 < sz) :
    RegOK cs (upd used c (used c + sz)) ((c + used c, sz) :: L) := by
  obtain ⟨hd, hin⟩ := h
  have hcu := hu c hc
  refine ⟨List.pairwise_cons.2 ⟨fun r hr => ?_, hd⟩, fun r hr => ?_⟩
  · obtain ⟨_, d, hdm, hd1, hd2⟩ := hin r hr
    have hdu := hu d hdm
    unfold Disj
    simp only
    rcases apart_of_mem hap hc hdm with rfl | hcd
    · omega
    · unfold Apart at hcd
      unfold SIZEOF_CHUNK at *
      omega
  · rcases List.mem_cons.1 hr with rfl | hr
    · refine ⟨hsz, c, hc, by simp only; omega, ?_⟩
      rw [upd_same]
      simp only
      omega
    · obtain ⟨hp, d, hdm, hd1, hd2⟩ := hin r hr
      refine ⟨hp, d, hdm, hd1, ?_⟩
      by_cases hdc : d = c
      · subst hdc
        rw [upd_same]
        omega
      · rw [upd_other _ _ _ _ hdc]
        exact hd2

/-- A new chunk whose first `sz` bytes are handed out adds a block. -/
theorem RegOK.new_chunk {cs : List Nat} {used : Nat → Nat} {L : List (Nat × Nat)}
    (h : RegOK cs used L)
    (hu : ∀ c ∈ cs, SIZEOF_CHUNK ≤ used c ∧ used c ≤ CHUNKSIZE + 8)
    {pg sz : Nat} (hpg : ∀ c ∈ cs, Apart c pg) (hsz : 0 < sz) (hle : sz ≤ CHUNKSIZE) :
    RegOK (cs ++ [pg]) (upd used pg (SIZEOF_CHUNK + sz)) ((pg + SIZEOF_CHUNK, sz) :: L) := by
  obtain ⟨hd, hin⟩ := h
  refine ⟨List.pairwise_cons.2 ⟨fun r hr => ?_, hd⟩, fun r hr => ?_⟩
  · obtain ⟨_, d, hdm, hd1, hd2⟩ := hin r hr
    have hdu := hu d hdm
    have hcd := hpg d hdm
    unfold Disj
    unfold Apart at hcd
    unfold SIZEOF_CHUNK at *
    simp only
    omega
  · rcases List.mem_cons.1 hr with rfl | hr
    · refine ⟨hsz, pg, by simp, le_refl _, ?_⟩
      rw [upd_same]
      simp only
      omega
    · obtain ⟨hp, d, hdm, hd1, hd2⟩ := hin r hr
      refine ⟨hp, d, by simp [hdm], hd1, ?_⟩
      rw [upd_other _ _ _ _ (hpg d hdm).ne]
      exact hd2


/-! ### The list of all blocks -/

theorem sregs_push_aux (q : Nat) (l : List Nat) (sl : Nat → List Nat) (i : Nat) :
    ∀ (is : List Nat), is.Nodup → i ∈ is →
      (is.flatMap (fun j => ((Function.update sl i (q :: l)) j).map
          (fun x => (x, (j + 1) * SMALLSIZE)))).Perm
        ((q, (i + 1) * SMALLSIZE) ::
          is.flatMap (fun j => ((Function.update sl i l) j).map
            (fun x => (x, (j + 1) * SMALLSIZE)))) := by
  intro is
  induction is with
  | nil => intro _ h; simp at h
  | cons j js ih =>
    intro hnd hi
    rw [List.nodup_cons] at hnd
    simp only [List.flatMap_cons]
    by_cases hji : j = i
    · subst hji
      have hrest : ∀ k ∈ js, (Function.update sl j (q :: l)) k = (Function.update sl j l) k := by
        intro k hk
        have : k ≠ j := fun he => hnd.1 (he ▸ hk)
        simp [Function.update, this]
      have e : js.flatMap (fun k => ((Function.update sl j (q :: l)) k).map
            (fun x => (x, (k + 1) * SMALLSIZE))) =
          js.flatMap (fun k => ((Function.update sl j l) k).map
            (fun x => (x, (k + 1) * SMALLSIZE))) := by
        apply List.flatMap_congr
        intro k hk
        rw [hrest k hk]
      rw [e]
      simp [Function.update]
    · have hi2 : i ∈ js := by
        rcases List.mem_cons.1 hi with h | h
        · exact absurd h.symm hji
        · exact h
      have e1 : (Function.update sl i (q :: l)) j = (Function.update sl i l) j := by
        simp [Function.update, hji]
      rw [e1]
      exact (List.Perm.append_left _ (ih hnd.2 hi2)).trans List.perm_middle

theorem sregs_push (q : Nat) (l : List Nat) (sl : Nat → List Nat) (i : Nat)
    (hi : i < SMALLLEVEL) :
    (sregs (Function.update sl i (q :: l))).Perm
      ((q, (i + 1) * SMALLSIZE) :: sregs (Function.update sl i l)) :=
  sregs_push_aux q l sl i _ (List.nodup_range _) (List.mem_range.2 hi)

theorem regions_live_cons (bbsz : Nat → Nat) (x : Nat × Nat) (live : List (Nat × Nat))
    (sl : Nat → List Nat) (bl : List Nat) :
    regions bbsz (x :: live) sl bl = lreg x :: regions bbsz live sl bl := rfl

theorem perm_cons_erase_live {x : Nat × Nat} :
    ∀ {l : List (Nat × Nat)}, x ∈ l → l.Perm (x :: l.erase x) := by
  intro l
  induction l with
  | nil => intro h; simp at h
  | cons y ys ih =>
    intro h
    rw [List.erase_cons]
    by_cases hyx : y = x
    · subst hyx
      simp
    · have hb : (y == x) = false := by simpa using hyx
      rw [hb]
      have hx : x ∈ ys := by
        rcases List.mem_cons.1 h with h | h
        · exact absurd h.symm hyx
        · exact h
      exact ((ih hx).cons y).trans (List.Perm.swap x y _)

theorem regions_live_erase (bbsz : Nat → Nat) {x : Nat × Nat} {live : List (Nat × Nat)}
    (sl : Nat → List Nat) (bl : List Nat) (hx : x ∈ live) :
    (regions bbsz live sl bl).Perm (lreg x :: regions bbsz (live.erase x) sl bl) := by
  unfold regions
  have := (perm_cons_erase_live hx).map lreg
  exact this.append_right (sregs sl ++ bregs bbsz bl)

theorem regions_small_push (bbsz : Nat → Nat) (live : List (Nat × Nat)) (sl : Nat → List Nat)
    (bl : List Nat) (q : Nat) (l : List Nat) (i : Nat) (hi : i < SMALLLEVEL) :
    (regions bbsz live (Function.update sl i (q :: l)) bl).Perm
      ((q, (i + 1) * SMALLSIZE) :: regions bbsz live (Function.update sl i l) bl) := by
  unfold regions
  have h1 := (sregs_push q l sl i hi).append_right (bregs bbsz bl)
  exact (List.Perm.append_left _ h1).trans List.perm_middle

theorem regions_big_cons (bbsz : Nat → Nat) (live : List (Nat × Nat)) (sl : Nat → List Nat)
    (bl : List Nat) (b : Nat) :
    (regions bbsz live sl (b :: bl)).Perm ((b, bbsz b) :: regions bbsz live sl bl) := by
  unfold regions bregs
  rw [List.map_cons, ← List.append_assoc, ← List.append_assoc]
  exact List.perm_middle

theorem regions_big_perm (bbsz : Nat → Nat) (live : List (Nat × Nat)) (sl : Nat → List Nat)
    {bl bl2 : List Nat} (h : bl.Perm bl2) :
    (regions bbsz live sl bl).Perm (regions bbsz live sl bl2) := by
  unfold regions bregs
  exact List.Perm.append_left _ (List.Perm.append_left _ (h.map _))

theorem regions_congr {bbsz bbsz2 : Nat → Nat} (live : List (Nat × Nat))
    (sl : Nat → List Nat) {bl : List Nat} (h : ∀ b ∈ bl, bbsz2 b = bbsz b) :
    regions bbsz2 live sl bl = regions bbsz live sl bl := by
  unfold regions bregs
  congr 2
  apply List.map_congr_left
  intro b hb
  rw [h b hb]

theorem mem_regions_live {bbsz : Nat → Nat} {live : List (Nat × Nat)} {sl : Nat → List Nat}
    {bl : List Nat} {x : Nat × Nat} (hx : x ∈ live) : lreg x ∈ regions bbsz live sl bl := by
  unfold regions
  exact List.mem_append_left _ (List.mem_map_of_mem _ hx)

theorem mem_regions_small {bbsz : Nat → Nat} {live : List (Nat × Nat)} {sl : Nat → List Nat}
    {bl : List Nat} {i q : Nat} (hi : i < SMALLLEVEL) (hq : q ∈ sl i) :
    (q, (i + 1) * SMALLSIZE) ∈ regions bbsz live sl bl := by
  unfold regions sregs
  apply List.mem_append_right
  apply List.mem_append_left
  rw [List.mem_flatMap]
  exact ⟨i, List.mem_range.2 hi, List.mem_map.2 ⟨q, hq, rfl⟩⟩

theorem mem_regions_big {bbsz : Nat → Nat} {live : List (Nat × Nat)} {sl : Nat → List Nat}
    {bl : List Nat} {b : Nat} (hb : b ∈ bl) : (b, bbsz b) ∈ regions bbsz live sl bl := by
  unfold regions bregs
  apply List.mem_append_right
  apply List.mem_append_right
  exact List.mem_map.2 ⟨b, hb, rfl⟩


/-! ## Facts about the code used by the invariant -/

theorem find_chunk_mem (fuel : Nat) (s : Mgr) (sz : Nat) :
    ∀ (cs : List Nat) (h c : Nat), IsList s.chunk_next h cs →
      find_chunk fuel s h sz = Res.ok (some c) →
      c ∈ cs ∧ s.chunk_used c + sz ≤ CHUNKSIZE := by
  induction fuel with
  | zero =>
    intro cs h c _ hf
    unfold find_chunk at hf
    split at hf <;> simp at hf
  | succ k ih =>
    intro cs h c hl hf
    unfold find_chunk at hf
    split at hf
    · simp at hf
    · rename_i hh
      obtain ⟨ys, rfl, hl2⟩ := hl.head_ne_zero hh
      simp only at hf
      split at hf
      · rename_i hfit
        simp only [Res.ok.injEq, Option.some.injEq] at hf
        subst hf
        exact ⟨List.mem_cons_self _ _, hfit⟩
      · obtain ⟨h1, h2⟩ := ih ys _ c hl2 hf
        exact ⟨List.mem_cons_of_mem _ h1, h2⟩

/-- A surplus of `8 * (j + 1)` bytes is filed by `split_small_memory` as one block
of class `j`. -/
theorem split_small_memory_eq (s : Mgr) (ptr j : Nat) :
    split_small_memory s ptr (8 * (j + 1)) = small_push s ptr j := by
  unfold split_small_memory
  have e : 8 * (j + 1) = (8 * j + 7) + 1 := by ring
  rw [e]
  unfold split_small_loop
  have h1 : (8 * j + 7 + 1 - 1) / SMALLSIZE = j := by
    unfold SMALLSIZE; omega
  have h2 : 8 * j + 7 + 1 - (j + 1) * SMALLSIZE = 0 := by
    unfold SMALLSIZE; omega
  simp only [h1, h2, gt_iff_lt, Nat.zero_lt_succ, if_true]
  cases (8 * j + 7) with
  | zero => rfl
  | succ m => simp [split_small_loop, small_push]

/-- The scan over the larger classes stops at the first class `i` with a block. -/
theorem lookup_larger_spec (s : Mgr) (sz : Nat) :
    ∀ (k i0 : Nat) (r : Nat × Mgr), lookup_larger s sz k i0 = some r →
      ∃ i, i0 ≤ i ∧ i < i0 + k ∧ s.small_list i ≠ 0 ∧ r.1 = s.small_list i ∧
        r.2 = split_small_memory (small_pop s i) (s.small_list i + sz)
          ((i + 1) * SMALLSIZE - sz) := by
  intro k
  induction k with
  | zero => intro i0 r h; simp [lookup_larger] at h
  | succ k ih =>
    intro i0 r h
    unfold lookup_larger at h
    simp only at h
    split at h
    · rename_i hne
      simp only [Option.some.injEq] at h
      subst h
      exact ⟨i0, le_refl _, by omega, hne, rfl, rfl⟩
    · obtain ⟨i, h1, h2, h3⟩ := ih _ _ h
      exact ⟨i, by omega, by omega, h3⟩

theorem big_size_bounds (n : Nat) (h1 : SMALLLEVEL * SMALLSIZE < n) (h2 : n ≤ HUGESIZE) :
    272 ≤ big_size n ∧ big_size n ≤ CHUNKSIZE - 8 ∧ big_size n % 8 = 0 ∧
      n + 8 ≤ big_size n := by
  unfold big_size SIZEOF_SIZE_T
  unfold SMALLLEVEL SMALLSIZE at h1
  unfold HUGESIZE CHUNKSIZE at h2
  unfold CHUNKSIZE
  omega

theorem lreg_small {p n : Nat} (h : n ≤ SMALLLEVEL * SMALLSIZE) :
    lreg (p, n) = (p, (alloc_index n + 1) * SMALLSIZE) := by
  simp [lreg, h]

theorem lreg_big {p n : Nat} (h : SMALLLEVEL * SMALLSIZE < n) :
    lreg (p, n) = (p - SIZEOF_SIZE_T, big_size n) := by
  have : ¬ n ≤ SMALLLEVEL * SMALLSIZE := by omega
  simp [lreg, this]

theorem Reach.ne_zero {next : Nat → Nat} {stop h q : Nat} (hr : Reach next stop h q) :
    h ≠ 0 := by
  cases hr with
  | here _ hh => exact hh
  | step _ _ hh _ _ => exact hh

/-! ## Consequences of the invariant -/

theorem RegOK.bl_nodup {cs : List Nat} {used bbsz : Nat → Nat} {live : List (Nat × Nat)}
    {sl : Nat → List Nat} {bl : List Nat} (h : RegOK cs used (regions bbsz live sl bl)) :
    bl.Nodup := by
  obtain ⟨hd, hin⟩ := h
  unfold regions at hd
  have h1 := (List.pairwise_append.1 (List.pairwise_append.1 hd).2.1).2.1
  unfold bregs at h1
  rw [List.pairwise_map] at h1
  refine List.Pairwise.imp_of_mem ?_ h1
  intro x y hx _ hxy hne
  subst hne
  have := (hin (x, bbsz x) (mem_regions_big hx)).1
  unfold Disj at hxy
  simp only at hxy this
  omega

theorem Apart.nodup {cs : List Nat} (h : cs.Pairwise Apart) : cs.Nodup :=
  h.imp (fun hab => hab.ne)

theorem RegOK.not_mem_small {cs : List Nat} {used bbsz : Nat → Nat} {X : Nat × Nat}
    {live : List (Nat × Nat)} {sl : Nat → List Nat} {bl : List Nat}
    (h : RegOK cs used (X :: regions bbsz live sl bl)) (hs : ∀ i, SMALLLEVEL ≤ i → sl i = [])
    {t : Nat} (h1 : X.1 ≤ t) (h2 : t < X.1 + X.2) (i : Nat) : t ∉ sl i := by
  intro ht
  by_cases hi : i < SMALLLEVEL
  · have := h.start_out (mem_regions_small hi ht)
    simp only at this
    omega
  · rw [hs i (by omega)] at ht
    simp at ht

theorem RegOK.not_mem_big {cs : List Nat} {used bbsz : Nat → Nat} {X : Nat × Nat}
    {live : List (Nat × Nat)} {sl : Nat → List Nat} {bl : List Nat}
    (h : RegOK cs used (X :: regions bbsz live sl bl))
    {t : Nat} (h1 : X.1 ≤ t) (h2 : t < X.1 + X.2) : t ∉ bl := by
  intro ht
  have := h.start_out (mem_regions_big ht)
  simp only at this
  omega

theorem RegOK.live_start_ne {cs : List Nat} {used bbsz : Nat → Nat} {X : Nat × Nat}
    {live : List (Nat × Nat)} {sl : Nat → List Nat} {bl : List Nat}
    (h : RegOK cs used (X :: regions bbsz live sl bl))
    {t : Nat} (h1 : X.1 ≤ t) (h2 : t < X.1 + X.2) {y : Nat × Nat} (hy : y ∈ live) :
    (lreg y).1 ≠ t := by
  have := h.start_out (mem_regions_live hy)
  omega

theorem RegOK.head_pos {cs : List Nat} {used : Nat → Nat} {X : Nat × Nat}
    {L : List (Nat × Nat)} (h : RegOK cs used (X :: L)) :
    0 < X.2 ∧ SIZEOF_CHUNK ≤ X.1 := by
  obtain ⟨hp, c, _, hc1, _⟩ := h.2 X (List.mem_cons_self _ _)
  exact ⟨hp, by omega⟩

/-- The blocks of a state with one live block taken out in front. -/
theorem Inv.reg_live {s : Mgr} {live : List (Nat × Nat)} {a : Abs} (hI : Inv s live a)
    {x : Nat × Nat} (hx : x ∈ live) :
    RegOK a.cs s.chunk_used (lreg x :: regions s.bb_sz (live.erase x) a.sl a.bl) :=
  hI.reg.perm (regions_live_erase _ _ _ hx)

/-- Writes to size fields away from the live big blocks keep their headers. -/
theorem lsz_frame {bbsz bbsz2 : Nat → Nat} {live : List (Nat × Nat)}
    (h : ∀ x ∈ live, 1 ≤ x.2 ∧ x.2 ≤ HUGESIZE ∧
      (SMALLLEVEL * SMALLSIZE < x.2 → SIZEOF_SIZE_T ≤ x.1 ∧
        bbsz (x.1 - SIZEOF_SIZE_T) = big_size x.2))
    (hf : ∀ x ∈ live, bbsz2 (lreg x).1 = bbsz (lreg x).1) :
    ∀ x ∈ live, 1 ≤ x.2 ∧ x.2 ≤ HUGESIZE ∧
      (SMALLLEVEL * SMALLSIZE < x.2 → SIZEOF_SIZE_T ≤ x.1 ∧
        bbsz2 (x.1 - SIZEOF_SIZE_T) = big_size x.2) := by
  intro x hx
  obtain ⟨h1, h2, h3⟩ := h x hx
  refine ⟨h1, h2, fun hb => ⟨(h3 hb).1, ?_⟩⟩
  have := hf x hx
  rw [lreg_big hb] at this
  simp only at this
  rw [this]
  exact (h3 hb).2

/-- `memory_free` of a live small block keeps the invariant. -/
theorem Inv.step_free_small {s : Mgr} {live : List (Nat × Nat)} {a : Abs} (hI : Inv s live a)
    {p n : Nat} (hx : (p, n) ∈ live) (hn : n ≤ SMALLLEVEL * SMALLSIZE) :
    p ≠ 0 ∧ ∃ a1, Inv (small_push s p (alloc_index n)) (live.erase (p, n)) a1 ∧
      a1.cs = a.cs := by
  have hreg := hI.reg_live hx
  rw [lreg_small hn] at hreg
  have hpos := hreg.head_pos
  simp only at hpos
  have hp : p ≠ 0 := by unfold SIZEOF_CHUNK at hpos; omega
  have hidx : alloc_index n < SMALLLEVEL :=
    alloc_index_lt n (by simpa [SMALLLEVEL, SMALLSIZE] using hn)
  have hnot : ∀ i, p ∉ a.sl i := fun i =>
    hreg.not_mem_small hI.shigh (le_refl _) (by simp only; omega) i
  refine ⟨hp, ⟨a.cs, Function.update a.sl (alloc_index n) (p :: a.sl (alloc_index n)), a.bl⟩,
    ?_, rfl⟩
  exact
    { chunks := hI.chunks
      ctail := hI.ctail
      capart := hI.capart
      cused := hI.cused
      small := by
        intro i
        show IsList (upd s.sb_next p (s.small_list (alloc_index n)))
          (upd s.small_list (alloc_index n) p i)
          (Function.update a.sl (alloc_index n) (p :: a.sl (alloc_index n)) i)
        by_cases hi : i = alloc_index n
        · subst hi
          rw [upd_same, Function.update_same]
          refine ⟨rfl, hp, ?_⟩
          rw [upd_same]
          exact (hI.small _).frame (hnot _)
        · rw [upd_other _ _ _ _ hi, Function.update_noteq hi]
          exact (hI.small i).frame (hnot i)
      shigh := by
        intro i hi
        show Function.update a.sl (alloc_index n) (p :: a.sl (alloc_index n)) i = []
        rw [Function.update_noteq (by omega)]
        exact hI.shigh i hi
      big := hI.big
      bsz := hI.bsz
      lsz := fun x hx => hI.lsz x (List.mem_of_mem_erase hx)
      reg := by
        show RegOK a.cs s.chunk_used (regions s.bb_sz (live.erase (p, n))
          (Function.update a.sl (alloc_index n) (p :: a.sl (alloc_index n))) a.bl)
        refine RegOK.perm (regions_small_push _ _ _ _ _ _ _ hidx).symm ?_
        rw [Function.update_eq_self]
        exact hreg
      huge := hI.huge }

theorem new_chunk_frame (pg : Nat) (s : Mgr) (sz : Nat) :
    (new_chunk pg s sz).2.sb_next = s.sb_next ∧ (new_chunk pg s sz).2.bb_sz = s.bb_sz ∧
    (new_chunk pg s sz).2.bb_next = s.bb_next ∧ (new_chunk pg s sz).2.big_head = s.big_head ∧
    (new_chunk pg s sz).2.big_tail = s.big_tail ∧ (new_chunk pg s sz).2.hb_prev = s.hb_prev ∧
    (new_chunk pg s sz).2.hb_next = s.hb_next := by
  unfold new_chunk
  by_cases hpg : pg = 0
  · simp [hpg]
  · simp only [hpg, if_false]
    split <;> split <;> exact ⟨rfl, rfl, rfl, rfl, rfl, rfl, rfl⟩

/-- Handing out `sz` bytes at the bump offset of a chunk keeps the invariant; the
size fields may change at the new block only. -/
theorem Inv.step_bump {s : Mgr} {live : List (Nat × Nat)} {a : Abs} (hI : Inv s live a)
    {c sz : Nat} (hc : c ∈ a.cs) (hfit : s.chunk_used c + sz ≤ CHUNKSIZE) (hsz : 0 < sz)
    (x : Nat × Nat) (hx : lreg x = (c + s.chunk_used c, sz))
    (bbsz2 : Nat → Nat) (hb : ∀ t, t ≠ c + s.chunk_used c → bbsz2 t = s.bb_sz t)
    (hxl : 1 ≤ x.2 ∧ x.2 ≤ HUGESIZE ∧
      (SMALLLEVEL * SMALLSIZE < x.2 → SIZEOF_SIZE_T ≤ x.1 ∧
        bbsz2 (x.1 - SIZEOF_SIZE_T) = big_size x.2)) :
    Inv { s with chunk_used := upd s.chunk_used c (s.chunk_used c + sz), bb_sz := bbsz2 }
      (x :: live) a := by
  have hreg := hI.reg.bump hI.capart hI.cused hc hfit hsz
  have hbl : ∀ b ∈ a.bl, bbsz2 b = s.bb_sz b := fun b hb1 =>
    hb b (by have := hreg.start_out (mem_regions_big hb1); simp only at this; omega)
  exact
    { chunks := hI.chunks
      ctail := hI.ctail
      capart := hI.capart
      cused := by
        intro d hd
        show SIZEOF_CHUNK ≤ upd s.chunk_used c (s.chunk_used c + sz) d ∧
          upd s.chunk_used c (s.chunk_used c + sz) d ≤ CHUNKSIZE + 8
        by_cases hdc : d = c
        · subst hdc
          rw [upd_same]
          have := hI.cused d hd
          omega
        · rw [upd_other _ _ _ _ hdc]
          exact hI.cused d hd
      small := hI.small
      shigh := hI.shigh
      big := hI.big
      bsz := by
        intro b hb1
        show bbsz2 b % 8 = 0
        rw [hbl b hb1]
        exact hI.bsz b hb1
      lsz := by
        intro y hy
        rcases List.mem_cons.1 hy with rfl | hy
        · exact hxl
        · refine lsz_frame hI.lsz (fun z hz => hb _ ?_) y hy
          have := hreg.start_out (mem_regions_live hz)
          simp only at this
          omega
      reg := by
        show RegOK a.cs (upd s.chunk_used c (s.chunk_used c + sz))
          (regions bbsz2 (x :: live) a.sl a.bl)
        rw [regions_live_cons, hx, regions_congr _ _ hbl]
        exact hreg
      huge := hI.huge }

/-- A new chunk whose first `sz` bytes are handed out keeps the invariant; the
size fields may change at the new block only. -/
theorem Inv.step_new_chunk {s : Mgr} {live : List (Nat × Nat)} {a : Abs} (hI : Inv s live a)
    {pg sz : Nat} (hpg : pg ≠ 0) (hap : ∀ c ∈ a.cs, Apart c pg) (hsz : 0 < sz)
    (hle : sz ≤ CHUNKSIZE - 8)
    (x : Nat × Nat) (hx : lreg x = (pg + SIZEOF_CHUNK, sz))
    (bbsz2 : Nat → Nat) (hb : ∀ t, t ≠ pg + SIZEOF_CHUNK → bbsz2 t = s.bb_sz t)
    (hxl : 1 ≤ x.2 ∧ x.2 ≤ HUGESIZE ∧
      (SMALLLEVEL * SMALLSIZE < x.2 → SIZEOF_SIZE_T ≤ x.1 ∧
        bbsz2 (x.1 - SIZEOF_SIZE_T) = big_size x.2)) :
    Inv { (new_chunk pg s sz).2 with bb_sz := bbsz2 } (x :: live)
      ⟨a.cs ++ [pg], a.sl, a.bl⟩ := by
  have hreg := hI.reg.new_chunk hI.cused hap hsz (by unfold CHUNKSIZE at *; omega)
  have hbl : ∀ b ∈ a.bl, bbsz2 b = s.bb_sz b := fun b hb1 =>
    hb b (by have := hreg.start_out (mem_regions_big hb1); simp only at this; omega)
  obtain ⟨f1, _, f3, f4, f5, f6, f7⟩ := new_chunk_frame pg s sz
  have hnotin : pg ∉ a.cs := fun hm => (hap pg hm).ne rfl
  exact
    { chunks := by
        show IsList (new_chunk pg s sz).2.chunk_next (new_chunk pg s sz).2.chunk_head
          (a.cs ++ [pg])
        rw [new_chunk_next pg s sz hpg, new_chunk_head pg s sz hpg]
        by_cases hcs : a.cs = []
        · have h0 : s.chunk_head = 0 := by
            have := hI.chunks; rw [hcs] at this; exact this
          have ht : s.chunk_tail = 0 := by
            have := hI.ctail; rw [hcs] at this; exact this
          rw [hcs, h0, ht]
          simp only [ne_eq, not_true_eq_false, if_false, if_true, List.nil_append]
          exact ⟨rfl, hpg, upd_same _ _ _⟩
        · have hne : s.chunk_head ≠ 0 := by
            intro h0
            have := hI.chunks
            rw [h0] at this
            exact hcs this.head_zero
          have ht : s.chunk_tail ≠ 0 := by
            rw [hI.ctail]
            exact hI.chunks.mem_ne_zero _ (lastD_mem hcs)
          rw [if_neg hne, if_pos ht, hI.ctail]
          exact hI.chunks.append hpg hcs hnotin (Apart.nodup hI.capart)
      ctail := by
        show (new_chunk pg s sz).2.chunk_tail = lastD (a.cs ++ [pg])
        rw [new_chunk_tail pg s sz hpg, lastD_append]
      capart := by
        show (a.cs ++ [pg]).Pairwise Apart
        rw [List.pairwise_append]
        refine ⟨hI.capart, List.Pairwise.cons (fun _ h => absurd h (List.not_mem_nil _)) List.Pairwise.nil, fun c hc d hd => ?_⟩
        rw [List.mem_singleton] at hd
        subst hd
        exact hap c hc
      cused := by
        intro d hd
        show SIZEOF_CHUNK ≤ (new_chunk pg s sz).2.chunk_used d ∧
          (new_chunk pg s sz).2.chunk_used d ≤ CHUNKSIZE + 8
        rw [new_chunk_used pg s sz hpg]
        by_cases hdc : d = pg
        · subst hdc
          rw [upd_same]
          unfold SIZEOF_CHUNK CHUNKSIZE at *
          omega
        · rw [upd_other _ _ _ _ hdc]
          rcases List.mem_append.1 hd with hd | hd
          · exact hI.cused d hd
          · exact absurd (List.mem_singleton.1 hd) hdc
      small := by
        intro i
        show IsList (new_chunk pg s sz).2.sb_next ((new_chunk pg s sz).2.small_list i) (a.sl i)
        rw [f1, new_chunk_small_list]
        exact hI.small i
      shigh := hI.shigh
      big := by
        show (a.bl = [] ∧ (new_chunk pg s sz).2.big_head = 0) ∨
          IsSeg (new_chunk pg s sz).2.bb_next (new_chunk pg s sz).2.big_head
            (new_chunk pg s sz).2.big_tail a.bl
        rw [f3, f4, f5]
        exact hI.big
      bsz := by
        intro b hb1
        show bbsz2 b % 8 = 0
        rw [hbl b hb1]
        exact hI.bsz b hb1
      lsz := by
        intro y hy
        rcases List.mem_cons.1 hy with rfl | hy
        · exact hxl
        · refine lsz_frame hI.lsz (fun z hz => hb _ ?_) y hy
          have := hreg.start_out (mem_regions_live hz)
          simp only at this
          omega
      reg := by
        show RegOK (a.cs ++ [pg]) (new_chunk pg s sz).2.chunk_used
          (regions bbsz2 (x :: live) a.sl a.bl)
        rw [regions_live_cons, hx, regions_congr _ _ hbl, new_chunk_used pg s sz hpg]
        exact hreg
      huge := by
        show (new_chunk pg s sz).2.hb_prev = (fun _ => 0) ∧
          (new_chunk pg s sz).2.hb_next huge_list_addr = 0
        rw [f6, f7]
        exact hI.huge }

/-- Popping the head of a small class for a request of that class keeps the
invariant. -/
theorem Inv.step_small_pop {s : Mgr} {live : List (Nat × Nat)} {a : Abs} (hI : Inv s live a)
    {n : Nat} (h1 : 1 ≤ n) (hn : n ≤ SMALLLEVEL * SMALLSIZE)
    (hne : s.small_list (alloc_index n) ≠ 0) :
    ∃ a1, Inv (small_pop s (alloc_index n)) ((s.small_list (alloc_index n), n) :: live) a1 ∧
      a1.cs = a.cs := by
  have hidx : alloc_index n < SMALLLEVEL :=
    alloc_index_lt n (by simpa [SMALLLEVEL, SMALLSIZE] using hn)
  obtain ⟨rest, hsl, hrest⟩ := (hI.small (alloc_index n)).head_ne_zero hne
  refine ⟨⟨a.cs, Function.update a.sl (alloc_index n) rest, a.bl⟩, ?_, rfl⟩
  have hHUGE : SMALLLEVEL * SMALLSIZE ≤ HUGESIZE := by decide
  exact
    { chunks := hI.chunks
      ctail := hI.ctail
      capart := hI.capart
      cused := hI.cused
      small := by
        intro i
        show IsList s.sb_next
          (upd s.small_list (alloc_index n) (s.sb_next (s.small_list (alloc_index n))) i)
          (Function.update a.sl (alloc_index n) rest i)
        by_cases hi : i = alloc_index n
        · subst hi
          rw [upd_same, Function.update_same]
          exact hrest
        · rw [upd_other _ _ _ _ hi, Function.update_noteq hi]
          exact hI.small i
      shigh := by
        intro i hi
        show Function.update a.sl (alloc_index n) rest i = []
        rw [Function.update_noteq (by omega)]
        exact hI.shigh i hi
      big := hI.big
      bsz := hI.bsz
      lsz := by
        intro y hy
        rcases List.mem_cons.1 hy with rfl | hy
        · exact ⟨h1, le_trans hn hHUGE, fun hb => absurd hn (by simp only at hb; omega)⟩
        · exact hI.lsz y hy
      reg := by
        show RegOK a.cs s.chunk_used (regions s.bb_sz ((s.small_list (alloc_index n), n) :: live)
          (Function.update a.sl (alloc_index n) rest) a.bl)
        rw [regions_live_cons, lreg_small hn]
        refine RegOK.perm (regions_small_push _ _ _ _ _ _ _ hidx) ?_
        rw [← hsl, Function.update_eq_self]
        exact hI.reg
      huge := hI.huge }

/-- Cutting a live small block down to a smaller class and filing the rest as one
free block, as the scan over the larger classes does, keeps the invariant. -/
theorem Inv.step_small_split {s : Mgr} {live : List (Nat × Nat)} {a : Abs} {q m : Nat}
    (hI : Inv s ((q, m) :: live) a) (hm : m ≤ SMALLLEVEL * SMALLSIZE)
    {n : Nat} (h1 : 1 ≤ n) (hn : alloc_index n < alloc_index m) :
    ∃ a1, Inv (small_push s (q + (alloc_index n + 1) * SMALLSIZE)
        (alloc_index m - alloc_index n - 1)) ((q, n) :: live) a1 ∧ a1.cs = a.cs := by
  have hm256 : m ≤ 256 := by simpa [SMALLLEVEL, SMALLSIZE] using hm
  have hidx : alloc_index m < SMALLLEVEL := alloc_index_lt m hm256
  have hn256 : n ≤ SMALLLEVEL * SMALLSIZE := by
    unfold alloc_index SMALLSIZE at hn
    unfold SMALLLEVEL SMALLSIZE
    omega
  have hj : alloc_index m - alloc_index n - 1 < SMALLLEVEL := by
    unfold SMALLLEVEL at *
    omega
  have hreg : RegOK a.cs s.chunk_used
      ((q, (alloc_index m + 1) * SMALLSIZE) :: regions s.bb_sz live a.sl a.bl) := by
    have := hI.reg
    rw [regions_live_cons, lreg_small hm] at this
    exact this
  have hpos := hreg.head_pos
  simp only at hpos
  have hspan : (alloc_index n + 1) * SMALLSIZE +
      (alloc_index m - alloc_index n - 1 + 1) * SMALLSIZE = (alloc_index m + 1) * SMALLSIZE := by
    unfold SMALLSIZE
    omega
  have hp : q + (alloc_index n + 1) * SMALLSIZE ≠ 0 := by
    unfold SMALLSIZE; omega
  have hnot : ∀ i, q + (alloc_index n + 1) * SMALLSIZE ∉ a.sl i := fun i =>
    hreg.not_mem_small hI.shigh (by simp only; omega)
      (by simp only; unfold SMALLSIZE at *; omega) i
  have hHUGE : SMALLLEVEL * SMALLSIZE ≤ HUGESIZE := by decide
  refine ⟨⟨a.cs, Function.update a.sl (alloc_index m - alloc_index n - 1)
      ((q + (alloc_index n + 1) * SMALLSIZE) :: a.sl (alloc_index m - alloc_index n - 1)),
      a.bl⟩, ?_, rfl⟩
  exact
    { chunks := hI.chunks
      ctail := hI.ctail
      capart := hI.capart
      cused := hI.cused
      small := by
        intro i
        show IsList (upd s.sb_next (q + (alloc_index n + 1) * SMALLSIZE)
            (s.small_list (alloc_index m - alloc_index n - 1)))
          (upd s.small_list (alloc_index m - alloc_index n - 1)
            (q + (alloc_index n + 1) * SMALLSIZE) i)
          (Function.update a.sl (alloc_index m - alloc_index n - 1)
            ((q + (alloc_index n + 1) * SMALLSIZE) ::
              a.sl (alloc_index m - alloc_index n - 1)) i)
        by_cases hi : i = alloc_index m - alloc_index n - 1
        · subst hi
          rw [upd_same, Function.update_same]
          refine ⟨rfl, hp, ?_⟩
          rw [upd_same]
          exact (hI.small _).frame (hnot _)
        · rw [upd_other _ _ _ _ hi, Function.update_noteq hi]
          exact (hI.small i).frame (hnot i)
      shigh := by
        intro i hi
        show Function.update a.sl (alloc_index m - alloc_index n - 1) _ i = []
        rw [Function.update_noteq (by omega)]
        exact hI.shigh i hi
      big := hI.big
      bsz := hI.bsz
      lsz := by
        intro y hy
        rcases List.mem_cons.1 hy with rfl | hy
        · exact ⟨h1, le_trans hn256 hHUGE, fun hb => absurd hn256 (by simp only at hb; omega)⟩
        · exact hI.lsz y (List.mem_cons_of_mem _ hy)
      reg := by
        show RegOK a.cs s.chunk_used (regions s.bb_sz ((q, n) :: live)
          (Function.update a.sl (alloc_index m - alloc_index n - 1)
            ((q + (alloc_index n + 1) * SMALLSIZE) ::
              a.sl (alloc_index m - alloc_index n - 1))) a.bl)
        rw [regions_live_cons, lreg_small hn256]
        refine RegOK.perm ((regions_small_push _ _ _ _ _ _ _ hj).cons _).symm ?_
        rw [Function.update_eq_self]
        refine hreg.split (le_refl _) (le_refl _) ?_ ?_ ?_
        · simp only; omega
        · simp only; unfold SMALLSIZE; omega
        · simp only; unfold SMALLSIZE; omega
      huge := hI.huge }

theorem alloc_index_class (i : Nat) : alloc_index ((i + 1) * SMALLSIZE) = i := by
  unfold alloc_index SMALLSIZE
  omega

/-- `alloc_small_memory` keeps the invariant, the returned block becoming live. -/
theorem Inv.step_alloc_small {s : Mgr} {live : List (Nat × Nat)} {a : Abs} (hI : Inv s live a)
    {fuel pg n p : Nat} {s1 : Mgr} (h1 : 1 ≤ n) (hn : n ≤ SMALLLEVEL * SMALLSIZE)
    (hpg : pg = 0 ∨ ∀ c ∈ a.cs, Apart c pg)
    (h : alloc_small_memory fuel pg s (alloc_index n) = Res.ok (p, s1)) :
    ∃ a1, Inv s1 (if p = 0 then live else (p, n) :: live) a1 ∧
      (a1.cs = a.cs ∨ (pg ≠ 0 ∧ a1.cs = a.cs ++ [pg])) := by
  have hn256 : n ≤ 256 := by simpa [SMALLLEVEL, SMALLSIZE] using hn
  have hidx : alloc_index n < SMALLLEVEL := alloc_index_lt n hn256
  have hHUGE : SMALLLEVEL * SMALLSIZE ≤ HUGESIZE := by decide
  have hxl : ∀ q : Nat, 1 ≤ (q, n).2 ∧ (q, n).2 ≤ HUGESIZE ∧
      (SMALLLEVEL * SMALLSIZE < (q, n).2 → SIZEOF_SIZE_T ≤ (q, n).1 ∧
        s.bb_sz ((q, n).1 - SIZEOF_SIZE_T) = big_size (q, n).2) :=
    fun q => ⟨h1, le_trans hn hHUGE, fun hb => absurd hn (by simp only at hb; omega)⟩
  unfold alloc_small_memory at h
  simp only at h
  split at h
  · rename_i hne
    simp only [Res.ok.injEq, Prod.mk.injEq] at h
    obtain ⟨hp, hs⟩ := h
    subst hp hs
    rw [if_neg hne]
    obtain ⟨a1, ha1, hcs⟩ := hI.step_small_pop h1 hn hne
    exact ⟨a1, ha1, Or.inl hcs⟩
  · rename_i hne
    split at h
    · simp at h
    · simp at h
    · rename_i c hfc
      simp only [Res.ok.injEq, Prod.mk.injEq] at h
      obtain ⟨hp, hs⟩ := h
      obtain ⟨hc, hfit⟩ := find_chunk_mem _ _ _ _ _ _ hI.chunks hfc
      have hc0 : c ≠ 0 := hI.chunks.mem_ne_zero c hc
      have hp0 : p ≠ 0 := by omega
      rw [if_neg hp0]
      subst hp hs
      refine ⟨a, ?_, Or.inl rfl⟩
      exact hI.step_bump hc hfit (by unfold SMALLSIZE; omega) (c + s.chunk_used c, n)
        (lreg_small hn) s.bb_sz (fun _ _ => rfl) (hxl _)
    · rename_i hfc
      split at h
      · rename_i r hl
        simp only [Res.ok.injEq] at h
        subst h
        obtain ⟨i, hi1, hi2, hi3, hi4, hi5⟩ := lookup_larger_spec _ _ _ _ _ hl
        simp only at hi4 hi5
        have hi32 : i < SMALLLEVEL := by
          by_contra hcon
          have := hI.small i
          rw [hI.shigh i (by omega)] at this
          exact hi3 this
        have hsurplus : (i + 1) * SMALLSIZE - (alloc_index n + 1) * SMALLSIZE =
            8 * ((i - alloc_index n - 1) + 1) := by
          unfold SMALLSIZE; omega
        rw [hsurplus, split_small_memory_eq] at hi5
        have hm : (i + 1) * SMALLSIZE ≤ SMALLLEVEL * SMALLSIZE := by
          unfold SMALLLEVEL SMALLSIZE at *; omega
        have hm1 : 1 ≤ (i + 1) * SMALLSIZE := by unfold SMALLSIZE; omega
        have hcl := alloc_index_class i
        have hne2 : s.small_list (alloc_index ((i + 1) * SMALLSIZE)) ≠ 0 := by
          rw [hcl]; exact hi3
        obtain ⟨a1, ha1, hcs1⟩ := hI.step_small_pop hm1 hm hne2
        obtain ⟨a2, ha2, hcs2⟩ := ha1.step_small_split hm h1 (by rw [hcl]; omega)
        rw [hcl] at ha2
        rw [hi4, hi5, if_neg hi3]
        exact ⟨a2, ha2, Or.inl (hcs2.trans hcs1)⟩
      · simp only [Res.ok.injEq] at h
        by_cases hpg0 : pg = 0
        · subst hpg0
          simp only [new_chunk, if_true, Prod.mk.injEq] at h
          obtain ⟨hp, hs⟩ := h
          subst hp hs
          exact ⟨a, hI, Or.inl rfl⟩
        · have hap : ∀ c ∈ a.cs, Apart c pg := by
            rcases hpg with hpg | hpg
            · exact absurd hpg hpg0
            · exact hpg
          have hfst := new_chunk_fst pg s ((alloc_index n + 1) * SMALLSIZE) hpg0
          rw [h] at hfst
          simp only at hfst
          have hs : s1 = (new_chunk pg s ((alloc_index n + 1) * SMALLSIZE)).2 := by rw [h]
          have hp0 : p ≠ 0 := by omega
          rw [if_neg hp0, hs, hfst]
          refine ⟨⟨a.cs ++ [pg], a.sl, a.bl⟩, ?_, Or.inr ⟨hpg0, rfl⟩⟩
          have hpos : 0 < (alloc_index n + 1) * SMALLSIZE := by unfold SMALLSIZE; omega
          have := hI.step_new_chunk hpg0 hap hpos
            (by unfold CHUNKSIZE SMALLSIZE SMALLLEVEL at *; omega)
            (pg + 16, n) (lreg_small hn) s.bb_sz (fun _ _ => rfl) (hxl _)
          rw [← (new_chunk_frame pg s _).2.1] at this
          exact this

theorem IsSeg.ne_nil {next : Nat → Nat} {h t : Nat} {xs : List Nat} (hl : IsSeg next h t xs) :
    xs ≠ [] := by
  intro he
  rw [he] at hl
  exact hl

theorem Inv.big_nil {s : Mgr} {live : List (Nat × Nat)} {a : Abs} (hI : Inv s live a)
    (h : s.big_head = 0) : a.bl = [] := by
  rcases hI.big with hb | hb
  · exact hb.1
  · cases hbl : a.bl with
    | nil => rfl
    | cons x xs =>
      rw [hbl] at hb
      have := hb.head_eq
      exact absurd (this.1.symm.trans h) this.2

theorem Inv.big_seg {s : Mgr} {live : List (Nat × Nat)} {a : Abs} (hI : Inv s live a)
    (h : s.big_head ≠ 0) : IsSeg s.bb_next s.big_head s.big_tail a.bl := by
  rcases hI.big with hb | hb
  · exact absurd hb.2 h
  · exact hb

/-- `free_big_memory` of a live big block keeps the invariant. -/
theorem Inv.step_free_big {s : Mgr} {live : List (Nat × Nat)} {a : Abs} (hI : Inv s live a)
    {p n : Nat} (hx : (p, n) ∈ live) (hn : SMALLLEVEL * SMALLSIZE < n) :
    ∃ s1 a1, free_big_memory s p = Res.ok s1 ∧ Inv s1 (live.erase (p, n)) a1 ∧
      a1.cs = a.cs := by
  have hreg := hI.reg_live hx
  rw [lreg_big hn] at hreg
  obtain ⟨hn1, hn2, hn3⟩ := hI.lsz _ hx
  obtain ⟨hp8, hbsz⟩ := hn3 hn
  simp only at hp8 hbsz hn2
  have hpos := hreg.head_pos
  simp only at hpos
  have hb0 : p - SIZEOF_SIZE_T ≠ 0 := by unfold SIZEOF_CHUNK at hpos; omega
  have hpgt : ¬ p ≤ SIZEOF_SIZE_T := by unfold SIZEOF_CHUNK at hpos; omega
  have hnotin : p - SIZEOF_SIZE_T ∉ a.bl :=
    hreg.not_mem_big (le_refl _) (by simp only; omega)
  have hlsz : ∀ x ∈ live.erase (p, n), 1 ≤ x.2 ∧ x.2 ≤ HUGESIZE ∧
      (SMALLLEVEL * SMALLSIZE < x.2 → SIZEOF_SIZE_T ≤ x.1 ∧
        s.bb_sz (x.1 - SIZEOF_SIZE_T) = big_size x.2) :=
    fun x hx => hI.lsz x (List.mem_of_mem_erase hx)
  have hbs : ∀ b ∈ (p - SIZEOF_SIZE_T) :: a.bl, s.bb_sz b % 8 = 0 := by
    intro b hb
    rcases List.mem_cons.1 hb with rfl | hb
    · rw [hbsz]
      exact (big_size_bounds n hn hn2).2.2.1
    · exact hI.bsz b hb
  have hreg2 : RegOK a.cs s.chunk_used
      (regions s.bb_sz (live.erase (p, n)) a.sl ((p - SIZEOF_SIZE_T) :: a.bl)) := by
    refine RegOK.perm (regions_big_cons _ _ _ _ _).symm ?_
    rw [hbsz]
    exact hreg
  unfold free_big_memory
  rw [if_neg hpgt]
  simp only
  by_cases hh : s.big_head = 0
  · rw [if_pos hh]
    have hnil := hI.big_nil hh
    rw [hnil] at hreg2 hbs
    refine ⟨_, ⟨a.cs, a.sl, [p - SIZEOF_SIZE_T]⟩, rfl, ?_, rfl⟩
    exact
      { chunks := hI.chunks
        ctail := hI.ctail
        capart := hI.capart
        cused := hI.cused
        small := hI.small
        shigh := hI.shigh
        big := Or.inr ⟨rfl, rfl, hb0⟩
        bsz := hbs
        lsz := hlsz
        reg := hreg2
        huge := hI.huge }
  · rw [if_neg hh]
    have hseg := hI.big_seg hh
    refine ⟨_, ⟨a.cs, a.sl, (p - SIZEOF_SIZE_T) :: a.bl⟩, rfl, ?_, rfl⟩
    exact
      { chunks := hI.chunks
        ctail := hI.ctail
        capart := hI.capart
        cused := hI.cused
        small := hI.small
        shigh := hI.shigh
        big := Or.inr ((hseg.frame_seg hnotin).cons hb0 (upd_same _ _ _))
        bsz := hbs
        lsz := hlsz
        reg := hreg2
        huge := hI.huge }

theorem Inv.nb {s : Mgr} {live : List (Nat × Nat)} {a : Abs} (h : Inv s live a) :
    InvNB s live a :=
  ⟨h.chunks, h.ctail, h.capart, h.cused, h.small, h.shigh, h.bsz, h.lsz, h.reg, h.huge⟩

theorem InvNB.with_big {s : Mgr} {live : List (Nat × Nat)} {a : Abs} (h : InvNB s live a)
    (hb : (a.bl = [] ∧ s.big_head = 0) ∨ IsSeg s.bb_next s.big_head s.big_tail a.bl) :
    Inv s live a :=
  ⟨h.chunks, h.ctail, h.capart, h.cused, h.small, h.shigh, hb, h.bsz, h.lsz, h.reg, h.huge⟩

/-- The links of the big list do not matter to the rest of the invariant. -/
theorem InvNB.relink {s : Mgr} {live : List (Nat × Nat)} {a : Abs} (h : InvNB s live a)
    (h1 t1 : Nat) (nx1 : Nat → Nat) :
    InvNB { s with big_head := h1, big_tail := t1, bb_next := nx1 } live a :=
  ⟨h.chunks, h.ctail, h.capart, h.cused, h.small, h.shigh, h.bsz, h.lsz, h.reg, h.huge⟩

theorem InvNB.perm_big {s : Mgr} {live : List (Nat × Nat)} {cs : List Nat}
    {sl : Nat → List Nat} {bl bl1 : List Nat} (h : InvNB s live ⟨cs, sl, bl⟩)
    (hp : bl.Perm bl1) : InvNB s live ⟨cs, sl, bl1⟩ :=
  ⟨h.chunks, h.ctail, h.capart, h.cused, h.small, h.shigh,
    fun b hb => h.bsz b (hp.mem_iff.2 hb), h.lsz,
    h.reg.perm (regions_big_perm _ _ _ hp), h.huge⟩

/-- A free big block whose size field is the normalised size of `n` becomes the
live block `(b + 8, n)`. -/
theorem InvNB.take {s : Mgr} {live : List (Nat × Nat)} {cs : List Nat}
    {sl : Nat → List Nat} {b : Nat} {rest : List Nat} (h : InvNB s live ⟨cs, sl, b :: rest⟩)
    {n : Nat} (hn : SMALLLEVEL * SMALLSIZE < n) (hn2 : n ≤ HUGESIZE)
    (hsz : s.bb_sz b = big_size n) :
    InvNB s ((b + SIZEOF_SIZE_T, n) :: live) ⟨cs, sl, rest⟩ := by
  have hl : lreg (b + SIZEOF_SIZE_T, n) = (b, s.bb_sz b) := by
    rw [lreg_big hn, hsz]
    simp
  exact
    { chunks := h.chunks
      ctail := h.ctail
      capart := h.capart
      cused := h.cused
      small := h.small
      shigh := h.shigh
      bsz := fun x hx => h.bsz x (List.mem_cons_of_mem _ hx)
      lsz := by
        intro y hy
        rcases List.mem_cons.1 hy with rfl | hy
        · refine ⟨by simp only; omega, hn2, fun _ => ⟨by simp, ?_⟩⟩
          simp only [Nat.add_sub_cancel]
          exact hsz
        · exact h.lsz y hy
      reg := by
        show RegOK cs s.chunk_used (regions s.bb_sz ((b + SIZEOF_SIZE_T, n) :: live) sl rest)
        rw [regions_live_cons, hl]
        exact h.reg.perm (regions_big_cons _ _ _ _ _)
      huge := h.huge }

/-- Shrinking the free big block `b` to `sz` bytes and filing the `left` bytes
behind it as a free small block. -/
theorem InvNB.cut_small {s : Mgr} {live : List (Nat × Nat)} {cs : List Nat}
    {sl : Nat → List Nat} {b : Nat} {rest : List Nat} (h : InvNB s live ⟨cs, sl, b :: rest⟩)
    {sz : Nat} (hsz : 0 < sz) (h8 : sz % 8 = 0) (hlt : sz < s.bb_sz b)
    (hidx : (s.bb_sz b - sz - 1) / SMALLSIZE < SMALLLEVEL) :
    InvNB (small_push { s with bb_sz := upd s.bb_sz b sz } (b + sz)
        ((s.bb_sz b - sz - 1) / SMALLSIZE)) live
      ⟨cs, Function.update sl ((s.bb_sz b - sz - 1) / SMALLSIZE)
        ((b + sz) :: sl ((s.bb_sz b - sz - 1) / SMALLSIZE)), b :: rest⟩ := by
  have hB := h.bsz b (List.mem_cons_self _ _)
  have hreg0 : RegOK cs s.chunk_used ((b, s.bb_sz b) :: regions s.bb_sz live sl rest) :=
    h.reg.perm (regions_big_cons _ _ _ _ _)
  have hpos := hreg0.head_pos
  simp only at hpos
  have hnot : ∀ i, b + sz ∉ sl i := fun i =>
    hreg0.not_mem_small h.shigh (by simp only; omega) (by simp only; omega) i
  have hbrest : b ∉ rest := hreg0.not_mem_big (le_refl _) (by simp only; omega)
  have hp : b + sz ≠ 0 := by omega
  have hcongr : ∀ x ∈ rest, upd s.bb_sz b sz x = s.bb_sz x := fun x hx =>
    upd_other _ _ _ _ (fun he => hbrest (he ▸ hx))
  have hspan : ((s.bb_sz b - sz - 1) / SMALLSIZE + 1) * SMALLSIZE = s.bb_sz b - sz := by
    unfold SMALLSIZE; omega
  exact
    { chunks := h.chunks
      ctail := h.ctail
      capart := h.capart
      cused := h.cused
      small := by
        intro i
        show IsList (upd s.sb_next (b + sz) (s.small_list ((s.bb_sz b - sz - 1) / SMALLSIZE)))
          (upd s.small_list ((s.bb_sz b - sz - 1) / SMALLSIZE) (b + sz) i)
          (Function.update sl ((s.bb_sz b - sz - 1) / SMALLSIZE)
            ((b + sz) :: sl ((s.bb_sz b - sz - 1) / SMALLSIZE)) i)
        by_cases hi : i = (s.bb_sz b - sz - 1) / SMALLSIZE
        · subst hi
          rw [upd_same, Function.update_same]
          refine ⟨rfl, hp, ?_⟩
          rw [upd_same]
          exact (h.small _).frame (hnot _)
        · rw [upd_other _ _ _ _ hi, Function.update_noteq hi]
          exact (h.small i).frame (hnot i)
      shigh := by
        intro i hi
        show Function.update sl ((s.bb_sz b - sz - 1) / SMALLSIZE) _ i = []
        rw [Function.update_noteq (by omega)]
        exact h.shigh i hi
      bsz := by
        intro x hx
        show upd s.bb_sz b sz x % 8 = 0
        rcases List.mem_cons.1 hx with rfl | hx
        · rw [upd_same]; exact h8
        · rw [hcongr x hx]; exact h.bsz x (List.mem_cons_of_mem _ hx)
      lsz := by
        refine lsz_frame h.lsz (fun z hz => ?_)
        show upd s.bb_sz b sz (lreg z).1 = s.bb_sz (lreg z).1
        exact upd_other _ _ _ _ (hreg0.live_start_ne (le_refl _) (by simp only; omega) hz)
      reg := by
        show RegOK cs s.chunk_used (regions (upd s.bb_sz b sz) live
          (Function.update sl ((s.bb_sz b - sz - 1) / SMALLSIZE)
            ((b + sz) :: sl ((s.bb_sz b - sz - 1) / SMALLSIZE))) (b :: rest))
        refine RegOK.perm (regions_big_cons _ _ _ _ _).symm ?_
        refine RegOK.perm ((regions_small_push _ _ _ _ _ _ _ hidx).cons _).symm ?_
        rw [Function.update_eq_self, upd_same, regions_congr _ _ hcongr, hspan]
        refine hreg0.split (le_refl _) (le_refl _) ?_ hsz ?_
        · simp only; omega
        · simp only; omega
      huge := h.huge }

/-- Shrinking the free big block `b` to `sz` bytes and keeping the bytes behind it
as a free big block whose size field is `left - 8`. -/
theorem InvNB.cut_big {s : Mgr} {live : List (Nat × Nat)} {cs : List Nat}
    {sl : Nat → List Nat} {b : Nat} {rest : List Nat} (h : InvNB s live ⟨cs, sl, b :: rest⟩)
    {sz : Nat} (hsz : 0 < sz) (h8 : sz % 8 = 0) (hlt : sz < s.bb_sz b)
    (hidx : ¬ (s.bb_sz b - sz - 1) / SMALLSIZE < SMALLLEVEL) :
    InvNB { s with bb_sz := upd (upd s.bb_sz b sz) (b + sz) (s.bb_sz b - sz - SIZEOF_SIZE_T) }
      live ⟨cs, sl, b :: (b + sz) :: rest⟩ := by
  have hB := h.bsz b (List.mem_cons_self _ _)
  have hreg0 : RegOK cs s.chunk_used ((b, s.bb_sz b) :: regions s.bb_sz live sl rest) :=
    h.reg.perm (regions_big_cons _ _ _ _ _)
  have hpos := hreg0.head_pos
  simp only at hpos
  have hbrest : b ∉ rest := hreg0.not_mem_big (le_refl _) (by simp only; omega)
  have hlrest : b + sz ∉ rest :=
    hreg0.not_mem_big (by simp only; omega) (by simp only; omega)
  have hne : b ≠ b + sz := by omega
  have hcongr : ∀ x ∈ rest,
      upd (upd s.bb_sz b sz) (b + sz) (s.bb_sz b - sz - SIZEOF_SIZE_T) x = s.bb_sz x := by
    intro x hx
    have e1 : x ≠ b + sz := fun he => hlrest (he ▸ hx)
    have e2 : x ≠ b := fun he => hbrest (he ▸ hx)
    rw [upd_other _ _ _ _ e1, upd_other _ _ _ _ e2]
  have hleft : 264 ≤ s.bb_sz b - sz := by
    unfold SMALLSIZE SMALLLEVEL at hidx; omega
  exact
    { chunks := h.chunks
      ctail := h.ctail
      capart := h.capart
      cused := h.cused
      small := h.small
      shigh := h.shigh
      bsz := by
        intro x hx
        show upd (upd s.bb_sz b sz) (b + sz) (s.bb_sz b - sz - SIZEOF_SIZE_T) x % 8 = 0
        rcases List.mem_cons.1 hx with rfl | hx
        · rw [upd_other _ _ _ _ hne, upd_same]; exact h8
        · rcases List.mem_cons.1 hx with rfl | hx
          · rw [upd_same]; unfold SIZEOF_SIZE_T; omega
          · rw [hcongr x hx]; exact h.bsz x (List.mem_cons_of_mem _ hx)
      lsz := by
        refine lsz_frame h.lsz (fun z hz => ?_)
        show upd (upd s.bb_sz b sz) (b + sz) (s.bb_sz b - sz - SIZEOF_SIZE_T) (lreg z).1 =
          s.bb_sz (lreg z).1
        rw [upd_other _ _ _ _
            (hreg0.live_start_ne (by simp only; omega) (by simp only; omega) hz),
          upd_other _ _ _ _ (hreg0.live_start_ne (le_refl _) (by simp only; omega) hz)]
      reg := by
        show RegOK cs s.chunk_used
          (regions (upd (upd s.bb_sz b sz) (b + sz) (s.bb_sz b - sz - SIZEOF_SIZE_T)) live sl
            (b :: (b + sz) :: rest))
        refine RegOK.perm (regions_big_cons _ _ _ _ _).symm ?_
        refine RegOK.perm ((regions_big_cons _ _ _ _ _).cons _).symm ?_
        rw [upd_other _ _ _ _ hne, upd_same, upd_same, regions_congr _ _ hcongr]
        refine hreg0.split (le_refl _) (le_refl _) ?_ hsz ?_
        · simp only; unfold SIZEOF_SIZE_T; omega
        · simp only; unfold SIZEOF_SIZE_T; omega
      huge := h.huge }

theorem InvNB.head_facts {s : Mgr} {live : List (Nat × Nat)} {cs : List Nat}
    {sl : Nat → List Nat} {b : Nat} {rest : List Nat} (h : InvNB s live ⟨cs, sl, b :: rest⟩) :
    b ≠ 0 ∧ 0 < s.bb_sz b ∧ b ∉ rest ∧ rest.Nodup ∧
      ∀ t, b ≤ t → t < b + s.bb_sz b → t ∉ rest := by
  have hreg0 : RegOK cs s.chunk_used ((b, s.bb_sz b) :: regions s.bb_sz live sl rest) :=
    h.reg.perm (regions_big_cons _ _ _ _ _)
  have hpos := hreg0.head_pos
  simp only at hpos
  refine ⟨by unfold SIZEOF_CHUNK at hpos; omega, hpos.1,
    hreg0.not_mem_big (le_refl _) (by simp only; omega), ?_, fun t h1 h2 =>
      hreg0.not_mem_big h1 h2⟩
  have := RegOK.bl_nodup h.reg
  exact (List.nodup_cons.1 this).2

/-- `split_big_block`, the split of a fitting block found by the rotation, keeps
the invariant. -/
theorem InvNB.step_split {s : Mgr} {live : List (Nat × Nat)} {cs : List Nat}
    {sl : Nat → List Nat} {b : Nat} {rest : List Nat} (h : InvNB s live ⟨cs, sl, b :: rest⟩)
    (hseg : IsSeg s.bb_next s.big_head s.big_tail rest)
    {n : Nat} (hn : SMALLLEVEL * SMALLSIZE < n) (hn2 : n ≤ HUGESIZE)
    (hlt : big_size n < s.bb_sz b) {r : Nat × Mgr}
    (hr : split_big_block s b (big_size n) = Res.ok r) :
    r.1 = b ∧ ∃ a1, Inv r.2 ((b + SIZEOF_SIZE_T, n) :: live) a1 ∧ a1.cs = cs := by
  obtain ⟨hz1, hz2, hz3, hz4⟩ := big_size_bounds n hn hn2
  obtain ⟨hb0, _, hbrest, hnd, hout⟩ := h.head_facts
  have hsz : 0 < big_size n := by omega
  have hp : b + big_size n ≠ 0 := by omega
  have hlp : b + big_size n ∉ rest := hout _ (by omega) (by omega)
  refine ⟨split_big_block_ptr _ _ _ _ hr, ?_⟩
  unfold split_big_block at hr
  simp only at hr
  split at hr
  · rename_i hidx
    simp only [free_small_memory, if_neg hp, Res.ok.injEq] at hr
    subst hr
    have h1 := h.cut_small hsz hz3 hlt hidx
    have h2 := h1.take hn hn2 (upd_same _ _ _)
    exact ⟨_, h2.with_big (Or.inr hseg), rfl⟩
  · rename_i hidx
    have h1 := h.cut_big hsz hz3 hlt hidx
    have h2 := h1.take hn hn2
      (by
        show upd (upd s.bb_sz b (big_size n)) (b + big_size n) _ b = big_size n
        rw [upd_other _ _ _ _ (by omega), upd_same])
    split at hr
    · simp only [Res.ok.injEq] at hr
      subst hr
      have h3 := h2.relink (b + big_size n) s.big_tail
        (upd s.bb_next (b + big_size n) s.big_head)
      exact ⟨_, h3.with_big (Or.inr ((hseg.frame_seg hlp).cons hp (upd_same _ _ _))), rfl⟩
    · split at hr
      · simp at hr
      · simp only [Res.ok.injEq] at hr
        subst hr
        have hperm : ((b + big_size n) :: rest).Perm (rest ++ [b + big_size n]) :=
          (List.perm_append_singleton _ _).symm
        have h3 := (h2.perm_big hperm).relink s.big_head (b + big_size n)
          (upd (upd s.bb_next (b + big_size n) 0) s.big_tail (b + big_size n))
        exact ⟨_, h3.with_big (Or.inr ((hseg.frame_seg hlp).append_seg hp hnd)), rfl⟩

/-- The rotation of `lookup_big_memory` keeps the invariant; a block it returns
becomes live. -/
theorem Inv.step_lookup_loop {live : List (Nat × Nat)} {n : Nat}
    (hn : SMALLLEVEL * SMALLSIZE < n) (hn2 : n ≤ HUGESIZE) (term : Nat) :
    ∀ (k : Nat) (s : Mgr) (cs : List Nat) (sl : Nat → List Nat) (b y : Nat) (ys : List Nat)
      (r : Nat × Mgr), Inv s live ⟨cs, sl, b :: y :: ys⟩ →
      lookup_big_loop (big_size n) term k s b = Res.ok r →
      ∃ a1, Inv r.2 (if r.1 = 0 then live else (r.1 + SIZEOF_SIZE_T, n) :: live) a1 ∧
        a1.cs = cs := by
  intro k
  induction k with
  | zero =>
    intro s cs sl b y ys r hI h
    simp only [lookup_big_loop, Res.ok.injEq] at h
    subst h
    exact ⟨_, hI, rfl⟩
  | succ k ih =>
    intro s cs sl b y ys r hI h
    have hN := hI.nb
    obtain ⟨hb0, _, hbrest, hnd, _⟩ := hN.head_facts
    have hseg : IsSeg s.bb_next s.big_head s.big_tail (b :: y :: ys) := by
      rcases hI.big with hb | hb
      · exact absurd hb.1 (by simp)
      · exact hb
    have hseg2 : IsSeg s.bb_next (s.bb_next b) s.big_tail (y :: ys) := hseg.tail
    have hN1 := hN.relink (s.bb_next b) s.big_tail s.bb_next
    unfold lookup_big_loop at h
    rw [if_neg hb0] at h
    simp only at h
    split at h
    · split at h
      · rename_i hge heq
        simp only [Res.ok.injEq] at h
        subst h
        simp only [if_neg hb0]
        exact ⟨_, (hN1.take hn hn2 heq).with_big (Or.inr hseg2), rfl⟩
      · rename_i hge hneq
        have hlt : big_size n < s.bb_sz b := by
          simp only [ge_iff_le] at hge
          omega
        obtain ⟨hr1, a1, ha1, hcs⟩ := hN1.step_split hseg2 hn hn2 hlt h
        rw [hr1, if_neg hb0]
        exact ⟨a1, ha1, hcs⟩
    · split at h
      · simp at h
      · have hperm : (b :: y :: ys).Perm (y :: (ys ++ [b])) := by
          have := (List.perm_append_singleton b (y :: ys)).symm
          simpa using this
        have hseg3 : IsSeg (upd (upd s.bb_next b 0) s.big_tail b) (s.bb_next b) b
            (y :: (ys ++ [b])) := by
          have hfr : IsSeg (upd s.bb_next b 0) (s.bb_next b) s.big_tail (y :: ys) :=
            hseg2.frame_seg hbrest
          have := hfr.append_seg hb0 hnd
          simpa using this
        have hI4 := ((hN.perm_big hperm).relink (s.bb_next b) b
          (upd (upd s.bb_next b 0) s.big_tail b)).with_big (Or.inr hseg3)
        split at h
        · cases hys : ys ++ [b] with
          | nil => simp at hys
          | cons y2 ys2 =>
            rw [hys] at hI4
            have hy : s.bb_next b = y := hseg2.head_eq.1
            exact ih _ cs sl _ y2 ys2 r (hy ▸ hI4) (hy ▸ h)
        · simp only [Res.ok.injEq] at h
          subst h
          exact ⟨_, hI4, rfl⟩

/-- `lookup_big_memory` keeps the invariant; a block it returns becomes live. -/
theorem Inv.step_lookup_big {s : Mgr} {live : List (Nat × Nat)} {a : Abs} (hI : Inv s live a)
    {n : Nat} (hn : SMALLLEVEL * SMALLSIZE < n) (hn2 : n ≤ HUGESIZE) {r : Nat × Mgr}
    (h : lookup_big_memory s (big_size n) = Res.ok r) :
    ∃ a1, Inv r.2 (if r.1 = 0 then live else (r.1 + SIZEOF_SIZE_T, n) :: live) a1 ∧
      a1.cs = a.cs := by
  obtain ⟨hz1, hz2, hz3, hz4⟩ := big_size_bounds n hn hn2
  have hsz : 0 < big_size n := by omega
  unfold lookup_big_memory at h
  split at h
  · simp only [Res.ok.injEq] at h
    subst h
    exact ⟨a, hI, rfl⟩
  · rename_i hh
    have hseg := hI.big_seg hh
    obtain ⟨cs, sl, bl⟩ := a
    simp only at hseg
    cases bl with
    | nil => exact absurd hseg id
    | cons b rest =>
      have hhead := hseg.head_eq
      have hN := hI.nb
      obtain ⟨hb0, _, hbrest, hnd, hout⟩ := hN.head_facts
      simp only at h
      rw [hhead.1] at h
      split at h
      · rename_i htail
        have hrest : rest = [] := by
          cases rest with
          | nil => rfl
          | cons y ys =>
            have h1 := hseg.tail.tail_eq
            have h2 : lastD (y :: ys) ∈ y :: ys := lastD_mem (by simp)
            rw [← h1, ← htail] at h2
            exact absurd h2 hbrest
        subst hrest
        split at h
        · rename_i hge
          simp only [ge_iff_le] at hge
          split at h
          · rename_i hleft
            simp only [Res.ok.injEq] at h
            subst h
            simp only [if_neg hb0]
            have heq : s.bb_sz b = big_size n := by omega
            exact ⟨_, ((hN.take hn hn2 heq).relink 0 0 s.bb_next).with_big
              (Or.inl ⟨rfl, rfl⟩), rfl⟩
          · rename_i hleft
            have hlt : big_size n < s.bb_sz b := by omega
            have hp : b + big_size n ≠ 0 := by omega
            split at h
            · rename_i hidx
              simp only [free_small_memory, if_neg hp, Res.ok.injEq] at h
              subst h
              simp only [if_neg hb0]
              have h1 := (hN.cut_small hsz hz3 hlt hidx).take hn hn2 (upd_same _ _ _)
              exact ⟨_, (h1.relink 0 0 s.bb_next).with_big (Or.inl ⟨rfl, rfl⟩), rfl⟩
            · rename_i hidx
              simp only [Res.ok.injEq] at h
              subst h
              simp only [if_neg hb0]
              have h1 := (hN.cut_big hsz hz3 hlt hidx).take hn hn2
                (by
                  show upd (upd s.bb_sz b (big_size n)) (b + big_size n) _ b = big_size n
                  rw [upd_other _ _ _ _ (by omega), upd_same])
              exact ⟨_, (h1.relink (b + big_size n) (b + big_size n) s.bb_next).with_big
                (Or.inr ⟨rfl, rfl, hp⟩), rfl⟩
        · simp only [Res.ok.injEq] at h
          subst h
          exact ⟨_, hI, rfl⟩
      · rename_i htail
        cases rest with
        | nil => exact absurd hseg.2.1.symm htail
        | cons y ys =>
          exact Inv.step_lookup_loop hn hn2 b _ s cs sl b y ys r hI h

/-- `alloc_big_memory` keeps the invariant, the returned block becoming live. -/
theorem Inv.step_alloc_big {s : Mgr} {live : List (Nat × Nat)} {a : Abs} (hI : Inv s live a)
    {pg n p : Nat} {s1 : Mgr} (hn : SMALLLEVEL * SMALLSIZE < n) (hn2 : n ≤ HUGESIZE)
    (hpg : pg = 0 ∨ ∀ c ∈ a.cs, Apart c pg)
    (h : alloc_big_memory pg s n = Res.ok (p, s1)) :
    ∃ a1, Inv s1 (if p = 0 then live else (p, n) :: live) a1 ∧
      (a1.cs = a.cs ∨ (pg ≠ 0 ∧ a1.cs = a.cs ++ [pg])) := by
  obtain ⟨hz1, hz2, hz3, hz4⟩ := big_size_bounds n hn hn2
  have hsz : 0 < big_size n := by omega
  unfold alloc_big_memory at h
  simp only at h
  split at h
  · simp at h
  · rename_i ht
    split at h
    · rename_i hfit
      simp only [Res.ok.injEq, Prod.mk.injEq] at h
      obtain ⟨hp, hs⟩ := h
      have hcs : a.cs ≠ [] := by
        intro he
        have := hI.ctail
        rw [he] at this
        exact ht this
      have hc : s.chunk_tail ∈ a.cs := by
        rw [hI.ctail]; exact lastD_mem hcs
      have hp0 : p ≠ 0 := by unfold SIZEOF_SIZE_T at hp; omega
      rw [if_neg hp0]
      subst hp hs
      refine ⟨a, ?_, Or.inl rfl⟩
      refine hI.step_bump hc hfit hsz (s.chunk_tail + s.chunk_used s.chunk_tail +
        SIZEOF_SIZE_T, n) ?_ (upd s.bb_sz (s.chunk_tail + s.chunk_used s.chunk_tail)
          (big_size n)) (fun t ht => upd_other _ _ _ _ ht) ?_
      · rw [lreg_big hn]; simp
      · refine ⟨by simp only; omega, hn2, fun _ => ⟨by simp, ?_⟩⟩
        simp only [Nat.add_sub_cancel]
        exact upd_same _ _ _
    · split at h
      · simp at h
      · simp at h
      · rename_i b s2 hl
        obtain ⟨a1, ha1, hcs1⟩ := hI.step_lookup_big hn hn2 hl
        simp only at ha1
        split at h
        · rename_i hb0
          rw [if_pos hb0] at ha1
          by_cases hpg0 : pg = 0
          · subst hpg0
            simp only [new_chunk, if_true, Res.ok.injEq, Prod.mk.injEq] at h
            obtain ⟨hp, hs⟩ := h
            subst hp hs
            exact ⟨a1, ha1, Or.inl hcs1⟩
          · have hap : ∀ c ∈ a1.cs, Apart c pg := by
              rw [hcs1]
              rcases hpg with hpg | hpg
              · exact absurd hpg hpg0
              · exact hpg
            have hfst := new_chunk_fst pg s2 (big_size n) hpg0
            have hb1 : (new_chunk pg s2 (big_size n)).1 ≠ 0 := by rw [hfst]; omega
            have hfr := (new_chunk_frame pg s2 (big_size n)).2.1
            generalize hnc : new_chunk pg s2 (big_size n) = nc at h hfst hb1 hfr
            obtain ⟨b1, s3⟩ := nc
            simp only at h hfst hb1 hfr
            rw [if_neg hb1] at h
            simp only [Res.ok.injEq, Prod.mk.injEq] at h
            obtain ⟨hp, hs⟩ := h
            have hp0 : p ≠ 0 := by unfold SIZEOF_SIZE_T at hp; omega
            rw [if_neg hp0]
            subst hp hs hfst
            have hs3 : s3 = (new_chunk pg s2 (big_size n)).2 := by rw [hnc]
            refine ⟨⟨a1.cs ++ [pg], a1.sl, a1.bl⟩, ?_, Or.inr ⟨hpg0, by rw [hcs1]⟩⟩
            rw [hs3, (new_chunk_frame pg s2 (big_size n)).2.1]
            refine ha1.step_new_chunk hpg0 hap hsz hz2 (pg + 16 + SIZEOF_SIZE_T, n) ?_
              (upd s2.bb_sz (pg + 16) (big_size n))
              (fun t ht => upd_other _ _ _ _ ht) ?_
            · rw [lreg_big hn]; simp [SIZEOF_CHUNK]
            · refine ⟨by simp only; omega, hn2, fun _ => ⟨by simp, ?_⟩⟩
              simp only [Nat.add_sub_cancel]
              exact upd_same _ _ _
        · rename_i hb0
          rw [if_neg hb0] at ha1
          simp only [Res.ok.injEq, Prod.mk.injEq] at h
          obtain ⟨hp, hs⟩ := h
          have hp0 : p ≠ 0 := by unfold SIZEOF_SIZE_T at hp; omega
          rw [if_neg hp0]
          subst hp hs
          exact ⟨a1, ha1, Or.inl hcs1⟩

theorem Inv.init : Inv init [] ⟨[], fun _ => [], []⟩ :=
  { chunks := rfl
    ctail := rfl
    capart := List.Pairwise.nil
    cused := fun c hc => absurd hc (List.not_mem_nil _)
    small := fun _ => rfl
    shigh := fun _ _ => rfl
    big := Or.inl ⟨rfl, rfl⟩
    bsz := fun b hb => absurd hb (List.not_mem_nil _)
    lsz := fun x hx => absurd hx (List.not_mem_nil _)
    reg := by
      have : regions MemPool.init.bb_sz [] (fun _ => []) [] = [] := by
        simp [regions, sregs, bregs]
      rw [this]
      exact ⟨List.Pairwise.nil, fun r hr => absurd hr (List.not_mem_nil _)⟩
    huge := ⟨rfl, rfl⟩ }

theorem Inv.alloc_huge_faults {s : Mgr} {live : List (Nat × Nat)} {a : Abs} (hI : Inv s live a)
    {pg n : Nat} (hpg : pg ≠ 0) : alloc_huge_memory pg s n = Res.fault := by
  have h2 := hI.huge.2
  simp [alloc_huge_memory, hpg, h2]

theorem Inv.free_huge_faults {s : Mgr} {live : List (Nat × Nat)} {a : Abs} (hI : Inv s live a)
    (p : Nat) : free_huge_memory s p = Res.fault := by
  have h1 := hI.huge.1
  unfold free_huge_memory
  split
  · rfl
  · simp [h1]

/-- `memory_alloc` keeps the invariant, the returned block becoming live. -/
theorem Inv.step_memory_alloc {s : Mgr} {live : List (Nat × Nat)} {a : Abs}
    (hI : Inv s live a) {fuel pg n p : Nat} {s1 : Mgr}
    (hpg : pg = 0 ∨ ∀ c ∈ a.cs, Apart c pg)
    (h : memory_alloc fuel pg s n = Res.ok (p, s1)) :
    ∃ a1, Inv s1 (if p = 0 then live else (p, n) :: live) a1 ∧
      (a1.cs = a.cs ∨ (pg ≠ 0 ∧ a1.cs = a.cs ++ [pg])) := by
  unfold memory_alloc at h
  split at h
  · rename_i hs
    split at h
    · simp only [Res.ok.injEq, Prod.mk.injEq] at h
      obtain ⟨hp, hs1⟩ := h
      subst hp hs1
      exact ⟨a, hI, Or.inl rfl⟩
    · rename_i hn0
      exact hI.step_alloc_small (by omega) hs hpg h
  · rename_i hs
    split at h
    · by_cases hpg0 : pg = 0
      · subst hpg0
        simp only [alloc_huge_memory, if_true, Res.ok.injEq, Prod.mk.injEq] at h
        obtain ⟨hp, hs1⟩ := h
        subst hp hs1
        exact ⟨a, hI, Or.inl rfl⟩
      · rw [hI.alloc_huge_faults hpg0] at h
        simp at h
    · rename_i hh
      exact hI.step_alloc_big (by omega) (by omega) hpg h

/-- `memory_free` of a live block with its size keeps the invariant. -/
theorem Inv.step_memory_free {s : Mgr} {live : List (Nat × Nat)} {a : Abs}
    (hI : Inv s live a) {p n : Nat} {s1 : Mgr} (hx : (p, n) ∈ live)
    (h : memory_free s p n = Res.ok s1) :
    ∃ a1, Inv s1 (live.erase (p, n)) a1 ∧ a1.cs = a.cs := by
  have hn1 := (hI.lsz _ hx).1
  simp only at hn1
  by_cases hs : n ≤ SMALLLEVEL * SMALLSIZE
  · obtain ⟨hp, a1, ha1, hcs⟩ := hI.step_free_small hx hs
    rw [memory_free_small s p n hn1 hs hp] at h
    simp only [Res.ok.injEq] at h
    subst h
    exact ⟨a1, ha1, hcs⟩
  · unfold memory_free at h
    rw [if_neg hs] at h
    split at h
    · obtain ⟨s2, a1, hf, ha1, hcs⟩ := hI.step_free_big hx (by omega)
      rw [hf] at h
      simp only [Res.ok.injEq] at h
      subst h
      exact ⟨a1, ha1, hcs⟩
    · rw [hI.free_huge_faults p] at h
      simp at h

/-- Every world a run reaches satisfies the invariant. -/
theorem Inv.run (fuel : Nat) :
    ∀ (calls : List Call) (w w1 : World) (a : Abs), Inv w.mgr w.live a →
      PagesOK a.cs calls → run fuel calls w = some w1 → ∃ a1, Inv w1.mgr w1.live a1 := by
  intro calls
  induction calls with
  | nil =>
    intro w w1 a hI _ h
    simp only [MemPool.run, Option.some.injEq] at h
    subst h
    exact ⟨a, hI⟩
  | cons c cs ih =>
    intro w w1 a hI hP h
    unfold MemPool.run at h
    split at h
    · rename_i w2 hex
      cases c with
      | alloc n pg =>
        unfold exec at hex
        simp only at hex
        split at hex
        · rename_i p s2 hm
          simp only [Option.some.injEq] at hex
          subst hex
          by_cases hpg0 : pg = 0
          · obtain ⟨a1, ha1, hcs⟩ := hI.step_memory_alloc (Or.inl hpg0) hm
            have hcs1 : a1.cs = a.cs := by
              rcases hcs with hcs | hcs
              · exact hcs
              · exact absurd hpg0 hcs.1
            have hP1 : PagesOK a1.cs cs := by
              rw [hcs1]
              simpa [PagesOK, pages, hpg0] using hP
            exact ih _ w1 a1 ha1 hP1 h
          · have hpages : pages (Call.alloc n pg :: cs) = pg :: pages cs := by
              simp [pages, hpg0]
            obtain ⟨hP1, hP2⟩ := hP
            rw [hpages] at hP1 hP2
            rw [List.pairwise_cons] at hP1
            obtain ⟨a1, ha1, hcs⟩ := hI.step_memory_alloc
              (Or.inr (fun c hc => hP2 c hc pg (List.mem_cons_self _ _))) hm
            have hP3 : PagesOK a1.cs cs := by
              refine ⟨hP1.2, fun c hc q hq => ?_⟩
              rcases hcs with hcs | hcs
              · rw [hcs] at hc
                exact hP2 c hc q (List.mem_cons_of_mem _ hq)
              · rw [hcs.2] at hc
                rcases List.mem_append.1 hc with hc | hc
                · exact hP2 c hc q (List.mem_cons_of_mem _ hq)
                · rw [List.mem_singleton] at hc
                  subst hc
                  exact hP1.1 q hq
            exact ih _ w1 a1 ha1 hP3 h
        · simp at hex
      | free p n =>
        unfold exec at hex
        simp only at hex
        split at hex
        · rename_i hmem
          split at hex
          · rename_i s2 hm
            simp only [Option.some.injEq] at hex
            subst hex
            obtain ⟨a1, ha1, hcs⟩ := hI.step_memory_free hmem hm
            have hP1 : PagesOK a1.cs cs := by
              rw [hcs]
              simpa [PagesOK, pages] using hP
            exact ih _ w1 a1 ha1 hP1 h
          · simp at hex
        · simp at hex
    · simp at h

/-- The payload `[p, p + n)` of a live block lies in the bytes the block occupies. -/
theorem Inv.payload_sub {s : Mgr} {live : List (Nat × Nat)} {a : Abs} (hI : Inv s live a)
    {x : Nat × Nat} (hx : x ∈ live) :
    (lreg x).1 ≤ x.1 ∧ x.1 + x.2 ≤ (lreg x).1 + (lreg x).2 := by
  obtain ⟨h1, h2, h3⟩ := hI.lsz x hx
  obtain ⟨p, n⟩ := x
  simp only at h1 h2 h3
  by_cases hs : n ≤ SMALLLEVEL * SMALLSIZE
  · rw [lreg_small hs]
    simp only
    unfold alloc_index SMALLSIZE
    omega
  · have hb : SMALLLEVEL * SMALLSIZE < n := by omega
    rw [lreg_big hb]
    obtain ⟨h4, _⟩ := h3 hb
    have := (big_size_bounds n hb h2).2.2.2
    simp only
    unfold SIZEOF_SIZE_T at *
    omega

/-- A live block does not overlap any other block. -/
theorem Inv.live_disj {s : Mgr} {live : List (Nat × Nat)} {a : Abs} (hI : Inv s live a)
    {x : Nat × Nat} (hx : x ∈ live) {r : Nat × Nat}
    (hr : r ∈ regions s.bb_sz (live.erase x) a.sl a.bl) : Disj x r := by
  have h1 := (List.pairwise_cons.1 (hI.reg_live hx).1).1 r hr
  have h2 := hI.payload_sub hx
  unfold Disj at h1 ⊢
  omega

theorem demo_pages_apart : (pages demo_calls).Pairwise Apart := by
  simp [demo_calls, pages, Apart, CHUNKSIZE]

/-! ## Facts for the later claims -/

theorem Kept.same (s : Mgr) : Kept s s :=
  ⟨rfl, fun _ _ => rfl, fun h => h⟩

theorem Kept.chain {s t u : Mgr} (h1 : Kept s t) (h2 : Kept t u) : Kept s u :=
  ⟨h2.1.trans h1.1, fun i hi => (h2.2.1 i hi).trans (h1.2.1 i hi),
    fun h => h2.2.2 (h1.2.2 h)⟩

/-- A state that differs in other members only. -/
theorem Kept.of_eq {s t : Mgr} (h1 : t.bytes = s.bytes) (h2 : t.small_list = s.small_list) :
    Kept s t :=
  ⟨h1, fun i _ => by rw [h2], fun h => by rw [h2]; exact h⟩

theorem small_push_kept (s : Mgr) (ptr n : Nat) (hn : n < SMALLLEVEL) :
    Kept s (small_push s ptr n) := by
  refine ⟨rfl, fun i hi => ?_, fun h => ?_⟩
  · exact upd_other _ _ _ _ (by omega)
  · show upd s.small_list n ptr SMALLLEVEL = 0
    rw [upd_other _ _ _ _ (by omega)]
    exact h

theorem free_small_memory_kept {s t : Mgr} {ptr n : Nat} (hn : n < SMALLLEVEL)
    (h : free_small_memory s ptr n = Res.ok t) : Kept s t := by
  unfold free_small_memory at h
  split at h
  · simp at h
  · simp only [Res.ok.injEq] at h
    subst h
    exact small_push_kept s ptr n hn

theorem split_small_loop_kept :
    ∀ (k : Nat) (s : Mgr) (sb nsize : Nat), nsize ≤ SMALLLEVEL * SMALLSIZE →
      Kept s (split_small_loop k s sb nsize) := by
  intro k
  induction k with
  | zero => intro s sb nsize _; exact Kept.same s
  | succ k ih =>
    intro s sb nsize hn
    unfold split_small_loop
    split
    · rename_i hpos
      have hidx : (nsize - 1) / SMALLSIZE < SMALLLEVEL := by
        unfold SMALLLEVEL SMALLSIZE at *; omega
      have h1 : Kept s (small_push s sb ((nsize - 1) / SMALLSIZE)) :=
        small_push_kept s sb _ hidx
      refine h1.chain (ih _ _ _ ?_)
      omega
    · exact Kept.same s

theorem new_chunk_kept (pg : Nat) (s : Mgr) (sz : Nat) : Kept s (new_chunk pg s sz).2 := by
  apply Kept.of_eq
  · unfold new_chunk
    by_cases hpg : pg = 0
    · simp [hpg]
    · simp only [hpg, if_false]
      split <;> split <;> rfl
  · exact new_chunk_small_list pg s sz

theorem lookup_larger_kept (s : Mgr) (sz : Nat) (hsz : SMALLSIZE ≤ sz) :
    ∀ (k i0 : Nat) (r : Nat × Mgr), i0 + k ≤ SMALLLEVEL + 1 →
      lookup_larger s sz k i0 = some r → Kept s r.2 := by
  intro k i0 r hk h
  obtain ⟨i, hi1, hi2, hi3, _, hi5⟩ := lookup_larger_spec s sz k i0 r h
  rw [hi5]
  have hpop : Kept s (small_pop s i) := by
    refine ⟨rfl, fun j hj => ?_, fun h0 => ?_⟩
    · exact upd_other _ _ _ _ (by omega)
    · show upd s.small_list i _ SMALLLEVEL = 0
      have : SMALLLEVEL ≠ i := fun he => hi3 (he ▸ h0)
      rw [upd_other _ _ _ _ this]
      exact h0
  refine hpop.chain (split_small_loop_kept _ _ _ _ ?_)
  unfold SMALLLEVEL SMALLSIZE at *
  omega

theorem alloc_small_memory_kept {fuel pg : Nat} {s : Mgr} {n : Nat} {r : Nat × Mgr}
    (hn : n < SMALLLEVEL) (h : alloc_small_memory fuel pg s n = Res.ok r) : Kept s r.2 := by
  unfold alloc_small_memory at h
  simp only at h
  split at h
  · simp only [Res.ok.injEq] at h
    subst h
    refine ⟨rfl, fun j hj => upd_other _ _ _ _ (by omega), fun h0 => ?_⟩
    show upd s.small_list n _ SMALLLEVEL = 0
    rw [upd_other _ _ _ _ (by omega)]
    exact h0
  · split at h
    · simp at h
    · simp at h
    · simp only [Res.ok.injEq] at h
      subst h
      exact Kept.of_eq rfl rfl
    · split at h
      · rename_i r1 hl
        simp only [Res.ok.injEq] at h
        subst h
        exact lookup_larger_kept s _ (by unfold SMALLSIZE; omega) _ _ _ (by omega) hl
      · simp only [Res.ok.injEq] at h
        subst h
        exact new_chunk_kept _ _ _

theorem alloc_huge_memory_kept {pg : Nat} {s : Mgr} {n : Nat} {r : Nat × Mgr}
    (h : alloc_huge_memory pg s n = Res.ok r) : Kept s r.2 := by
  unfold alloc_huge_memory at h
  simp only at h
  split at h
  · simp only [Res.ok.injEq] at h
    subst h
    exact Kept.same s
  · split at h <;> split at h <;>
      first
      | (simp at h; done)
      | (simp only [Res.ok.injEq] at h; subst h; exact Kept.of_eq rfl rfl)

theorem split_big_block_kept {s : Mgr} {b sz : Nat} {r : Nat × Mgr}
    (h : split_big_block s b sz = Res.ok r) : Kept s r.2 := by
  unfold split_big_block at h
  simp only at h
  split at h
  · rename_i hidx
    split at h
    · rename_i s2 hf
      simp only [Res.ok.injEq] at h
      subst h
      have := free_small_memory_kept hidx hf
      exact this
    · simp at h
    · simp at h
  · split at h
    · simp only [Res.ok.injEq] at h
      subst h
      exact Kept.of_eq rfl rfl
    · split at h
      · simp at h
      · simp only [Res.ok.injEq] at h
        subst h
        exact Kept.of_eq rfl rfl

theorem lookup_big_loop_kept (sz term : Nat) :
    ∀ (k : Nat) (s : Mgr) (b : Nat) (r : Nat × Mgr),
      lookup_big_loop sz term k s b = Res.ok r → Kept s r.2 := by
  intro k
  induction k with
  | zero =>
    intro s b r h
    simp only [lookup_big_loop, Res.ok.injEq] at h
    subst h
    exact Kept.same s
  | succ k ih =>
    intro s b r h
    unfold lookup_big_loop at h
    split at h
    · simp at h
    · simp only at h
      split at h
      · split at h
        · simp only [Res.ok.injEq] at h
          subst h
          exact Kept.of_eq rfl rfl
        · have h2 := split_big_block_kept h
          exact Kept.chain (Kept.of_eq rfl rfl) h2
      · split at h
        · simp at h
        · split at h
          · have h2 := ih _ _ _ h
            exact Kept.chain (Kept.of_eq rfl rfl) h2
          · simp only [Res.ok.injEq] at h
            subst h
            exact Kept.of_eq rfl rfl

theorem lookup_big_memory_kept {s : Mgr} {sz : Nat} {r : Nat × Mgr}
    (h : lookup_big_memory s sz = Res.ok r) : Kept s r.2 := by
  unfold lookup_big_memory at h
  split at h
  · simp only [Res.ok.injEq] at h
    subst h
    exact Kept.same s
  · simp only at h
    split at h
    · split at h
      · split at h
        · simp only [Res.ok.injEq] at h
          subst h
          exact Kept.of_eq rfl rfl
        · split at h
          · rename_i hidx
            split at h
            · rename_i s2 hf
              simp only [Res.ok.injEq] at h
              subst h
              exact (free_small_memory_kept hidx hf).chain (Kept.of_eq rfl rfl)
            · simp at h
            · simp at h
          · simp only [Res.ok.injEq] at h
            subst h
            exact Kept.of_eq rfl rfl
      · simp only [Res.ok.injEq] at h
        subst h
        exact Kept.same s
    · exact lookup_big_loop_kept _ _ _ _ _ _ h

theorem alloc_big_memory_kept {pg : Nat} {s : Mgr} {n : Nat} {r : Nat × Mgr}
    (h : alloc_big_memory pg s n = Res.ok r) : Kept s r.2 := by
  unfold alloc_big_memory at h
  simp only at h
  split at h
  · simp at h
  · split at h
    · simp only [Res.ok.injEq] at h
      subst h
      exact Kept.of_eq rfl rfl
    · split at h
      · simp at h
      · simp at h
      · rename_i b s1 hl
        have h1 := lookup_big_memory_kept hl
        simp only at h1
        split at h
        · have h2 := new_chunk_kept pg s1 (big_size n)
          generalize new_chunk pg s1 (big_size n) = nc at h h2
          obtain ⟨b1, s2⟩ := nc
          simp only at h h2
          split at h
          · simp only [Res.ok.injEq] at h
            subst h
            exact h1.chain h2
          · simp only [Res.ok.injEq] at h
            subst h
            exact h1.chain (h2.chain (Kept.of_eq rfl rfl))
        · simp only [Res.ok.injEq] at h
          subst h
          exact h1

/-- `memory_alloc` keeps the bytes and the slots of `small_list` past the array,
and leaves the spare slot empty. -/
theorem memory_alloc_kept {fuel pg : Nat} {s : Mgr} {n : Nat} {r : Nat × Mgr}
    (h : memory_alloc fuel pg s n = Res.ok r) : Kept s r.2 := by
  unfold memory_alloc at h
  split at h
  · rename_i hs
    split at h
    · simp only [Res.ok.injEq] at h
      subst h
      exact Kept.same s
    · have : alloc_index n < SMALLLEVEL := by
        unfold alloc_index SMALLLEVEL SMALLSIZE at *; omega
      exact alloc_small_memory_kept this h
  · split at h
    · exact alloc_huge_memory_kept h
    · exact alloc_big_memory_kept h

theorem free_big_memory_kept {s t : Mgr} {p : Nat} (h : free_big_memory s p = Res.ok t) :
    Kept s t := by
  unfold free_big_memory at h
  split at h
  · simp at h
  · simp only at h
    split at h <;>
    · simp only [Res.ok.injEq] at h
      subst h
      exact Kept.of_eq rfl rfl

theorem free_huge_memory_kept {s t : Mgr} {p : Nat} (h : free_huge_memory s p = Res.ok t) :
    Kept s t := by
  unfold free_huge_memory at h
  split at h
  · simp at h
  · simp only at h
    split at h
    · simp at h
    · split at h
      · simp at h
      · simp only [Res.ok.injEq] at h
        subst h
        exact Kept.of_eq rfl rfl

/-- `memory_free` with a size that is not 0 keeps the bytes and the slots of
`small_list` past the array, and leaves the spare slot empty. -/
theorem memory_free_kept {s t : Mgr} {p n : Nat} (hn : 1 ≤ n)
    (h : memory_free s p n = Res.ok t) : Kept s t := by
  unfold memory_free at h
  split at h
  · rename_i hs
    have h256 : n ≤ 256 := by simpa [SMALLLEVEL, SMALLSIZE] using hs
    rw [index_agree n hn h256] at h
    exact free_small_memory_kept (alloc_index_lt n h256) h
  · split at h
    · exact free_big_memory_kept h
    · exact free_huge_memory_kept h

theorem BigKept.same_big (s : Mgr) : BigKept s s := ⟨rfl, rfl, rfl, rfl, rfl, rfl⟩

theorem BigKept.chain_big {s t u : Mgr} (h1 : BigKept s t) (h2 : BigKept t u) : BigKept s u :=
  ⟨h2.1.trans h1.1, h2.2.1.trans h1.2.1, h2.2.2.1.trans h1.2.2.1,
    h2.2.2.2.1.trans h1.2.2.2.1, h2.2.2.2.2.1.trans h1.2.2.2.2.1,
    h2.2.2.2.2.2.trans h1.2.2.2.2.2⟩

theorem small_push_bigkept (s : Mgr) (ptr n : Nat) : BigKept s (small_push s ptr n) :=
  ⟨rfl, rfl, rfl, rfl, rfl, rfl⟩

theorem free_small_memory_bigkept {s t : Mgr} {ptr n : Nat}
    (h : free_small_memory s ptr n = Res.ok t) : BigKept s t := by
  unfold free_small_memory at h
  split at h
  · simp at h
  · simp only [Res.ok.injEq] at h
    subst h
    exact ⟨rfl, rfl, rfl, rfl, rfl, rfl⟩

theorem split_small_loop_bigkept :
    ∀ (k : Nat) (s : Mgr) (sb nsize : Nat), BigKept s (split_small_loop k s sb nsize) := by
  intro k
  induction k with
  | zero => intro s sb nsize; exact BigKept.same_big s
  | succ k ih =>
    intro s sb nsize
    unfold split_small_loop
    split
    · exact BigKept.chain_big (small_push_bigkept s sb ((nsize - 1) / SMALLSIZE)) (ih _ _ _)
    · exact BigKept.same_big s

theorem new_chunk_bigkept (pg : Nat) (s : Mgr) (sz : Nat) : BigKept s (new_chunk pg s sz).2 := by
  unfold new_chunk
  by_cases hpg : pg = 0
  · simp only [hpg, if_true]
    exact BigKept.same_big s
  · simp only [hpg, if_false]
    split <;> split <;> exact ⟨rfl, rfl, rfl, rfl, rfl, rfl⟩

theorem lookup_larger_bigkept (s : Mgr) (sz : Nat) :
    ∀ (k i0 : Nat) (r : Nat × Mgr), lookup_larger s sz k i0 = some r → BigKept s r.2 := by
  intro k i0 r h
  obtain ⟨i, _, _, _, _, hi5⟩ := lookup_larger_spec s sz k i0 r h
  rw [hi5]
  have hpop : BigKept s (small_pop s i) := ⟨rfl, rfl, rfl, rfl, rfl, rfl⟩
  exact hpop.chain_big (split_small_loop_bigkept _ _ _ _)

theorem alloc_small_memory_bigkept {fuel pg : Nat} {s : Mgr} {n : Nat} {r : Nat × Mgr}
    (h : alloc_small_memory fuel pg s n = Res.ok r) : BigKept s r.2 := by
  unfold alloc_small_memory at h
  simp only at h
  split at h
  · simp only [Res.ok.injEq] at h
    subst h
    exact ⟨rfl, rfl, rfl, rfl, rfl, rfl⟩
  · split at h
    · simp at h
    · simp at h
    · simp only [Res.ok.injEq] at h
      subst h
      exact ⟨rfl, rfl, rfl, rfl, rfl, rfl⟩
    · split at h
      · rename_i r1 hl
        simp only [Res.ok.injEq] at h
        subst h
        exact lookup_larger_bigkept s _ _ _ _ hl
      · simp only [Res.ok.injEq] at h
        subst h
        exact new_chunk_bigkept _ _ _

theorem BigSizes.of_bigkept {s t : Mgr} (hs : BigSizes s) (h : BigKept s t) : BigSizes t := by
  obtain ⟨a1, _, a3, a4, a5, a6⟩ := h
  constructor
  · rw [a3]; exact hs.range
  · rw [a1, a3]; exact hs.head
  · rw [a3, a4]; exact hs.link
  · rw [a5]; exact hs.hprev
  · rw [a6]; exact hs.hnext

theorem BigSizes.fresh : BigSizes init :=
  ⟨fun _ => ⟨rfl, Nat.zero_le _, Or.inl rfl⟩, fun h => absurd rfl h, fun _ h => absurd rfl h,
    fun _ => rfl, rfl⟩

/-- One store of a size that is in range. -/
theorem BigSizes.set_sz {s : Mgr} (hs : BigSizes s) (a v : Nat) (h8 : v % 8 = 0)
    (hle : v ≤ CHUNKSIZE - 8) (hge : SMALLLEVEL * SMALLSIZE ≤ v) :
    BigSizes { s with bb_sz := upd s.bb_sz a v } := by
  have hv : v ≠ 0 := by unfold SMALLLEVEL SMALLSIZE at hge; omega
  have hmono : ∀ x, s.bb_sz x ≠ 0 → upd s.bb_sz a v x ≠ 0 := by
    intro x hx
    unfold upd
    split
    · exact hv
    · exact hx
  constructor
  · intro x
    show upd s.bb_sz a v x % 8 = 0 ∧ upd s.bb_sz a v x ≤ CHUNKSIZE - 8 ∧
      (upd s.bb_sz a v x = 0 ∨ SMALLLEVEL * SMALLSIZE ≤ upd s.bb_sz a v x)
    by_cases hx : x = a
    · rw [hx, upd_same]
      exact ⟨h8, hle, Or.inr hge⟩
    · rw [upd_other _ _ _ _ hx]
      exact hs.range x
  · intro h; exact hmono _ (hs.head h)
  · intro y h; exact hmono _ (hs.link y h)
  · exact hs.hprev
  · exact hs.hnext

/-- One store of a link to a block with a written size field, or of `NULL`. -/
theorem BigSizes.set_next {s : Mgr} (hs : BigSizes s) (a v : Nat)
    (hv : v ≠ 0 → s.bb_sz v ≠ 0) :
    BigSizes { s with bb_next := upd s.bb_next a v } := by
  constructor
  · exact hs.range
  · exact hs.head
  · intro y
    show upd s.bb_next a v y ≠ 0 → s.bb_sz (upd s.bb_next a v y) ≠ 0
    unfold upd
    split
    · exact hv
    · exact hs.link y
  · exact hs.hprev
  · exact hs.hnext

/-- A new head with a written size field, or `NULL`. -/
theorem BigSizes.set_head {s : Mgr} (hs : BigSizes s) (v : Nat)
    (hv : v ≠ 0 → s.bb_sz v ≠ 0) : BigSizes { s with big_head := v } :=
  ⟨hs.range, hv, hs.link, hs.hprev, hs.hnext⟩

theorem BigSizes.set_tail {s : Mgr} (hs : BigSizes s) (v : Nat) :
    BigSizes { s with big_tail := v } :=
  ⟨hs.range, hs.head, hs.link, hs.hprev, hs.hnext⟩

theorem split_big_block_sizes {s : Mgr} {b sz : Nat} {r : Nat × Mgr} (hs : BigSizes s)
    (h8 : sz % 8 = 0) (hge : SMALLLEVEL * SMALLSIZE ≤ sz) (hfit : sz ≤ s.bb_sz b)
    (h : split_big_block s b sz = Res.ok r) :
    BigSizes r.2 ∧ (∀ x, s.bb_sz x ≠ 0 → r.2.bb_sz x ≠ 0) ∧ r.2.bb_sz r.1 ≠ 0 := by
  obtain ⟨hb8, hble, _⟩ := hs.range b
  have hsz0 : sz ≠ 0 := by unfold SMALLLEVEL SMALLSIZE at hge; omega
  have hs1 := hs.set_sz b sz h8 (by omega) hge
  have hm1 : ∀ x, s.bb_sz x ≠ 0 → upd s.bb_sz b sz x ≠ 0 := by
    intro x hx
    by_cases e : x = b
    · rw [e, upd_same]; exact hsz0
    · rw [upd_other _ _ _ _ e]; exact hx
  unfold split_big_block at h
  simp only at h
  split at h
  · split at h
    · rename_i s2 hf
      simp only [Res.ok.injEq] at h
      subst h
      have hk := free_small_memory_bigkept hf
      refine ⟨hs1.of_bigkept hk, ?_, ?_⟩
      · intro x hx
        show s2.bb_sz x ≠ 0
        rw [hk.2.2.1]
        exact hm1 x hx
      · show s2.bb_sz b ≠ 0
        rw [hk.2.2.1]
        show upd s.bb_sz b sz b ≠ 0
        rw [upd_same]; exact hsz0
    · simp at h
    · simp at h
  · rename_i hidx
    have hl : 264 ≤ s.bb_sz b - sz := by
      unfold SMALLLEVEL SMALLSIZE at hidx
      omega
    have hv0 : s.bb_sz b - sz - SIZEOF_SIZE_T ≠ 0 := by unfold SIZEOF_SIZE_T; omega
    have hs2 := hs1.set_sz (b + sz) (s.bb_sz b - sz - SIZEOF_SIZE_T)
      (by unfold SIZEOF_SIZE_T; omega) (by unfold SIZEOF_SIZE_T; omega)
      (by unfold SIZEOF_SIZE_T SMALLLEVEL SMALLSIZE; omega)
    have hm2 : ∀ x, s.bb_sz x ≠ 0 →
        upd (upd s.bb_sz b sz) (b + sz) (s.bb_sz b - sz - SIZEOF_SIZE_T) x ≠ 0 := by
      intro x hx
      by_cases e : x = b + sz
      · rw [e, upd_same]; exact hv0
      · rw [upd_other _ _ _ _ e]; exact hm1 x hx
    have hnew : upd (upd s.bb_sz b sz) (b + sz) (s.bb_sz b - sz - SIZEOF_SIZE_T) (b + sz) ≠ 0 := by
      rw [upd_same]; exact hv0
    have hbb : upd (upd s.bb_sz b sz) (b + sz) (s.bb_sz b - sz - SIZEOF_SIZE_T) b ≠ 0 := by
      have : b ≠ b + sz := by omega
      rw [upd_other _ _ _ _ this, upd_same]; exact hsz0
    split at h
    · simp only [Res.ok.injEq] at h
      subst h
      have hs3 := hs2.set_next (b + sz) s.big_head hs2.head
      exact ⟨hs3.set_head (b + sz) (fun _ => hnew), hm2, hbb⟩
    · split at h
      · simp at h
      · simp only [Res.ok.injEq] at h
        subst h
        have hs3 := hs2.set_next (b + sz) 0 (fun h0 => absurd rfl h0)
        have hs4 := hs3.set_next s.big_tail (b + sz) (fun _ => hnew)
        exact ⟨hs4.set_tail (b + sz), hm2, hbb⟩

theorem lookup_big_loop_sizes (sz term : Nat) (h8 : sz % 8 = 0)
    (hge : SMALLLEVEL * SMALLSIZE ≤ sz) :
    ∀ (k : Nat) (s : Mgr) (b : Nat) (r : Nat × Mgr), BigSizes s → (b ≠ 0 → s.bb_sz b ≠ 0) →
      lookup_big_loop sz term k s b = Res.ok r →
      BigSizes r.2 ∧ (∀ x, s.bb_sz x ≠ 0 → r.2.bb_sz x ≠ 0) ∧
        (r.1 ≠ 0 → r.2.bb_sz r.1 ≠ 0) := by
  have hsz0 : sz ≠ 0 := by unfold SMALLLEVEL SMALLSIZE at hge; omega
  intro k
  induction k with
  | zero =>
    intro s b r hs _ h
    simp only [lookup_big_loop, Res.ok.injEq] at h
    subst h
    exact ⟨hs, fun _ hx => hx, fun h0 => absurd rfl h0⟩
  | succ k ih =>
    intro s b r hs hb h
    unfold lookup_big_loop at h
    split at h
    · simp at h
    · rename_i hb0
      have hs1 := hs.set_head (s.bb_next b) (hs.link b)
      simp only at h
      split at h
      · rename_i hfit
        split at h
        · rename_i heq
          simp only [Res.ok.injEq] at h
          subst h
          refine ⟨hs1, fun _ hx => hx, fun _ => ?_⟩
          show s.bb_sz b ≠ 0
          exact hb hb0
        · have := split_big_block_sizes hs1 h8 hge hfit h
          exact ⟨this.1, this.2.1, fun _ => this.2.2⟩
      · split at h
        · simp at h
        · have hs2 := hs1.set_next b 0 (fun h0 => absurd rfl h0)
          have hs3 := hs2.set_next s.big_tail b (fun _ => hb hb0)
          have hs4 := hs3.set_tail b
          split at h
          · have := ih _ _ _ hs4 hs4.head h
            exact this
          · simp only [Res.ok.injEq] at h
            subst h
            exact ⟨hs4, fun _ hx => hx, fun h0 => absurd rfl h0⟩

theorem lookup_big_memory_sizes {s : Mgr} {sz : Nat} {r : Nat × Mgr} (hs : BigSizes s)
    (h8 : sz % 8 = 0) (hge : SMALLLEVEL * SMALLSIZE ≤ sz)
    (h : lookup_big_memory s sz = Res.ok r) :
    BigSizes r.2 ∧ (∀ x, s.bb_sz x ≠ 0 → r.2.bb_sz x ≠ 0) ∧
      (r.1 ≠ 0 → r.2.bb_sz r.1 ≠ 0) := by
  have hsz0 : sz ≠ 0 := by unfold SMALLLEVEL SMALLSIZE at hge; omega
  unfold lookup_big_memory at h
  split at h
  · simp only [Res.ok.injEq] at h
    subst h
    exact ⟨hs, fun _ hx => hx, fun h0 => absurd rfl h0⟩
  · rename_i hh
    simp only at h
    split at h
    · split at h
      · rename_i hfit
        obtain ⟨hb8, hble, _⟩ := hs.range s.big_head
        have hs1 := hs.set_sz s.big_head sz h8 (by omega) hge
        have hm1 : ∀ x, s.bb_sz x ≠ 0 → upd s.bb_sz s.big_head sz x ≠ 0 := by
          intro x hx
          by_cases e : x = s.big_head
          · rw [e, upd_same]; exact hsz0
          · rw [upd_other _ _ _ _ e]; exact hx
        split at h
        · simp only [Res.ok.injEq] at h
          subst h
          exact ⟨(hs.set_head 0 (fun h0 => absurd rfl h0)).set_tail 0, fun _ hx => hx,
            fun _ => hs.head hh⟩
        · split at h
          · split at h
            · rename_i s2 hf
              simp only [Res.ok.injEq] at h
              subst h
              have hk := free_small_memory_bigkept hf
              have hs2 := hs1.of_bigkept hk
              refine ⟨(hs2.set_head 0 (fun h0 => absurd rfl h0)).set_tail 0, ?_, fun _ => ?_⟩
              · intro x hx
                show s2.bb_sz x ≠ 0
                rw [hk.2.2.1]
                exact hm1 x hx
              · show s2.bb_sz s.big_head ≠ 0
                rw [hk.2.2.1]
                exact hm1 _ (hs.head hh)
            · simp at h
            · simp at h
          · rename_i hl0 hidx
            have hl : 264 ≤ s.bb_sz s.big_head - sz := by
              unfold SMALLLEVEL SMALLSIZE at hidx
              omega
            have hv0 : s.bb_sz s.big_head - sz - SIZEOF_SIZE_T ≠ 0 := by
              unfold SIZEOF_SIZE_T; omega
            have hs2 := hs1.set_sz (s.big_head + sz) (s.bb_sz s.big_head - sz - SIZEOF_SIZE_T)
              (by unfold SIZEOF_SIZE_T; omega) (by unfold SIZEOF_SIZE_T; omega)
              (by unfold SIZEOF_SIZE_T SMALLLEVEL SMALLSIZE; omega)
            have hm2 : ∀ x, s.bb_sz x ≠ 0 →
                upd (upd s.bb_sz s.big_head sz) (s.big_head + sz)
                  (s.bb_sz s.big_head - sz - SIZEOF_SIZE_T) x ≠ 0 := by
              intro x hx
              by_cases e : x = s.big_head + sz
              · rw [e, upd_same]; exact hv0
              · rw [upd_other _ _ _ _ e]; exact hm1 x hx
            simp only [Res.ok.injEq] at h
            subst h
            refine ⟨(hs2.set_head (s.big_head + sz) (fun _ => ?_)).set_tail _, hm2,
              fun _ => hm2 _ (hs.head hh)⟩
            show upd (upd s.bb_sz s.big_head sz) (s.big_head + sz) _ (s.big_head + sz) ≠ 0
            rw [upd_same]; exact hv0
      · simp only [Res.ok.injEq] at h
        subst h
        exact ⟨hs, fun _ hx => hx, fun h0 => absurd rfl h0⟩
    · exact lookup_big_loop_sizes sz _ h8 hge _ _ _ _ hs (fun _ => hs.head hh) h

theorem bigkept_chunk_used (s : Mgr) (f : Nat → Nat) : BigKept s { s with chunk_used := f } :=
  ⟨rfl, rfl, rfl, rfl, rfl, rfl⟩

theorem alloc_big_memory_sizes {pg : Nat} {s : Mgr} {n : Nat} {r : Nat × Mgr} (hs : BigSizes s)
    (hn1 : SMALLLEVEL * SMALLSIZE < n) (hn2 : n ≤ HUGESIZE)
    (h : alloc_big_memory pg s n = Res.ok r) :
    BigSizes r.2 ∧ (∀ x, s.bb_sz x ≠ 0 → r.2.bb_sz x ≠ 0) ∧
      (r.1 ≠ 0 → r.2.bb_sz (r.1 - SIZEOF_SIZE_T) ≠ 0) := by
  obtain ⟨hz1, hz2, hz3, _⟩ := big_size_bounds n hn1 hn2
  have hge : SMALLLEVEL * SMALLSIZE ≤ big_size n := by unfold SMALLLEVEL SMALLSIZE; omega
  have hsz0 : big_size n ≠ 0 := by omega
  have hset : ∀ (t : Mgr) (a : Nat), BigSizes t →
      BigSizes { t with bb_sz := upd t.bb_sz a (big_size n) } ∧
      (∀ x, t.bb_sz x ≠ 0 → upd t.bb_sz a (big_size n) x ≠ 0) ∧
      upd t.bb_sz a (big_size n) (a + SIZEOF_SIZE_T - SIZEOF_SIZE_T) ≠ 0 := by
    intro t a ht
    refine ⟨ht.set_sz a _ hz3 hz2 hge, fun x hx => ?_, ?_⟩
    · by_cases e : x = a
      · rw [e, upd_same]; exact hsz0
      · rw [upd_other _ _ _ _ e]; exact hx
    · rw [Nat.add_sub_cancel, upd_same]; exact hsz0
  unfold alloc_big_memory at h
  simp only at h
  split at h
  · simp at h
  · split at h
    · simp only [Res.ok.injEq] at h
      subst h
      obtain ⟨a1, a2, a3⟩ := hset _ (s.chunk_tail + s.chunk_used s.chunk_tail)
        (hs.of_bigkept (bigkept_chunk_used s
          (upd s.chunk_used s.chunk_tail (s.chunk_used s.chunk_tail + big_size n))))
      exact ⟨a1, a2, fun _ => a3⟩
    · split at h
      · simp at h
      · simp at h
      · rename_i b s1 hl
        obtain ⟨l1, l2, l3⟩ := lookup_big_memory_sizes hs hz3 hge hl
        simp only at l1 l2 l3
        split at h
        · have hk := new_chunk_bigkept pg s1 (big_size n)
          generalize new_chunk pg s1 (big_size n) = nc at h hk
          obtain ⟨b1, s2⟩ := nc
          simp only at h hk
          have hs2 := l1.of_bigkept hk
          split at h
          · simp only [Res.ok.injEq] at h
            subst h
            refine ⟨hs2, fun x hx => ?_, fun h0 => absurd rfl h0⟩
            show s2.bb_sz x ≠ 0
            rw [hk.2.2.1]
            exact l2 x hx
          · simp only [Res.ok.injEq] at h
            subst h
            obtain ⟨a1, a2, a3⟩ := hset _ b1 hs2
            refine ⟨a1, fun x hx => a2 x ?_, fun _ => a3⟩
            rw [hk.2.2.1]
            exact l2 x hx
        · rename_i hb0
          simp only [Res.ok.injEq] at h
          subst h
          refine ⟨l1, l2, fun _ => ?_⟩
          show s1.bb_sz (b + SIZEOF_SIZE_T - SIZEOF_SIZE_T) ≠ 0
          rw [Nat.add_sub_cancel]
          exact l3 hb0

theorem free_big_memory_sizes {s t : Mgr} {ptr : Nat} (hs : BigSizes s)
    (hp : s.bb_sz (ptr - SIZEOF_SIZE_T) ≠ 0) (h : free_big_memory s ptr = Res.ok t) :
    BigSizes t ∧ t.bb_sz = s.bb_sz := by
  unfold free_big_memory at h
  split at h
  · simp at h
  · simp only at h
    split at h
    · simp only [Res.ok.injEq] at h
      subst h
      have hs1 := hs.set_next (ptr - SIZEOF_SIZE_T) 0 (fun h0 => absurd rfl h0)
      exact ⟨(hs1.set_head (ptr - SIZEOF_SIZE_T) (fun _ => hp)).set_tail _, rfl⟩
    · simp only [Res.ok.injEq] at h
      subst h
      have hs1 := hs.set_next (ptr - SIZEOF_SIZE_T) s.big_head hs.head
      exact ⟨hs1.set_head (ptr - SIZEOF_SIZE_T) (fun _ => hp), rfl⟩

/-- With the sentinel as the fresh allocator has it, `alloc_huge_memory` never
returns a block. -/
theorem alloc_huge_memory_sizes {pg : Nat} {s : Mgr} {n : Nat} {r : Nat × Mgr} (hs : BigSizes s)
    (h : alloc_huge_memory pg s n = Res.ok r) : r = (0, s) := by
  have hn := hs.hnext
  unfold alloc_huge_memory at h
  simp only at h
  split at h
  · simp only [Res.ok.injEq] at h
    exact h.symm
  · simp only [hn, ne_eq, not_true_eq_false, if_false, if_true] at h
    simp at h

/-- With no `prev` link written, `free_huge_memory` faults. -/
theorem free_huge_memory_sizes {s t : Mgr} {ptr : Nat} (hs : BigSizes s)
    (h : free_huge_memory s ptr = Res.ok t) : False := by
  unfold free_huge_memory at h
  split at h
  · simp at h
  · simp only [hs.hprev, if_true] at h
    simp at h

theorem memory_alloc_sizes {fuel pg : Nat} {s : Mgr} {n : Nat} {r : Nat × Mgr} (hs : BigSizes s)
    (h : memory_alloc fuel pg s n = Res.ok r) :
    BigSizes r.2 ∧ (∀ x, s.bb_sz x ≠ 0 → r.2.bb_sz x ≠ 0) ∧
      (r.1 ≠ 0 → n ≤ HUGESIZE ∧
        (SMALLLEVEL * SMALLSIZE < n → r.2.bb_sz (r.1 - SIZEOF_SIZE_T) ≠ 0)) := by
  unfold memory_alloc at h
  split at h
  · rename_i hsm
    have hH : n ≤ HUGESIZE := by unfold SMALLLEVEL SMALLSIZE at hsm; unfold HUGESIZE CHUNKSIZE; omega
    split at h
    · simp only [Res.ok.injEq] at h
      subst h
      exact ⟨hs, fun _ hx => hx, fun h0 => absurd rfl h0⟩
    · have hk := alloc_small_memory_bigkept h
      refine ⟨hs.of_bigkept hk, fun x hx => ?_, fun _ => ⟨hH, fun hc => ?_⟩⟩
      · rw [hk.2.2.1]; exact hx
      · omega
  · rename_i hsm
    split at h
    · have := alloc_huge_memory_sizes hs h
      subst this
      exact ⟨hs, fun _ hx => hx, fun h0 => absurd rfl h0⟩
    · rename_i hH
      obtain ⟨a1, a2, a3⟩ := alloc_big_memory_sizes hs (by omega) (by omega) h
      exact ⟨a1, a2, fun h0 => ⟨by omega, fun _ => a3 h0⟩⟩

theorem memory_free_sizes {s t : Mgr} {p n : Nat} (hs : BigSizes s)
    (hp : SMALLLEVEL * SMALLSIZE < n → s.bb_sz (p - SIZEOF_SIZE_T) ≠ 0)
    (h : memory_free s p n = Res.ok t) : BigSizes t ∧ t.bb_sz = s.bb_sz := by
  unfold memory_free at h
  split at h
  · have hk := free_small_memory_bigkept h
    exact ⟨hs.of_bigkept hk, hk.2.2.1⟩
  · split at h
    · exact free_big_memory_sizes hs (hp (by omega)) h
    · exact (free_huge_memory_sizes hs h).elim

theorem memory_realloc_sizes {fuel pg : Nat} {s : Mgr} {p osize nsize : Nat} {r : Nat × Mgr}
    (hs : BigSizes s) (ho : osize ≤ HUGESIZE)
    (hp : SMALLLEVEL * SMALLSIZE < osize → s.bb_sz (p - SIZEOF_SIZE_T) ≠ 0)
    (h : memory_realloc fuel pg s p osize nsize = Res.ok r) :
    BigSizes r.2 ∧ (∀ x, s.bb_sz x ≠ 0 → r.2.bb_sz x ≠ 0) ∧
      (r.1 ≠ 0 → nsize ≤ HUGESIZE ∧
        (SMALLLEVEL * SMALLSIZE < nsize → r.2.bb_sz (r.1 - SIZEOF_SIZE_T) ≠ 0)) := by
  unfold memory_realloc at h
  split at h
  · omega
  · split at h
    · rename_i hle
      simp only [Res.ok.injEq] at h
      subst h
      exact ⟨hs, fun _ hx => hx, fun _ => ⟨by omega, fun hc => hp (by omega)⟩⟩
    · split at h
      · simp at h
      · simp at h
      · rename_i tmp s1 ha
        obtain ⟨a1, a2, a3⟩ := memory_alloc_sizes hs ha
        simp only at a1 a2 a3
        split at h
        · simp only [Res.ok.injEq] at h
          subst h
          exact ⟨a1, a2, fun h0 => absurd rfl h0⟩
        · rename_i htmp
          split at h
          · rename_i s2 hf
            simp only [Res.ok.injEq] at h
            subst h
            have hk : BigKept s1 (memcpy s1 tmp p osize) := ⟨rfl, rfl, rfl, rfl, rfl, rfl⟩
            obtain ⟨f1, f2⟩ := memory_free_sizes (a1.of_bigkept hk)
              (fun hc => a2 _ (hp hc)) hf
            have f3 : s2.bb_sz = s1.bb_sz := f2
            refine ⟨f1, fun x hx => ?_, fun _ => ⟨(a3 htmp).1, fun hc => ?_⟩⟩
            · show s2.bb_sz x ≠ 0
              rw [f3]; exact a2 x hx
            · show s2.bb_sz (tmp - SIZEOF_SIZE_T) ≠ 0
              rw [f3]; exact (a3 htmp).2 hc
          · simp at h
          · simp at h

theorem LiveSizes.mono {w : World} {t : Mgr} {l : List (Nat × Nat)} (h : LiveSizes w)
    (hm : ∀ x, w.mgr.bb_sz x ≠ 0 → t.bb_sz x ≠ 0) (hl : ∀ pn ∈ l, pn ∈ w.live) :
    LiveSizes ⟨t, l⟩ :=
  fun pn hpn => ⟨(h pn (hl pn hpn)).1, fun hc => hm _ ((h pn (hl pn hpn)).2 hc)⟩

theorem LiveSizes.add_block {w : World} {p n : Nat} (h : LiveSizes w) (h1 : n ≤ HUGESIZE)
    (h2 : SMALLLEVEL * SMALLSIZE < n → w.mgr.bb_sz (p - SIZEOF_SIZE_T) ≠ 0) :
    LiveSizes ⟨w.mgr, (p, n) :: w.live⟩ := by
  intro pn hpn
  rcases List.mem_cons.1 hpn with e | e
  · subst e; exact ⟨h1, h2⟩
  · exact h pn e

/-- Every call keeps the size facts of the big tier. -/
theorem step_sizes {fuel : Nat} {w w1 : World} {c : Op} (hs : BigSizes w.mgr)
    (hl : LiveSizes w) (h : step fuel w c = some w1) : BigSizes w1.mgr ∧ LiveSizes w1 := by
  cases c with
  | alloc n pg =>
    simp only [step] at h
    split at h
    · rename_i p s ha
      simp only [Option.some.injEq] at h
      subst h
      obtain ⟨a1, a2, a3⟩ := memory_alloc_sizes hs ha
      simp only at a1 a2 a3
      refine ⟨a1, ?_⟩
      have hm : LiveSizes ⟨s, w.live⟩ := hl.mono a2 (fun _ hx => hx)
      by_cases hp : p = 0
      · simp only [hp, if_true]; exact hm
      · simp only [hp, if_false]
        exact LiveSizes.add_block hm (a3 hp).1 (a3 hp).2
    · simp at h
  | free p n =>
    simp only [step] at h
    split at h
    · rename_i hc
      split at h
      · rename_i s hf
        simp only [Option.some.injEq] at h
        subst h
        obtain ⟨f1, f2⟩ := memory_free_sizes hs (hl (p, n) hc.1).2 hf
        refine ⟨f1, hl.mono (fun x hx => ?_) (fun _ hx => List.mem_of_mem_erase hx)⟩
        rw [f2]; exact hx
      · simp at h
    · simp at h
  | realloc p osize nsize pg =>
    simp only [step] at h
    split at h
    · rename_i hc
      split at h
      · rename_i q s hr
        simp only [Option.some.injEq] at h
        subst h
        obtain ⟨a1, a2, a3⟩ := memory_realloc_sizes hs (hl (p, osize) hc.1).1
          (hl (p, osize) hc.1).2 hr
        simp only at a1 a2 a3
        refine ⟨a1, ?_⟩
        by_cases hq : q = 0
        · simp only [hq, if_true]
          exact hl.mono a2 (fun _ hx => hx)
        · simp only [hq, if_false]
          have hm : LiveSizes ⟨s, w.live.erase (p, osize)⟩ :=
            hl.mono a2 (fun _ hx => List.mem_of_mem_erase hx)
          exact LiveSizes.add_block hm (a3 hq).1 (a3 hq).2
      · simp at h
    · simp at h

theorem steps_sizes {fuel : Nat} : ∀ (cs : List Op) (w w1 : World), BigSizes w.mgr →
    LiveSizes w → steps fuel cs w = some w1 → BigSizes w1.mgr ∧ LiveSizes w1 := by
  intro cs
  induction cs with
  | nil =>
    intro w w1 hs hl h
    simp only [steps, Option.some.injEq] at h
    subst h
    exact ⟨hs, hl⟩
  | cons c cs ih =>
    intro w w1 hs hl h
    simp only [steps] at h
    split at h
    · rename_i w2 hw2
      obtain ⟨b1, b2⟩ := step_sizes hs hl hw2
      exact ih _ _ b1 b2 h
    · simp at h

/-- Every block on the big list has a written size field. -/
theorem BigSizes.of_reach {s : Mgr} (hs : BigSizes s) {stop h b : Nat}
    (hh : h ≠ 0 → s.bb_sz h ≠ 0) (hr : Reach s.bb_next stop h b) : s.bb_sz b ≠ 0 := by
  induction hr with
  | here h h0 => exact hh h0
  | step h q h0 _ _ ih => exact ih (hs.link h)

theorem realloc_huge_memory_small_list {pg : Nat} {s : Mgr} {p n : Nat} {r : Nat × Mgr}
    (h : realloc_huge_memory pg s p n = Res.ok r) : r.2.small_list = s.small_list := by
  unfold realloc_huge_memory at h
  simp only at h
  repeat' (split at h)
  all_goals
    first
    | (simp at h; done)
    | (simp only [Res.ok.injEq] at h; subst h; rfl)

/-- The slots of `small_list` from index `SMALLLEVEL` on are empty. -/
theorem slots_of_kept {s t : Mgr} (hk : Kept s t) (hs : ∀ i, SMALLLEVEL ≤ i → s.small_list i = 0) :
    ∀ i, SMALLLEVEL ≤ i → t.small_list i = 0 := by
  intro i hi
  rcases Nat.eq_or_lt_of_le hi with e | e
  · rw [← e]
    exact hk.2.2 (hs _ (le_refl _))
  · rw [hk.2.1 i e]
    exact hs i hi

theorem memory_realloc_slots {fuel pg : Nat} {s : Mgr} {p osize nsize : Nat} {r : Nat × Mgr}
    (ho : 1 ≤ osize) (hs : ∀ i, SMALLLEVEL ≤ i → s.small_list i = 0)
    (h : memory_realloc fuel pg s p osize nsize = Res.ok r) :
    ∀ i, SMALLLEVEL ≤ i → r.2.small_list i = 0 := by
  unfold memory_realloc at h
  split at h
  · rw [realloc_huge_memory_small_list h]
    exact hs
  · split at h
    · simp only [Res.ok.injEq] at h
      subst h
      exact hs
    · split at h
      · simp at h
      · simp at h
      · rename_i tmp s1 ha
        have h1 := slots_of_kept (memory_alloc_kept ha) hs
        split at h
        · simp only [Res.ok.injEq] at h
          subst h
          exact h1
        · split at h
          · rename_i s2 hf
            simp only [Res.ok.injEq] at h
            subst h
            exact slots_of_kept (memory_free_kept ho hf) h1
          · simp at h
          · simp at h

theorem step_slots {fuel : Nat} {w w1 : World} {c : Op}
    (hs : ∀ i, SMALLLEVEL ≤ i → w.mgr.small_list i = 0) (h : step fuel w c = some w1) :
    ∀ i, SMALLLEVEL ≤ i → w1.mgr.small_list i = 0 := by
  cases c with
  | alloc n pg =>
    simp only [step] at h
    split at h
    · rename_i p s ha
      simp only [Option.some.injEq] at h
      subst h
      exact slots_of_kept (memory_alloc_kept ha) hs
    · simp at h
  | free p n =>
    simp only [step] at h
    split at h
    · rename_i hc
      split at h
      · rename_i s hf
        simp only [Option.some.injEq] at h
        subst h
        exact slots_of_kept (memory_free_kept hc.2 hf) hs
      · simp at h
    · simp at h
  | realloc p osize nsize pg =>
    simp only [step] at h
    split at h
    · rename_i hc
      split at h
      · rename_i q s hr
        simp only [Option.some.injEq] at h
        subst h
        exact memory_realloc_slots hc.2 hs hr
      · simp at h
    · simp at h

theorem steps_slots {fuel : Nat} : ∀ (cs : List Op) (w w1 : World),
    (∀ i, SMALLLEVEL ≤ i → w.mgr.small_list i = 0) → steps fuel cs w = some w1 →
    ∀ i, SMALLLEVEL ≤ i → w1.mgr.small_list i = 0 := by
  intro cs
  induction cs with
  | nil =>
    intro w w1 hs h
    simp only [steps, Option.some.injEq] at h
    subst h
    exact hs
  | cons c cs ih =>
    intro w w1 hs h
    simp only [steps] at h
    split at h
    · rename_i w2 hw2
      exact ih _ _ (step_slots hs hw2) h
    · simp at h

/-- A scan whose last class is empty is the scan without that class. -/
theorem lookup_larger_drop_last (s : Mgr) (sz : Nat) :
    ∀ k i0, s.small_list (i0 + k) = 0 →
      lookup_larger s sz (k + 1) i0 = lookup_larger s sz k i0 := by
  intro k
  induction k with
  | zero =>
    intro i0 h
    have h0 : ¬ s.small_list i0 ≠ 0 := by simpa using h
    simp only [lookup_larger, if_neg h0]
  | succ k ih =>
    intro i0 h
    by_cases hq : s.small_list i0 ≠ 0
    · simp only [lookup_larger, if_pos hq]
    · have := ih (i0 + 1) (by rw [← h]; congr 1; omega)
      rw [lookup_larger, if_neg hq, this]
      conv => rhs; rw [lookup_larger, if_neg hq]

/-- The scan reads `small_list` at the indices `i0 .. i0 + k - 1` only. -/
theorem lookup_larger_reads (s t : Mgr) (sz : Nat) :
    ∀ k i0, (∀ j, i0 ≤ j → j < i0 + k → t.small_list j = s.small_list j) →
      (lookup_larger t sz k i0).map Prod.fst = (lookup_larger s sz k i0).map Prod.fst := by
  intro k
  induction k with
  | zero => intro i0 _; rfl
  | succ k ih =>
    intro i0 h
    have e := h i0 (le_refl _) (by omega)
    by_cases hq : s.small_list i0 ≠ 0
    · have hq2 : t.small_list i0 ≠ 0 := by rw [e]; exact hq
      simp only [lookup_larger, if_pos hq, if_pos hq2, Option.map_some', e]
    · have hq2 : ¬ t.small_list i0 ≠ 0 := by rw [e]; exact hq
      simp only [lookup_larger, if_neg hq, if_neg hq2]
      exact ih (i0 + 1) (fun j h1 h2 => h j (by omega) (by omega))

theorem IsSeg.node_ne_zero {next : Nat → Nat} :
    ∀ {xs : List Nat} {h t : Nat}, IsSeg next h t xs → ∀ x ∈ xs, x ≠ 0 := by
  intro xs
  induction xs with
  | nil => intro h t hl; exact absurd hl id
  | cons y ys ih =>
    intro h t hl x hx
    cases ys with
    | nil =>
      simp only [List.mem_singleton] at hx
      rw [hx]; exact hl.2.2
    | cons z zs =>
      rcases List.mem_cons.1 hx with e | e
      · rw [e]; exact hl.2.1
      · exact ih hl.2.2 x e

/-- The list after one round: the head has moved behind the tail. -/
theorem big_rotate_seg {s : Mgr} {b : Nat} {rest : List Nat}
    (hl : IsSeg s.bb_next s.big_head s.big_tail (b :: rest)) (hnd : (b :: rest).Nodup)
    (hrest : rest ≠ []) :
    IsSeg (big_rotate s b).bb_next (big_rotate s b).big_head (big_rotate s b).big_tail
        (rest ++ [b]) ∧
      (big_rotate s b).bb_next (big_rotate s b).big_tail = 0 ∧
      (big_rotate s b).big_head = rest.headD 0 ∧ b ≠ 0 ∧ s.big_tail ≠ 0 := by
  cases rest with
  | nil => exact absurd rfl hrest
  | cons y ys =>
    have hb0 : b ≠ 0 := (IsSeg.head_eq hl).2
    have htl : s.big_tail = lastD (b :: y :: ys) := IsSeg.tail_eq hl
    have hmem : s.big_tail ∈ y :: ys := by
      rw [htl, lastD_cons_cons]
      exact lastD_mem (by simp)
    have hbn : b ∉ y :: ys := (List.nodup_cons.1 hnd).1
    have hbt : b ≠ s.big_tail := fun e => hbn (e ▸ hmem)
    have ht0 : s.big_tail ≠ 0 := IsSeg.node_ne_zero hl _ (List.mem_cons_of_mem _ hmem)
    have h1 : IsSeg s.bb_next (s.bb_next b) s.big_tail (y :: ys) := hl.2.2
    have h2 : IsSeg (upd s.bb_next b 0) (s.bb_next b) s.big_tail (y :: ys) :=
      IsSeg.frame_seg hbn h1
    have h3 := IsSeg.append_seg hb0 h2 (List.nodup_cons.1 hnd).2
    refine ⟨h3, ?_, (IsSeg.head_eq h1).1, hb0, ht0⟩
    show upd (upd s.bb_next b 0) s.big_tail b b = 0
    rw [upd_other _ _ _ _ hbt, upd_same]

/-- In a list of two blocks or more the head is not the tail. -/
theorem IsSeg.head_ne_tail {next : Nat → Nat} {h t : Nat} {xs : List Nat}
    (hl : IsSeg next h t xs) (hnd : xs.Nodup) (hlen : 2 ≤ xs.length) : h ≠ t := by
  cases xs with
  | nil => exact absurd hl id
  | cons x ys =>
    cases ys with
    | nil => simp at hlen
    | cons y zs =>
      have h1 : h = x := hl.1
      have h2 : t = lastD (x :: y :: zs) := IsSeg.tail_eq hl
      have h3 : lastD (y :: zs) ∈ y :: zs := lastD_mem (by simp)
      intro e
      apply (List.nodup_cons.1 hnd).1
      rw [← h1, e, h2, lastD_cons_cons]
      exact h3

theorem lookup_big_loop_count_fst (sz term : Nat) :
    ∀ (k : Nat) (s : Mgr) (b : Nat),
      (lookup_big_loop_count sz term k s b).1 = lookup_big_loop sz term k s b := by
  intro k
  induction k with
  | zero => intro s b; rfl
  | succ k ih =>
    intro s b
    rw [lookup_big_loop_count, lookup_big_loop]
    split
    · rfl
    · simp only
      split
      · rfl
      · split
        · rfl
        · split
          · exact ih _ _
          · rfl

theorem lookup_big_loop_count_le (sz term : Nat) :
    ∀ (k : Nat) (s : Mgr) (b : Nat), (lookup_big_loop_count sz term k s b).2 ≤ k := by
  intro k
  induction k with
  | zero => intro s b; exact le_refl _
  | succ k ih =>
    intro s b
    rw [lookup_big_loop_count]
    split
    · exact Nat.succ_le_succ (Nat.zero_le _)
    · simp only
      split
      · exact Nat.succ_le_succ (Nat.zero_le _)
      · split
        · exact Nat.succ_le_succ (Nat.zero_le _)
        · split
          · exact Nat.succ_le_succ (ih _ _)
          · exact Nat.succ_le_succ (Nat.zero_le _)

/-- One counted round on a block that does not fit. -/
theorem lookup_big_loop_count_miss (sz term k : Nat) (s : Mgr) (b : Nat) (hb : b ≠ 0)
    (hsz : s.bb_sz b < sz) (ht : s.big_tail ≠ 0) :
    (lookup_big_loop_count sz term (k + 1) s b).2 =
      if (big_rotate s b).big_head ≠ term ∧ k ≠ 0 then
        (lookup_big_loop_count sz term k (big_rotate s b) (big_rotate s b).big_head).2 + 1
      else 1 := by
  have h1 : ¬ s.bb_sz b ≥ sz := by omega
  rw [lookup_big_loop_count]
  simp only [if_neg hb, if_neg h1, if_neg ht, big_rotate]
  split <;> rfl

/-- On a list in the heap the rotation visits no block twice. -/
theorem lookup_big_loop_count_le_length (sz term : Nat) :
    ∀ (k : Nat) (ys zs : List Nat) (b : Nat) (s : Mgr),
      IsSeg s.bb_next s.big_head s.big_tail (b :: ys ++ zs) →
      (b :: ys ++ zs).Nodup → ys ++ zs ≠ [] →
      (zs ++ [b]).head? = some term →
      (lookup_big_loop_count sz term (k + 1) s b).2 ≤ ys.length + 1 := by
  intro k
  induction k with
  | zero =>
    intro ys zs b s _ _ _ _
    exact (lookup_big_loop_count_le sz term 1 s b).trans (by omega)
  | succ k ih =>
    intro ys zs b s hl hnd hne hterm
    obtain ⟨r1, r2, r3, r4, r5⟩ := big_rotate_seg hl hnd hne
    by_cases hfit : s.bb_sz b < sz
    · rw [lookup_big_loop_count_miss sz term (k + 1) s b r4 hfit r5]
      split
      · rename_i hc
        cases ys with
        | nil =>
          exfalso
          have hz : zs ≠ [] := by simpa using hne
          obtain ⟨z, zs1, rfl⟩ := List.exists_cons_of_ne_nil hz
          apply hc.1
          rw [r3]
          simpa using hterm
        | cons y ys1 =>
          have e1 : (big_rotate s b).big_head = y := by rw [r3]; rfl
          rw [e1]
          have hl2 : IsSeg (big_rotate s b).bb_next (big_rotate s b).big_head
              (big_rotate s b).big_tail (y :: ys1 ++ (zs ++ [b])) := by
            simpa using r1
          have hnd2 : (y :: ys1 ++ (zs ++ [b])).Nodup := by
            have hp : (y :: ys1 ++ (zs ++ [b])).Perm (b :: (y :: ys1) ++ zs) := by
              have := List.perm_append_singleton b ((y :: ys1) ++ zs)
              simpa using this
            exact hp.nodup_iff.2 hnd
          have hterm2 : ((zs ++ [b]) ++ [y]).head? = some term := by
            cases zs with
            | nil => simpa using hterm
            | cons z zs1 => simpa using hterm
          have := ih ys1 (zs ++ [b]) y (big_rotate s b) hl2 hnd2 (by simp) hterm2
          simp only [List.length_cons]
          omega
      · omega
    · have hge : s.bb_sz b ≥ sz := by omega
      rw [lookup_big_loop_count]
      simp only [if_neg r4, if_pos hge]
      omega

theorem IsList.unique {next : Nat → Nat} :
    ∀ {xs ys : List Nat} {h : Nat}, IsList next h xs → IsList next h ys → xs = ys := by
  intro xs
  induction xs with
  | nil =>
    intro ys h h1 h2
    have h0 : h = 0 := h1
    rw [h0] at h2
    exact (IsList.head_zero h2).symm
  | cons x xs ih =>
    intro ys h h1 h2
    have hx : h = x := h1.1
    have hh : h ≠ 0 := by rw [hx]; exact h1.2.1
    obtain ⟨zs, e, hz⟩ := IsList.head_ne_zero h2 hh
    rw [e, ← hx]
    congr 1
    have h3 : IsList next (next x) xs := h1.2.2
    rw [← hx] at h3
    exact ih h3 hz

theorem IsList.of_mem {next : Nat → Nat} :
    ∀ {xs : List Nat} {h x : Nat}, IsList next h xs → x ∈ xs →
      ∃ zs, IsList next (next x) zs ∧ zs.length < xs.length := by
  intro xs
  induction xs with
  | nil => intro h x _ hx; simp at hx
  | cons y ys ih =>
    intro h x hl hx
    rcases List.mem_cons.1 hx with e | e
    · rw [e]
      exact ⟨ys, hl.2.2, by simp⟩
    · obtain ⟨zs, h1, h2⟩ := ih hl.2.2 e
      exact ⟨zs, h1, by simp only [List.length_cons]; omega⟩

/-- A null-terminated list in the heap meets no block twice. -/
theorem IsList.no_repeat {next : Nat → Nat} :
    ∀ {xs : List Nat} {h : Nat}, IsList next h xs → xs.Nodup := by
  intro xs
  induction xs with
  | nil => intro h _; exact List.nodup_nil
  | cons x xs ih =>
    intro h hl
    refine List.nodup_cons.2 ⟨fun hx => ?_, ih hl.2.2⟩
    obtain ⟨zs, h1, h2⟩ := IsList.of_mem hl.2.2 hx
    have := IsList.unique h1 hl.2.2
    rw [this] at h2
    exact absurd h2 (lt_irrefl _)

theorem IsList.to_seg {next : Nat → Nat} :
    ∀ {xs : List Nat} {h : Nat}, IsList next h xs → xs ≠ [] → IsSeg next h (lastD xs) xs := by
  intro xs
  induction xs with
  | nil => intro h _ hne; exact absurd rfl hne
  | cons x ys ih =>
    intro h hl _
    cases ys with
    | nil => exact ⟨hl.1, rfl, hl.2.1⟩
    | cons y zs => exact ⟨hl.1, hl.2.1, ih hl.2.2 (by simp)⟩

theorem free_small_memory_ne_spin (s : Mgr) (ptr n : Nat) :
    free_small_memory s ptr n ≠ Res.spin := by
  unfold free_small_memory
  split <;> simp

theorem split_big_block_ne_spin (s : Mgr) (b sz : Nat) : split_big_block s b sz ≠ Res.spin := by
  unfold split_big_block
  simp only
  split
  · have := free_small_memory_ne_spin { s with bb_sz := upd s.bb_sz b sz } (b + sz)
      ((s.bb_sz b - sz - 1) / SMALLSIZE)
    split
    · simp
    · simp
    · rename_i h
      exact absurd h this
  · split
    · simp
    · split <;> simp

theorem lookup_big_loop_ne_spin (sz term : Nat) :
    ∀ (k : Nat) (s : Mgr) (b : Nat), lookup_big_loop sz term k s b ≠ Res.spin := by
  intro k
  induction k with
  | zero => intro s b; simp [lookup_big_loop]
  | succ k ih =>
    intro s b
    rw [lookup_big_loop]
    split
    · simp
    · simp only
      split
      · split
        · simp
        · exact split_big_block_ne_spin _ _ _
      · split
        · simp
        · split
          · exact ih _ _
          · simp

theorem lookup_big_memory_ne_spin (s : Mgr) (sz : Nat) : lookup_big_memory s sz ≠ Res.spin := by
  unfold lookup_big_memory
  split
  · simp
  · simp only
    split
    · split
      · split
        · simp
        · split
          · have := free_small_memory_ne_spin { s with bb_sz := upd s.bb_sz s.big_head sz }
              (s.big_head + sz) ((s.bb_sz s.big_head - sz - 1) / SMALLSIZE)
            split
            · simp
            · simp
            · rename_i h
              exact absurd h this
          · simp
      · simp
    · exact lookup_big_loop_ne_spin _ _ _ _ _

/-- A ring read through links that agree on its nodes. -/
theorem RingFrom.frame_ring {next prev next1 prev1 : Nat → Nat} {G : Nat} :
    ∀ {xs : List Nat} {p : Nat}, RingFrom next prev G p xs →
      (∀ q, q = p ∨ q ∈ xs → next1 q = next q) →
      (∀ q, q = G ∨ q ∈ xs → prev1 q = prev q) →
      RingFrom next1 prev1 G p xs := by
  intro xs
  induction xs with
  | nil =>
    intro p h hn hp
    exact ⟨(hn p (Or.inl rfl)).trans h.1, (hp G (Or.inl rfl)).trans h.2⟩
  | cons x xs ih =>
    intro p h hn hp
    refine ⟨(hn p (Or.inl rfl)).trans h.1, (hp x (Or.inr (by simp))).trans h.2.1, h.2.2.1,
      h.2.2.2.1, ?_⟩
    apply ih h.2.2.2.2
    · intro q hq
      apply hn
      rcases hq with e | e
      · exact Or.inr (by simp [e])
      · exact Or.inr (List.mem_cons_of_mem _ e)
    · intro q hq
      apply hp
      rcases hq with e | e
      · exact Or.inl e
      · exact Or.inr (List.mem_cons_of_mem _ e)

/-- In a ring every node is the `prev` of its `next`. -/
theorem RingFrom.prev_next {next prev : Nat → Nat} {G : Nat} :
    ∀ {xs : List Nat} {p : Nat}, RingFrom next prev G p xs →
      ∀ q, q = p ∨ q ∈ xs → prev (next q) = q := by
  intro xs
  induction xs with
  | nil =>
    intro p h q hq
    rcases hq with e | e
    · rw [e, h.1, h.2]
    · simp at e
  | cons x xs ih =>
    intro p h q hq
    rcases hq with e | e
    · rw [e, h.1, h.2.1]
    · apply ih h.2.2.2.2
      rcases List.mem_cons.1 e with e1 | e1
      · exact Or.inl e1
      · exact Or.inr e1

/-- In a ring every node is the `next` of its `prev`. -/
theorem RingFrom.next_prev {next prev : Nat → Nat} {G : Nat} :
    ∀ {xs : List Nat} {p : Nat}, RingFrom next prev G p xs →
      ∀ q, q = G ∨ q ∈ xs → next (prev q) = q := by
  intro xs
  induction xs with
  | nil =>
    intro p h q hq
    rcases hq with e | e
    · rw [e, h.2, h.1]
    · simp at e
  | cons x xs ih =>
    intro p h q hq
    rcases hq with e | e
    · exact ih h.2.2.2.2 q (Or.inl e)
    · rcases List.mem_cons.1 e with e1 | e1
      · rw [e1, h.2.1, h.1]
      · exact ih h.2.2.2.2 q (Or.inr e1)

/-- The `next` of the sentinel of a ring is not null, and its `prev` is the
sentinel whether the ring has a block or not. -/
theorem IsRing.first {s : Mgr} {xs : List Nat} (hr : IsRing s xs) :
    s.hb_next huge_list_addr ≠ 0 ∧ s.hb_prev (s.hb_next huge_list_addr) = huge_list_addr ∧
      s.hb_next huge_list_addr = (xs ++ [huge_list_addr]).headD 0 := by
  cases xs with
  | nil =>
    have h := hr.1
    have h1 : s.hb_next huge_list_addr = huge_list_addr := h.1
    refine ⟨by rw [h1]; decide, ?_, h1⟩
    rw [h1]
    exact h.2
  | cons x ys =>
    have h := hr.1
    have h1 : s.hb_next huge_list_addr = x := h.1
    refine ⟨by rw [h1]; exact h.2.2.1, ?_, h1⟩
    rw [h1]
    exact h.2.1

theorem RingFrom.mem_ne {next prev : Nat → Nat} {G : Nat} :
    ∀ {xs : List Nat} {p : Nat}, RingFrom next prev G p xs → ∀ q ∈ xs, q ≠ 0 ∧ q ≠ G := by
  intro xs
  induction xs with
  | nil => intro p _ q hq; simp at hq
  | cons x xs ih =>
    intro p h q hq
    rcases List.mem_cons.1 hq with e | e
    · rw [e]; exact ⟨h.2.2.1, h.2.2.2.1⟩
    · exact ih h.2.2.2.2 q e

/-- The `prev` of the sentinel of a ring is the last node of the ring. -/
theorem RingFrom.prev_sentinel {next prev : Nat → Nat} {G : Nat} :
    ∀ {xs : List Nat} {p : Nat}, RingFrom next prev G p xs → p ≠ 0 → prev G ≠ 0 := by
  intro xs
  induction xs with
  | nil =>
    intro p h hp
    rw [h.2]
    exact hp
  | cons x xs ih =>
    intro p h _
    exact ih h.2.2.2.2 h.2.2.1

/-- What `alloc_huge_memory` returns in a ring, for a mapping `h` that is not
null. -/
theorem alloc_huge_memory_ring (h : Nat) (s : Mgr) (sz : Nat) (h0 : h ≠ 0)
    (hG : h ≠ huge_list_addr) (hn : s.hb_next huge_list_addr ≠ 0) :
    alloc_huge_memory h s sz = Res.ok (h + SIZEOF_HUGEBLOCK, huge_link s h sz) := by
  have hG2 : huge_list_addr ≠ h := fun e => hG e.symm
  unfold alloc_huge_memory
  simp only [if_neg h0, if_pos hn, upd_other _ _ _ _ hG2, if_neg hn, huge_link]

/-- What `free_huge_memory` returns for a block whose `prev` and `next` are not
null. -/
theorem free_huge_memory_ring (s : Mgr) (h : Nat) (h0 : h ≠ 0) (hp : s.hb_prev h ≠ 0)
    (hn : upd s.hb_next (s.hb_prev h) (s.hb_next h) h ≠ 0) :
    free_huge_memory s (h + SIZEOF_HUGEBLOCK) = Res.ok (huge_unlink s h) := by
  have h1 : ¬ h + SIZEOF_HUGEBLOCK ≤ SIZEOF_HUGEBLOCK := by omega
  unfold free_huge_memory
  simp only [if_neg h1, Nat.add_sub_cancel, if_neg hp, if_neg hn, huge_unlink]

/-- The links of the ring after `alloc_huge_memory`. -/
theorem huge_link_ring {s : Mgr} {xs : List Nat} {h : Nat} (sz : Nat) (hr : IsRing s xs)
    (h0 : h ≠ 0) (hG : h ≠ huge_list_addr) (hx : h ∉ xs) :
    IsRing (huge_link s h sz) (h :: xs) := by
  have hGh : huge_list_addr ≠ h := fun e => hG e.symm
  refine ⟨?_, List.nodup_cons.2 ⟨hx, hr.2⟩⟩
  cases xs with
  | nil =>
    have hf : s.hb_next huge_list_addr = huge_list_addr := hr.1.1
    refine ⟨upd_same (upd s.hb_next h (s.hb_next huge_list_addr)) huge_list_addr h, ?_, h0, hG,
      ?_, ?_⟩
    · show upd (upd s.hb_prev h huge_list_addr) (s.hb_next huge_list_addr) h h = huge_list_addr
      rw [hf, upd_other _ _ _ _ hG, upd_same]
    · show upd (upd s.hb_next h (s.hb_next huge_list_addr)) huge_list_addr h h = huge_list_addr
      rw [upd_other _ _ _ _ hG, upd_same, hf]
    · show upd (upd s.hb_prev h huge_list_addr) (s.hb_next huge_list_addr) h huge_list_addr = h
      rw [hf, upd_same]
  | cons x ys =>
    have hf : s.hb_next huge_list_addr = x := hr.1.1
    have hxh : h ≠ x := fun e => hx (by simp [e])
    have hne := RingFrom.mem_ne hr.1
    have hnd := List.nodup_cons.1 hr.2
    refine ⟨upd_same (upd s.hb_next h (s.hb_next huge_list_addr)) huge_list_addr h, ?_, h0, hG,
      ?_, ?_, hr.1.2.2.1, hr.1.2.2.2.1, ?_⟩
    · show upd (upd s.hb_prev h huge_list_addr) (s.hb_next huge_list_addr) h h = huge_list_addr
      rw [hf, upd_other _ _ _ _ hxh, upd_same]
    · show upd (upd s.hb_next h (s.hb_next huge_list_addr)) huge_list_addr h h = x
      rw [upd_other _ _ _ _ hG, upd_same, hf]
    · show upd (upd s.hb_prev h huge_list_addr) (s.hb_next huge_list_addr) h x = h
      rw [hf, upd_same]
    · apply RingFrom.frame_ring hr.1.2.2.2.2
      · intro q hq
        have hq1 : q ∈ x :: ys := by
          rcases hq with e | e
          · simp [e]
          · exact List.mem_cons_of_mem _ e
        have hqG : q ≠ huge_list_addr := (hne q hq1).2
        have hqh : q ≠ h := fun e => hx (e ▸ hq1)
        show upd (upd s.hb_next h (s.hb_next huge_list_addr)) huge_list_addr h q = s.hb_next q
        rw [upd_other _ _ _ _ hqG, upd_other _ _ _ _ hqh]
      · intro q hq
        have hqx : q ≠ x := by
          rcases hq with e | e
          · rw [e]; exact fun e2 => hr.1.2.2.2.1 e2.symm
          · exact fun e2 => hnd.1 (e2 ▸ e)
        have hqh : q ≠ h := by
          rcases hq with e | e
          · rw [e]; exact hGh
          · exact fun e2 => hx (e2 ▸ List.mem_cons_of_mem _ e)
        show upd (upd s.hb_prev h huge_list_addr) (s.hb_next huge_list_addr) h q = s.hb_prev q
        rw [hf, upd_other _ _ _ _ hqx, upd_other _ _ _ _ hqh]

/-- The links after `free_huge_memory` has taken out the block just put in: away
from that block they are the links before `alloc_huge_memory`. -/
theorem huge_unlink_link {s : Mgr} {xs : List Nat} {h : Nat} (sz : Nat) (hr : IsRing s xs)
    (hG : h ≠ huge_list_addr) (hx : h ∉ xs) :
    ∀ x, x ≠ h →
      (huge_unlink (huge_link s h sz) h).hb_next x = s.hb_next x ∧
      (huge_unlink (huge_link s h sz) h).hb_prev x = s.hb_prev x ∧
      (huge_unlink (huge_link s h sz) h).hb_sz x = s.hb_sz x := by
  obtain ⟨f0, f1, f2⟩ := hr.first
  have hGh : huge_list_addr ≠ h := fun e => hG e.symm
  have hfh : h ≠ s.hb_next huge_list_addr := by
    intro e
    cases xs with
    | nil => exact hG (e.trans hr.1.1)
    | cons y ys => exact hx (by rw [e, hr.1.1]; simp)
  have hp : (huge_link s h sz).hb_prev h = huge_list_addr := by
    show upd (upd s.hb_prev h huge_list_addr) (s.hb_next huge_list_addr) h h = huge_list_addr
    rw [upd_other _ _ _ _ hfh, upd_same]
  have hn : (huge_link s h sz).hb_next h = s.hb_next huge_list_addr := by
    show upd (upd s.hb_next h (s.hb_next huge_list_addr)) huge_list_addr h h = _
    rw [upd_other _ _ _ _ hG, upd_same]
  intro x hxh
  refine ⟨?_, ?_, ?_⟩
  · show upd (huge_link s h sz).hb_next ((huge_link s h sz).hb_prev h)
      ((huge_link s h sz).hb_next h) x = s.hb_next x
    rw [hp, hn]
    by_cases e : x = huge_list_addr
    · rw [e, upd_same]
    · rw [upd_other _ _ _ _ e]
      show upd (upd s.hb_next h (s.hb_next huge_list_addr)) huge_list_addr h x = _
      rw [upd_other _ _ _ _ e, upd_other _ _ _ _ hxh]
  · show upd (huge_link s h sz).hb_prev
      (upd (huge_link s h sz).hb_next ((huge_link s h sz).hb_prev h)
        ((huge_link s h sz).hb_next h) h) ((huge_link s h sz).hb_prev h) x = s.hb_prev x
    rw [hp, hn, upd_other _ _ _ _ hG, hn]
    by_cases e : x = s.hb_next huge_list_addr
    · rw [e, upd_same, f1]
    · rw [upd_other _ _ _ _ e]
      show upd (upd s.hb_prev h huge_list_addr) (s.hb_next huge_list_addr) h x = _
      rw [upd_other _ _ _ _ e, upd_other _ _ _ _ hxh]
  · show upd s.hb_sz h sz x = s.hb_sz x
    rw [upd_other _ _ _ _ hxh]

/-! ## Facts about the flat heap and about `chunk_used` -/

theorem flat_mapped_failed (h : Heap) (n : Nat) (hn : 2 ≤ n) :
    Flat.mapped h MAP_FAILED n = false := by
  have h1 : ¬ (MAP_FAILED + n ≤ 2 ^ 64) := by unfold MAP_FAILED; omega
  unfold Flat.mapped
  rw [decide_eq_false h1]
  rfl

theorem flat_new_chunk_failed (h : Heap) (sz : Int) :
    Flat.new_chunk MAP_FAILED h sz = Out.fault := by
  have h0 : MAP_FAILED ≠ 0 := by decide
  have hp : Flat.alloc_page h MAP_FAILED CHUNKSIZE = h := by simp [Flat.alloc_page]
  unfold Flat.new_chunk
  simp only [hp, if_neg h0]
  show Out.bind (Flat.store h MAP_FAILED 0) _ = Out.fault
  unfold Flat.store
  rw [flat_mapped_failed h 8 (by decide)]
  rfl

theorem flat_find_chunk_null (fuel : Nat) (h : Heap) (sz : Int) :
    Flat.find_chunk fuel h 0 sz = Out.ok none := by
  cases fuel <;> simp [Flat.find_chunk]

theorem flat_lookup_larger_none (h : Heap) (sz : Int) (he : ∀ i, h.small_list i = 0) :
    ∀ k i, Flat.lookup_larger h sz k i = Out.ok none := by
  intro k
  induction k with
  | zero => intro i; rfl
  | succ k ih => intro i; simp [Flat.lookup_larger, he, ih]

theorem flat_small_index (n : Nat) (h1 : 1 ≤ n) (h2 : n ≤ SMALLLEVEL * SMALLSIZE) :
    (toInt32 n - 1).tdiv SMALLSIZE = ((alloc_index n : Nat) : Int) := by
  unfold SMALLLEVEL SMALLSIZE at h2
  have e : toInt32 n = (n : Int) := by
    unfold toInt32
    have : n % 2 ^ 32 = n := Nat.mod_eq_of_lt (by omega)
    rw [this, if_pos (by omega)]
  rw [e]
  unfold alloc_index SMALLSIZE
  have e2 : (n : Int) - 1 = ((n - 1 : Nat) : Int) := by omega
  rw [e2]
  exact (Int.ofNat_tdiv _ _).symm

/-- On the fresh allocator a small request asks for a chunk. -/
theorem flat_memory_alloc_fresh (fuel pg n : Nat) (h1 : 1 ≤ n)
    (h2 : n ≤ SMALLLEVEL * SMALLSIZE) :
    Flat.memory_alloc fuel pg Flat.init n =
      Flat.new_chunk pg Flat.init ((((alloc_index n : Nat) : Int) + 1) * SMALLSIZE) := by
  have hn0 : n ≠ 0 := by omega
  have hidx := alloc_index_lt n (by simpa [SMALLLEVEL, SMALLSIZE] using h2)
  have hr : ¬ ((((alloc_index n : Nat) : Int)) < 0 ∨
      ((SMALLLEVEL : Nat) : Int) < ((alloc_index n : Nat) : Int)) := by
    unfold SMALLLEVEL
    omega
  unfold Flat.memory_alloc
  rw [if_pos h2, if_neg hn0, flat_small_index n h1 h2]
  unfold Flat.alloc_small_memory
  rw [if_neg hr]
  have hs : Flat.init.small_list (((alloc_index n : Nat) : Int)).toNat = 0 := rfl
  simp only [hs, ne_eq, not_true_eq_false, if_false]
  have hc : Flat.init.chunk_head = 0 := rfl
  rw [hc, flat_find_chunk_null]
  simp only
  rw [flat_lookup_larger_none Flat.init _ (fun _ => rfl)]

theorem overflow_size_iff (n : Nat) : overflow_size n ↔ 32745 ≤ n ∧ n ≤ 32752 := by
  unfold overflow_size SMALLLEVEL SMALLSIZE HUGESIZE CHUNKSIZE SIZEOF_CHUNK big_size SIZEOF_SIZE_T
  omega

theorem free_small_memory_used {s t : Mgr} {ptr n : Nat}
    (h : free_small_memory s ptr n = Res.ok t) : t.chunk_used = s.chunk_used := by
  unfold free_small_memory at h
  split at h
  · simp at h
  · simp only [Res.ok.injEq] at h
    subst h
    rfl

theorem split_small_loop_used :
    ∀ (k : Nat) (s : Mgr) (sb nsize : Nat),
      (split_small_loop k s sb nsize).chunk_used = s.chunk_used := by
  intro k
  induction k with
  | zero => intro s sb nsize; rfl
  | succ k ih =>
    intro s sb nsize
    unfold split_small_loop
    split
    · rw [ih]
    · rfl

theorem lookup_larger_used (s : Mgr) (sz : Nat) (k i0 : Nat) (r : Nat × Mgr)
    (h : lookup_larger s sz k i0 = some r) : r.2.chunk_used = s.chunk_used := by
  obtain ⟨i, _, _, _, _, hi5⟩ := lookup_larger_spec s sz k i0 r h
  rw [hi5]
  unfold split_small_memory
  rw [split_small_loop_used]
  rfl

theorem new_chunk_usedok (pg : Nat) (s : Mgr) (sz : Nat) (hs : UsedOK s)
    (hsz : SIZEOF_CHUNK + sz ≤ CHUNKSIZE) : UsedOK (new_chunk pg s sz).2 := by
  by_cases hpg : pg = 0
  · have : (new_chunk pg s sz).2 = s := by simp [new_chunk, hpg]
    rw [this]
    exact hs
  · intro c
    rw [new_chunk_used pg s sz hpg]
    by_cases e : c = pg
    · rw [e, upd_same]
      exact hsz
    · rw [upd_other _ _ _ _ e]
      exact hs c

theorem find_chunk_guard (sz : Nat) :
    ∀ (fuel : Nat) (s : Mgr) (h c : Nat), find_chunk fuel s h sz = Res.ok (some c) →
      s.chunk_used c + sz ≤ CHUNKSIZE := by
  intro fuel
  induction fuel with
  | zero =>
    intro s h c hf
    unfold find_chunk at hf
    split at hf <;> simp at hf
  | succ k ih =>
    intro s h c hf
    unfold find_chunk at hf
    split at hf
    · simp at hf
    · simp only at hf
      split at hf
      · rename_i hg
        simp only [Res.ok.injEq, Option.some.injEq] at hf
        rw [← hf]
        exact hg
      · exact ih _ _ _ hf

theorem usedok_bump {s : Mgr} (hs : UsedOK s) (c v : Nat) (hv : v ≤ CHUNKSIZE) :
    UsedOK { s with chunk_used := upd s.chunk_used c v } := by
  intro x
  show upd s.chunk_used c v x ≤ CHUNKSIZE
  by_cases e : x = c
  · rw [e, upd_same]; exact hv
  · rw [upd_other _ _ _ _ e]; exact hs x

theorem usedok_of_eq {s t : Mgr} (hs : UsedOK s) (h : t.chunk_used = s.chunk_used) : UsedOK t := by
  intro c
  rw [h]
  exact hs c

theorem alloc_small_memory_usedok {fuel pg : Nat} {s : Mgr} {n : Nat} {r : Nat × Mgr}
    (hs : UsedOK s) (hn : n < SMALLLEVEL) (h : alloc_small_memory fuel pg s n = Res.ok r) :
    UsedOK r.2 := by
  unfold alloc_small_memory at h
  simp only at h
  split at h
  · simp only [Res.ok.injEq] at h
    subst h
    exact usedok_of_eq hs rfl
  · split at h
    · simp at h
    · simp at h
    · rename_i c hfc
      simp only [Res.ok.injEq] at h
      subst h
      exact usedok_bump hs _ _ (find_chunk_guard _ _ _ _ _ hfc)
    · split at h
      · rename_i r1 hl
        simp only [Res.ok.injEq] at h
        subst h
        exact usedok_of_eq hs (lookup_larger_used s _ _ _ _ hl)
      · simp only [Res.ok.injEq] at h
        subst h
        apply new_chunk_usedok _ _ _ hs
        unfold SIZEOF_CHUNK SMALLSIZE CHUNKSIZE
        unfold SMALLLEVEL at hn
        omega

theorem split_big_block_used {s : Mgr} {b sz : Nat} {r : Nat × Mgr}
    (h : split_big_block s b sz = Res.ok r) : r.2.chunk_used = s.chunk_used := by
  unfold split_big_block at h
  simp only at h
  split at h
  · split at h
    · rename_i s2 hf
      simp only [Res.ok.injEq] at h
      subst h
      have e := free_small_memory_used hf
      exact e
    · simp at h
    · simp at h
  · split at h
    · simp only [Res.ok.injEq] at h
      subst h
      rfl
    · split at h
      · simp at h
      · simp only [Res.ok.injEq] at h
        subst h
        rfl

theorem lookup_big_loop_used (sz term : Nat) :
    ∀ (k : Nat) (s : Mgr) (b : Nat) (r : Nat × Mgr),
      lookup_big_loop sz term k s b = Res.ok r → r.2.chunk_used = s.chunk_used := by
  intro k
  induction k with
  | zero =>
    intro s b r h
    simp only [lookup_big_loop, Res.ok.injEq] at h
    subst h
    rfl
  | succ k ih =>
    intro s b r h
    unfold lookup_big_loop at h
    split at h
    · simp at h
    · simp only at h
      split at h
      · split at h
        · simp only [Res.ok.injEq] at h
          subst h
          rfl
        · have e := split_big_block_used h
          exact e
      · split at h
        · simp at h
        · split at h
          · have e := ih _ _ _ h
            exact e
          · simp only [Res.ok.injEq] at h
            subst h
            rfl

theorem lookup_big_memory_used {s : Mgr} {sz : Nat} {r : Nat × Mgr}
    (h : lookup_big_memory s sz = Res.ok r) : r.2.chunk_used = s.chunk_used := by
  unfold lookup_big_memory at h
  split at h
  · simp only [Res.ok.injEq] at h
    subst h
    rfl
  · simp only at h
    split at h
    · split at h
      · split at h
        · simp only [Res.ok.injEq] at h
          subst h
          rfl
        · split at h
          · split at h
            · rename_i s2 hf
              simp only [Res.ok.injEq] at h
              subst h
              have e := free_small_memory_used hf
              exact e
            · simp at h
            · simp at h
          · simp only [Res.ok.injEq] at h
            subst h
            rfl
      · simp only [Res.ok.injEq] at h
        subst h
        rfl
    · exact lookup_big_loop_used _ _ _ _ _ _ h

theorem alloc_big_memory_usedok {pg : Nat} {s : Mgr} {n : Nat} {r : Nat × Mgr} (hs : UsedOK s)
    (hn : SIZEOF_CHUNK + big_size n ≤ CHUNKSIZE) (h : alloc_big_memory pg s n = Res.ok r) :
    UsedOK r.2 := by
  unfold alloc_big_memory at h
  simp only at h
  split at h
  · simp at h
  · split at h
    · rename_i hg
      simp only [Res.ok.injEq] at h
      subst h
      exact usedok_of_eq (usedok_bump hs s.chunk_tail _ hg) rfl
    · split at h
      · simp at h
      · simp at h
      · rename_i b s1 hl
        have h1 : UsedOK s1 := usedok_of_eq hs (lookup_big_memory_used hl)
        split at h
        · have h2 := new_chunk_usedok pg s1 (big_size n) h1 hn
          generalize new_chunk pg s1 (big_size n) = nc at h h2
          obtain ⟨b1, s2⟩ := nc
          simp only at h h2
          split at h
          · simp only [Res.ok.injEq] at h
            subst h
            exact h2
          · simp only [Res.ok.injEq] at h
            subst h
            exact usedok_of_eq h2 rfl
        · simp only [Res.ok.injEq] at h
          subst h
          exact h1

theorem alloc_huge_memory_used {pg : Nat} {s : Mgr} {n : Nat} {r : Nat × Mgr}
    (h : alloc_huge_memory pg s n = Res.ok r) : r.2.chunk_used = s.chunk_used := by
  unfold alloc_huge_memory at h
  simp only at h
  split at h
  · simp only [Res.ok.injEq] at h
    subst h
    rfl
  · split at h <;> split at h <;>
      first
      | (simp at h; done)
      | (simp only [Res.ok.injEq] at h; subst h; rfl)

theorem memory_alloc_usedok {fuel pg : Nat} {s : Mgr} {n : Nat} {r : Nat × Mgr} (hs : UsedOK s)
    (hn : ¬ overflow_size n) (h : memory_alloc fuel pg s n = Res.ok r) : UsedOK r.2 := by
  unfold memory_alloc at h
  split at h
  · rename_i hsm
    split at h
    · simp only [Res.ok.injEq] at h
      subst h
      exact hs
    · have : alloc_index n < SMALLLEVEL := by
        unfold alloc_index SMALLLEVEL SMALLSIZE at *; omega
      exact alloc_small_memory_usedok hs this h
  · rename_i hsm
    split at h
    · exact usedok_of_eq hs (alloc_huge_memory_used h)
    · rename_i hH
      apply alloc_big_memory_usedok hs _ h
      by_contra hc
      exact hn ⟨by omega, by omega, by omega⟩

theorem memory_free_used {s t : Mgr} {p n : Nat} (h : memory_free s p n = Res.ok t) :
    t.chunk_used = s.chunk_used := by
  unfold memory_free at h
  split at h
  · exact free_small_memory_used h
  · split at h
    · unfold free_big_memory at h
      split at h
      · simp at h
      · simp only at h
        split at h <;>
        · simp only [Res.ok.injEq] at h
          subst h
          rfl
    · unfold free_huge_memory at h
      split at h
      · simp at h
      · simp only at h
        split at h
        · simp at h
        · split at h
          · simp at h
          · simp only [Res.ok.injEq] at h
            subst h
            rfl

theorem realloc_huge_memory_used {pg : Nat} {s : Mgr} {p n : Nat} {r : Nat × Mgr}
    (h : realloc_huge_memory pg s p n = Res.ok r) : r.2.chunk_used = s.chunk_used := by
  unfold realloc_huge_memory at h
  simp only at h
  repeat' (split at h)
  all_goals
    first
    | (simp at h; done)
    | (simp only [Res.ok.injEq] at h; subst h; rfl)

theorem memory_realloc_usedok {fuel pg : Nat} {s : Mgr} {p osize nsize : Nat} {r : Nat × Mgr}
    (hs : UsedOK s) (hn : ¬ overflow_size nsize)
    (h : memory_realloc fuel pg s p osize nsize = Res.ok r) : UsedOK r.2 := by
  unfold memory_realloc at h
  split at h
  · exact usedok_of_eq hs (realloc_huge_memory_used h)
  · split at h
    · simp only [Res.ok.injEq] at h
      subst h
      exact hs
    · split at h
      · simp at h
      · simp at h
      · rename_i tmp s1 ha
        have h1 := memory_alloc_usedok hs hn ha
        split at h
        · simp only [Res.ok.injEq] at h
          subst h
          exact h1
        · split at h
          · rename_i s2 hf
            simp only [Res.ok.injEq] at h
            subst h
            have h2 : UsedOK (memcpy s1 tmp p osize) := usedok_of_eq h1 rfl
            exact usedok_of_eq h2 (memory_free_used hf)
          · simp at h
          · simp at h

theorem step_usedok {fuel : Nat} {w w1 : World} {c : Op} (hs : UsedOK w.mgr)
    (hc : ¬ overflow_size c.request) (h : step fuel w c = some w1) : UsedOK w1.mgr := by
  cases c with
  | alloc n pg =>
    simp only [step] at h
    split at h
    · rename_i p s ha
      simp only [Option.some.injEq] at h
      subst h
      exact memory_alloc_usedok hs hc ha
    · simp at h
  | free p n =>
    simp only [step] at h
    split at h
    · split at h
      · rename_i s hf
        simp only [Option.some.injEq] at h
        subst h
        exact usedok_of_eq hs (memory_free_used hf)
      · simp at h
    · simp at h
  | realloc p osize nsize pg =>
    simp only [step] at h
    split at h
    · split at h
      · rename_i q s hr
        simp only [Option.some.injEq] at h
        subst h
        exact memory_realloc_usedok hs hc hr
      · simp at h
    · simp at h

theorem steps_usedok {fuel : Nat} : ∀ (cs : List Op) (w w1 : World), UsedOK w.mgr →
    (∀ c ∈ cs, ¬ overflow_size c.request) → steps fuel cs w = some w1 → UsedOK w1.mgr := by
  intro cs
  induction cs with
  | nil =>
    intro w w1 hs _ h
    simp only [steps, Option.some.injEq] at h
    subst h
    exact hs
  | cons c cs ih =>
    intro w w1 hs hc h
    simp only [steps] at h
    split at h
    · rename_i w2 hw2
      exact ih _ _ (step_usedok hs (hc c (by simp)) hw2)
        (fun x hx => hc x (List.mem_cons_of_mem _ hx)) h
    · simp at h

/-! ## Claims -/

/-- Non-aliasing in the field-split heap `Mgr`, where a store through one struct
member never reaches another member.  Take any sequence of `memory_alloc` /
`memory_free` calls from the fresh allocator in which every free names a block
the caller holds together with the size it was allocated with, served by a page
source whose mappings of `CHUNKSIZE` bytes do not overlap, and that runs to its
end.  Then the payloads `[p, p + n)` of the blocks live at the end are pairwise
disjoint, and no payload overlaps a block on a small free list (its
`(i + 1) * 8` bytes) or a block on the big free list (its `sz` bytes from the
header on).  The real heap agrees with `Mgr` only while no block runs past its
chunk; `alias_ops` on the flat heap shows what happens once one does. -/
theorem live_blocks_disjoint (fuel : Nat) (calls : List Call) (w : World)
    (hp : (pages calls).Pairwise Apart)
    (h : run fuel calls ⟨init, []⟩ = some w) :
    w.live.Pairwise Disj ∧
    (∀ x ∈ w.live, ∀ i q, SmallFree w.mgr i q → Disj x (q, (i + 1) * SMALLSIZE)) ∧
    (∀ x ∈ w.live, ∀ b, BigFree w.mgr b → Disj x (b, w.mgr.bb_sz b)) := by
  obtain ⟨a, hI⟩ := Inv.run fuel calls ⟨init, []⟩ w _ Inv.init
    ⟨hp, fun c hc => absurd hc (List.not_mem_nil _)⟩ h
  refine ⟨?_, ?_, ?_⟩
  · have h1 := hI.reg.1
    unfold regions at h1
    have h2 := (List.pairwise_append.1 h1).1
    rw [List.pairwise_map] at h2
    refine List.Pairwise.imp_of_mem ?_ h2
    intro x y hx hy hxy
    have hx2 := hI.payload_sub hx
    have hy2 := hI.payload_sub hy
    unfold Disj at hxy ⊢
    omega
  · intro x hx i q hq
    have hmem : q ∈ a.sl i := Reach.mem_of_isList hq (hI.small i)
    have hi : i < SMALLLEVEL := by
      by_contra hcon
      rw [hI.shigh i (by omega)] at hmem
      simp at hmem
    exact hI.live_disj hx (mem_regions_small hi hmem)
  · intro x hx b hb
    have hmem : b ∈ a.bl := by
      rcases hI.big with hbig | hbig
      · exact absurd hbig.2 (Reach.ne_zero hb)
      · exact Reach.mem_of_isSeg hb hbig
    exact hI.live_disj hx (mem_regions_big hmem)

/-- An instance in the field-split heap: one live block in the second chunk, a
free small block and a free big block in the first. -/
theorem live_blocks_disjoint_witness :
    demo_world.live = [(40984, 32000)] ∧ SmallFree demo_world.mgr 2 4112 ∧
    BigFree demo_world.mgr 4136 ∧
    demo_world.live.Pairwise Disj ∧
    (∀ x ∈ demo_world.live, ∀ i q, SmallFree demo_world.mgr i q →
      Disj x (q, (i + 1) * SMALLSIZE)) ∧
    (∀ x ∈ demo_world.live, ∀ b, BigFree demo_world.mgr b →
      Disj x (b, demo_world.mgr.bb_sz b)) :=
  ⟨by decide, Reach.here _ (by decide), Reach.here _ (by decide),
    live_blocks_disjoint 1 demo_calls demo_world demo_pages_apart rfl⟩

/-- Where the two dispatchers agree: the small tier for `1 ≤ n ≤ 256`, the big
tier for `256 < n < HUGESIZE`, the huge tier for `n > HUGESIZE`. -/
theorem dispatch_agree (fuel pg : Nat) (s : Mgr) (p : Nat) :
    (∀ n, SMALLLEVEL * SMALLSIZE < n → n < HUGESIZE →
      memory_alloc fuel pg s n = alloc_big_memory pg s n ∧
      memory_free s p n = free_big_memory s p) ∧
    (∀ n, HUGESIZE < n →
      memory_alloc fuel pg s n = alloc_huge_memory pg s n ∧
      memory_free s p n = free_huge_memory s p) ∧
    (∀ n, 1 ≤ n → n ≤ SMALLLEVEL * SMALLSIZE →
      memory_alloc fuel pg s n = alloc_small_memory fuel pg s (alloc_index n) ∧
      memory_free s p n = free_small_memory s p (alloc_index n)) := by
  refine ⟨?_, ?_, ?_⟩
  · intro n h1 h2
    have h3 : ¬ n ≤ SMALLLEVEL * SMALLSIZE := by omega
    have h4 : ¬ n > HUGESIZE := by omega
    simp only [memory_alloc, memory_free, if_neg h3, if_neg h4, if_pos h2, and_self]
  · intro n h1
    have h0 : SMALLLEVEL * SMALLSIZE < HUGESIZE := by decide
    have h3 : ¬ n ≤ SMALLLEVEL * SMALLSIZE := by omega
    have h4 : ¬ n < HUGESIZE := by omega
    have h5 : n > HUGESIZE := h1
    simp only [memory_alloc, memory_free, if_neg h3, if_neg h4, if_pos h5, and_self]
  · intro n h1 h2
    have h256 : n ≤ 256 := by simpa [SMALLLEVEL, SMALLSIZE] using h2
    have hn0 : n ≠ 0 := by omega
    simp only [memory_alloc, memory_free, if_pos h2, if_neg hn0, index_agree n h1 h256,
      and_self]

/-- C3 (dispatch thresholds).  At `n = HUGESIZE = 32752` the two dispatchers part:
in every state `memory_alloc` serves the request from the big tier while
`memory_free` hands the pointer to `free_huge_memory`.  On the allocator that
holds one small block, `memory_alloc(32752)` returns the payload of a big block
in a new chunk and the matching `memory_free` ends in a `NULL` dereference. -/
theorem dispatch_at_hugesize :
    HUGESIZE = 32752 ∧
    (∀ (fuel pg : Nat) (s : Mgr),
      memory_alloc fuel pg s HUGESIZE = alloc_big_memory pg s HUGESIZE) ∧
    (∀ (s : Mgr) (p : Nat), memory_free s p HUGESIZE = free_huge_memory s p) ∧
    (∃ s1 s2, memory_alloc 0 4096 init 8 = Res.ok (4112, s1) ∧
      memory_alloc 1 40960 s1 32752 = Res.ok (40984, s2) ∧
      s2.bb_sz 40976 = 32760 ∧
      memory_free s2 40984 32752 = Res.fault) := by
  refine ⟨by decide, ?_, ?_, ?_⟩
  · intro fuel pg s
    simp [memory_alloc, HUGESIZE, CHUNKSIZE, SMALLLEVEL, SMALLSIZE]
  · intro s p
    simp [memory_free, HUGESIZE, CHUNKSIZE, SMALLLEVEL, SMALLSIZE]
  · exact ⟨_, _, rfl, rfl, rfl, rfl⟩

/-- C4 (huge round trip on the fresh allocator).  On the zero-initialised manager
the sentinel's `next` is `NULL`, so with a page source that succeeds every huge
request `n > HUGESIZE` ends in the `NULL` dereference
`g_mgr.huge_list.next->prev = h` instead of returning a block. -/
theorem huge_alloc_fresh_faults (fuel pg n : Nat) (hn : n > HUGESIZE) (hpg : pg ≠ 0) :
    memory_alloc fuel pg init n = Res.fault := by
  have h0 : SMALLLEVEL * SMALLSIZE < HUGESIZE := by decide
  have h3 : ¬ n ≤ SMALLLEVEL * SMALLSIZE := by omega
  simp only [memory_alloc, if_neg h3, if_pos hn, alloc_huge_memory, if_neg hpg]
  simp [init, upd]

/-- Witness of C4 at the size used by `test()` in `main.c`. -/
theorem huge_alloc_fresh_faults_witness :
    memory_alloc 0 4096 init 216000 = Res.fault :=
  huge_alloc_fresh_faults 0 4096 216000 (by decide) (by decide)

/-- C5 (small allocation on the fresh allocator).  With a page source that
returns `pg ≠ 0` and `1 ≤ n ≤ 256`, `memory_alloc(n)` on the initial state
returns `pg + 16`, leaves `pg` as the only chunk with
`chunk_used = 16 + 8 * ⌈n/8⌉` and every small list empty; `memory_free` of that
pointer followed by `memory_alloc(n)` returns `pg + 16` again with every small
list empty and the chunk list and `chunk_used` unchanged. -/
theorem small_alloc_fresh (fuel pg fuel2 pg2 n : Nat) (h1 : 1 ≤ n)
    (h2 : n ≤ SMALLLEVEL * SMALLSIZE) (hpg : pg ≠ 0) :
    ∃ s1 s2 s3,
      memory_alloc fuel pg init n = Res.ok (pg + 16, s1) ∧
      s1.chunk_head = pg ∧ s1.chunk_tail = pg ∧ s1.chunk_next pg = 0 ∧
      s1.chunk_used pg = 16 + 8 * ((n + 7) / 8) ∧
      (∀ i, s1.small_list i = 0) ∧
      memory_free s1 (pg + 16) n = Res.ok s2 ∧
      s2.small_list (alloc_index n) = pg + 16 ∧
      memory_alloc fuel2 pg2 s2 n = Res.ok (pg + 16, s3) ∧
      (∀ i, s3.small_list i = 0) ∧
      s3.chunk_head = pg ∧ s3.chunk_tail = pg ∧ s3.chunk_next pg = 0 ∧
      s3.chunk_used = s1.chunk_used := by
  have h256 : n ≤ 256 := by simpa [SMALLLEVEL, SMALLSIZE] using h2
  have hn0 : n ≠ 0 := by omega
  have hp : pg + 16 ≠ 0 := by omega
  have hspan := class_span_eq n h1
  have hl : lookup_larger init ((alloc_index n + 1) * SMALLSIZE)
      (SMALLLEVEL - alloc_index n) (alloc_index n + 1) = none :=
    lookup_larger_none init _ (fun _ => rfl) _ _
  have ha : memory_alloc fuel pg init n =
      Res.ok (new_chunk pg init ((alloc_index n + 1) * SMALLSIZE)) := by
    simp only [memory_alloc, if_pos h2, if_neg hn0, alloc_small_memory]
    have : init.small_list (alloc_index n) = 0 := rfl
    simp only [this, ne_eq, not_true_eq_false, if_false]
    have hc : init.chunk_head = 0 := rfl
    rw [hc, find_chunk_null, hl]
  obtain ⟨s1, hs1⟩ : ∃ s1, s1 = (new_chunk pg init ((alloc_index n + 1) * SMALLSIZE)).2 :=
    ⟨_, rfl⟩
  have hnc : new_chunk pg init ((alloc_index n + 1) * SMALLSIZE) = (pg + 16, s1) := by
    rw [hs1]
    exact Prod.ext (new_chunk_fst pg init _ hpg) rfl
  rw [hnc] at ha
  have e1 : s1.small_list = fun _ => 0 := by rw [hs1, new_chunk_small_list]; rfl
  have e2 : s1.chunk_head = pg := by
    rw [hs1, new_chunk_head pg init _ hpg]; rfl
  have e3 : s1.chunk_tail = pg := by rw [hs1, new_chunk_tail pg init _ hpg]
  have e4 : s1.chunk_next pg = 0 := by
    rw [hs1, new_chunk_next pg init _ hpg]
    simp [init, upd]
  have e5 : s1.chunk_used pg = 16 + 8 * ((n + 7) / 8) := by
    rw [hs1, new_chunk_used pg init _ hpg, upd_same, hspan]
  have hf := memory_free_small s1 (pg + 16) n h1 h2 hp
  have hpush : (small_push s1 (pg + 16) (alloc_index n)).small_list (alloc_index n)
      = pg + 16 := upd_same _ _ _
  have hpop := memory_alloc_pop fuel2 pg2 (small_push s1 (pg + 16) (alloc_index n)) n h1 h2
    (by rw [hpush]; exact hp)
  rw [hpush] at hpop
  refine ⟨s1, _, _, ha, e2, e3, e4, e5, fun i => by rw [e1], hf, hpush, hpop, ?_,
    e2, e3, e4, rfl⟩
  intro i
  simp only [small_pop, small_push, upd, e1]
  split <;> simp

/-- Witness of C5 at `n = 24`: offset 16, then `chunk_used = 40`. -/
theorem small_alloc_fresh_witness :
    ∃ s1 s2 s3,
      memory_alloc 0 4096 init 24 = Res.ok (4096 + 16, s1) ∧
      s1.chunk_head = 4096 ∧ s1.chunk_tail = 4096 ∧ s1.chunk_next 4096 = 0 ∧
      s1.chunk_used 4096 = 16 + 8 * ((24 + 7) / 8) ∧
      (∀ i, s1.small_list i = 0) ∧
      memory_free s1 (4096 + 16) 24 = Res.ok s2 ∧
      s2.small_list (alloc_index 24) = 4096 + 16 ∧
      memory_alloc 0 0 s2 24 = Res.ok (4096 + 16, s3) ∧
      (∀ i, s3.small_list i = 0) ∧
      s3.chunk_head = 4096 ∧ s3.chunk_tail = 4096 ∧ s3.chunk_next 4096 = 0 ∧
      s3.chunk_used = s1.chunk_used :=
  small_alloc_fresh 0 4096 0 0 24 (by decide) (by decide) (by decide)

/-- C7 (small size classification).  For `1 ≤ n ≤ 256` the class index
`(n - 1) / U` of `memory_alloc` equals `⌈n/U⌉ - 1`, is below `S = 32`, the block
size `(idx + 1) * U` satisfies `n ≤ (idx + 1) * U ≤ n + U - 1`, `memory_free`
computes the same index, and both calls pass that index to the small tier. -/
theorem small_class_index (n : Nat) (h1 : 1 ≤ n) (h2 : n ≤ SMALLLEVEL * SMALLSIZE) :
    alloc_index n = (n + SMALLSIZE - 1) / SMALLSIZE - 1 ∧
    alloc_index n ≤ SMALLLEVEL - 1 ∧
    n ≤ (alloc_index n + 1) * SMALLSIZE ∧
    (alloc_index n + 1) * SMALLSIZE ≤ n + SMALLSIZE - 1 ∧
    free_index n = alloc_index n ∧
    (∀ (fuel pg : Nat) (s : Mgr),
      memory_alloc fuel pg s n = alloc_small_memory fuel pg s (alloc_index n)) ∧
    (∀ (s : Mgr) (p : Nat),
      memory_free s p n = free_small_memory s p (alloc_index n)) := by
  have h256 : n ≤ 256 := by simpa [SMALLLEVEL, SMALLSIZE] using h2
  have hidx := index_agree n h1 h256
  have hn0 : n ≠ 0 := by omega
  refine ⟨?_, ?_, ?_, ?_, hidx, ?_, ?_⟩
  · unfold alloc_index SMALLSIZE; omega
  · unfold alloc_index SMALLSIZE SMALLLEVEL; omega
  · unfold alloc_index SMALLSIZE; omega
  · unfold alloc_index SMALLSIZE; omega
  · intro fuel pg s
    simp only [memory_alloc, if_pos h2, if_neg hn0]
  · intro s p
    simp only [memory_free, if_pos h2, hidx]

/-- Witness of C7 at `n = 24` (class 2, block size 24). -/
theorem small_class_index_witness :
    alloc_index 24 = (24 + SMALLSIZE - 1) / SMALLSIZE - 1 ∧
    alloc_index 24 ≤ SMALLLEVEL - 1 ∧
    24 ≤ (alloc_index 24 + 1) * SMALLSIZE ∧
    (alloc_index 24 + 1) * SMALLSIZE ≤ 24 + SMALLSIZE - 1 ∧
    free_index 24 = alloc_index 24 ∧
    (∀ (fuel pg : Nat) (s : Mgr),
      memory_alloc fuel pg s 24 = alloc_small_memory fuel pg s (alloc_index 24)) ∧
    (∀ (s : Mgr) (p : Nat),
      memory_free s p 24 = free_small_memory s p (alloc_index 24)) :=
  small_class_index 24 (by decide) (by decide)

/-- C10 (shrink is free).  When `nsize ≤ osize` and the two sizes are not both
above `HUGESIZE`, `memory_realloc(p, osize, nsize)` returns `p` and the state it
was called in. -/
theorem realloc_shrink (fuel pg : Nat) (s : Mgr) (p osize nsize : Nat)
    (hle : nsize ≤ osize) (hh : ¬ (osize > HUGESIZE ∧ nsize > HUGESIZE)) :
    memory_realloc fuel pg s p osize nsize = Res.ok (p, s) := by
  simp only [memory_realloc, if_neg hh, if_pos hle]

/-- Witness of C10: shrinking a huge size to a small one. -/
theorem realloc_shrink_witness :
    memory_realloc 0 0 init 4112 40000 24 = Res.ok (4112, init) :=
  realloc_shrink 0 0 init 4112 40000 24 (by decide) (by decide)

/-- C8 (chunk bound).  Two calls on the fresh allocator, `memory_alloc(8)` and
then `memory_alloc(32745)`, leave a chunk with `chunk_used = 32776`, above
`CHUNKSIZE = 32768`: the big block carved from the new chunk at `40960` has its
payload `[p, p + 32745)` ending past the last byte of the chunk. -/
theorem chunk_used_exceeds_chunksize :
    ∃ s1 s2, memory_alloc 0 4096 init 8 = Res.ok (4112, s1) ∧
      memory_alloc 1 40960 s1 32745 = Res.ok (40984, s2) ∧
      s2.chunk_tail = 40960 ∧
      s2.chunk_used 40960 = 32776 ∧
      CHUNKSIZE < s2.chunk_used 40960 ∧
      40960 + CHUNKSIZE < 40984 + 32745 :=
  ⟨_, _, rfl, rfl, rfl, rfl, by decide, by decide⟩

set_option maxRecDepth 100000 in
/-- A page source that answers null, in the field-split heap (`mmap` itself
answers `MAP_FAILED`).  After `oom_script` the big free list holds 129 blocks
of on-heap size 1008 and the tail chunk has less than 32008 bytes left.
`memory_alloc(32000)` with a null answer returns null, yet the search
has rotated the list by `BIGSEARCHDEPTH = 128` blocks: its head moved from the
block freed last to the block freed first. -/
theorem oom_rotates_big_list :
    ∃ w s1, run 1 oom_script ⟨init, []⟩ = some w ∧
      memory_alloc 1 0 w.mgr 32000 = Res.ok (0, s1) ∧
      w.mgr.big_head = oom_block 128 - 8 ∧ w.mgr.big_tail = oom_block 0 - 8 ∧
      s1.big_head = oom_block 0 - 8 ∧ s1.big_tail = oom_block 1 - 8 ∧
      s1.big_head ≠ w.mgr.big_head :=
  have h1 : oom_world.mgr.big_head = oom_block 128 - 8 := by decide
  have h2 : oom_after.big_head = oom_block 0 - 8 := by decide
  ⟨oom_world, oom_after, rfl, rfl, h1, by decide, h2, by decide, by rw [h1, h2]; decide⟩

/-- A page source that answers null, in the field-split heap.  Let `alloc_page`
return null during `memory_alloc(n)`, `n ≥ 1`.  A non-null result does not depend on the page
source (no mapping was requested).  A null result leaves the small free lists,
the chunk list, every `chunk_used`, every block size and the huge list as they
were; the state is identical after a small or huge request and whenever the
big free list was empty, and otherwise only `big_head`, `big_tail` and the
`next` links of big blocks may differ (the search has rotated the list). -/
theorem oom_leaves_state (fuel : Nat) (s : Mgr) (n r : Nat) (s1 : Mgr) (hn : 1 ≤ n)
    (h : memory_alloc fuel 0 s n = Res.ok (r, s1)) :
    (r = 0 → BigLinksOnly s s1 ∧
      (n ≤ SMALLLEVEL * SMALLSIZE ∨ n > HUGESIZE ∨ s.big_head = 0 → s1 = s)) ∧
    (r ≠ 0 → ∀ pg, memory_alloc fuel pg s n = Res.ok (r, s1)) := by
  have hn0 : n ≠ 0 := by omega
  unfold memory_alloc at h
  split at h
  · rename_i hs
    obtain ⟨ha, hb⟩ := alloc_small_memory_oom _ _ _ _ _ h
    refine ⟨fun h0 => ?_, fun h0 pg => ?_⟩
    · rw [ha h0]
      exact ⟨BigLinksOnly.refl s, fun _ => rfl⟩
    · unfold memory_alloc
      rw [if_pos hs, if_neg hn0]
      exact hb h0 pg
  · rename_i hs
    split at h
    · rename_i hh
      simp only [alloc_huge_memory, if_true, Res.ok.injEq, Prod.mk.injEq] at h
      refine ⟨fun _ => ?_, fun h0 => absurd h.1.symm h0⟩
      rw [← h.2]
      exact ⟨BigLinksOnly.refl s, fun _ => rfl⟩
    · rename_i hh
      obtain ⟨ha, hb⟩ := alloc_big_memory_oom _ _ _ _ h
      refine ⟨fun h0 => ⟨(ha h0).1, fun hc => ?_⟩, fun h0 pg => ?_⟩
      · rcases hc with hc | hc | hc
        · exact absurd hc hs
        · exact absurd hc hh
        · exact (ha h0).2 hc
      · unfold memory_alloc
        rw [if_neg hs, if_neg hh]
        exact hb h0 pg

/-- An instance: a big request on a manager whose only chunk is full. -/
theorem oom_leaves_state_witness :
    (0 = 0 → BigLinksOnly full_chunk_state full_chunk_state ∧
      (1000 ≤ SMALLLEVEL * SMALLSIZE ∨ 1000 > HUGESIZE ∨ full_chunk_state.big_head = 0 →
        full_chunk_state = full_chunk_state)) ∧
    (0 ≠ 0 → ∀ pg, memory_alloc 0 pg full_chunk_state 1000 = Res.ok (0, full_chunk_state)) :=
  oom_leaves_state 0 full_chunk_state 1000 0 full_chunk_state (by decide) rfl

/-- C18 (big-tier rotation bound).  For every state and every `sz`,
`lookup_big_memory(sz)` returns or faults without a loop budget of the model
running out, and it visits at most `BIGSEARCHDEPTH` list nodes (the count is that
of `lookup_big_memory_count`, whose result is the result of
`lookup_big_memory`); when the big list is a null-terminated list `xs` in the
heap with `big_tail` its last block, it visits at most
`min(length xs, BIGSEARCHDEPTH)` nodes. -/
theorem big_search_bound (s : Mgr) (sz : Nat) :
    (lookup_big_memory_count s sz).1 = lookup_big_memory s sz ∧
    lookup_big_memory s sz ≠ Res.spin ∧
    (lookup_big_memory_count s sz).2 ≤ BIGSEARCHDEPTH ∧
    (∀ xs, IsList s.bb_next s.big_head xs → s.big_tail = lastD xs →
      (lookup_big_memory_count s sz).2 ≤ min xs.length BIGSEARCHDEPTH) := by
  have hfst : (lookup_big_memory_count s sz).1 = lookup_big_memory s sz := by
    unfold lookup_big_memory_count
    split
    · rfl
    · split
      · rfl
      · rename_i h1 h2
        rw [lookup_big_loop_count_fst]
        unfold lookup_big_memory
        rw [if_neg h1]
        simp only
        rw [if_neg h2]
  have hle : (lookup_big_memory_count s sz).2 ≤ BIGSEARCHDEPTH := by
    unfold lookup_big_memory_count
    split
    · exact Nat.zero_le _
    · split
      · show 1 ≤ 128
        omega
      · exact lookup_big_loop_count_le _ _ _ _ _
  refine ⟨hfst, lookup_big_memory_ne_spin s sz, hle, ?_⟩
  intro xs hl ht
  refine Nat.le_min.2 ⟨?_, hle⟩
  cases xs with
  | nil =>
    have h0 : s.big_head = 0 := hl
    unfold lookup_big_memory_count
    rw [if_pos h0]
    exact le_refl _
  | cons x ys =>
    have hx : s.big_head = x := hl.1
    have hx0 : s.big_head ≠ 0 := by rw [hx]; exact hl.2.1
    have hseg := IsList.to_seg hl (by simp)
    rw [← ht] at hseg
    have hnd := IsList.no_repeat hl
    cases ys with
    | nil =>
      unfold lookup_big_memory_count
      rw [if_neg hx0]
      split
      · exact le_refl _
      · rename_i hne
        exact absurd (hx.trans ht.symm) hne
    | cons y zs =>
      have hne : s.big_head ≠ s.big_tail := IsSeg.head_ne_tail hseg hnd (by simp)
      unfold lookup_big_memory_count
      rw [if_neg hx0, if_neg hne, hx]
      have := lookup_big_loop_count_le_length sz x 127 (y :: zs) [] x s (by simpa using hseg)
        (by simpa using hnd) (by simp) rfl
      simpa using this

/-- Witness of C18 on a list of three blocks: three visits at most. -/
theorem big_search_bound_witness :
    (lookup_big_memory_count three_big_state 2040).2 ≤ min 3 BIGSEARCHDEPTH :=
  (big_search_bound three_big_state 2040).2.2.2 [4120, 5128, 6136]
    ⟨rfl, by decide, rfl, by decide, rfl, by decide, rfl⟩ rfl

/-- C19 (the huge ring splice is an inverse pair).  Let the huge list be a ring
through the sentinel with the blocks `xs` (every node is the `prev` of its `next`
and the `next` of its `prev`, and the sentinel's links are not null), and let
the page source return a mapping `h` that is not null and not a node of the
ring.  Then `alloc_huge_memory(sz)` returns `h + 24` and leaves a ring with the
blocks `h :: xs`, `h` carrying size `sz`; and `free_huge_memory(h + 24)` right
after leaves the ring with the blocks `xs` again, every `next`, `prev` and size
field outside the unmapped block `h` being what it was before the pair. -/
theorem huge_splice_inverse (s : Mgr) (xs : List Nat) (h sz : Nat) (hr : IsRing s xs)
    (h0 : h ≠ 0) (hG : h ≠ huge_list_addr) (hx : h ∉ xs) :
    (s.hb_next huge_list_addr ≠ 0 ∧ s.hb_prev huge_list_addr ≠ 0 ∧
      ∀ q, q = huge_list_addr ∨ q ∈ xs →
        s.hb_prev (s.hb_next q) = q ∧ s.hb_next (s.hb_prev q) = q) ∧
    alloc_huge_memory h s sz = Res.ok (h + SIZEOF_HUGEBLOCK, huge_link s h sz) ∧
    IsRing (huge_link s h sz) (h :: xs) ∧
    (huge_link s h sz).hb_sz h = sz ∧
    free_huge_memory (huge_link s h sz) (h + SIZEOF_HUGEBLOCK) =
      Res.ok (huge_unlink (huge_link s h sz) h) ∧
    IsRing (huge_unlink (huge_link s h sz) h) xs ∧
    (∀ x, x ≠ h →
      (huge_unlink (huge_link s h sz) h).hb_next x = s.hb_next x ∧
      (huge_unlink (huge_link s h sz) h).hb_prev x = s.hb_prev x ∧
      (huge_unlink (huge_link s h sz) h).hb_sz x = s.hb_sz x) := by
  obtain ⟨f0, f1, f2⟩ := hr.first
  have hne := RingFrom.mem_ne hr.1
  have hlaws : ∀ q, q = huge_list_addr ∨ q ∈ xs →
      s.hb_prev (s.hb_next q) = q ∧ s.hb_next (s.hb_prev q) = q :=
    fun q hq => ⟨RingFrom.prev_next hr.1 q hq, RingFrom.next_prev hr.1 q hq⟩
  have hprev0 : s.hb_prev huge_list_addr ≠ 0 :=
    RingFrom.prev_sentinel hr.1 (by decide)
  have hrest := huge_unlink_link sz hr hG hx
  have hring1 := huge_link_ring sz hr h0 hG hx
  have hfh : h ≠ s.hb_next huge_list_addr := by
    intro e
    cases xs with
    | nil => exact hG (e.trans hr.1.1)
    | cons y ys => exact hx (by rw [e, hr.1.1]; simp)
  have hp : (huge_link s h sz).hb_prev h = huge_list_addr := hring1.1.2.1
  have hn : (huge_link s h sz).hb_next h = s.hb_next huge_list_addr := by
    show upd (upd s.hb_next h (s.hb_next huge_list_addr)) huge_list_addr h h = _
    rw [upd_other _ _ _ _ hG, upd_same]
  refine ⟨⟨f0, hprev0, hlaws⟩, alloc_huge_memory_ring h s sz h0 hG f0, hring1,
    upd_same s.hb_sz h sz, ?_, ?_, hrest⟩
  · apply free_huge_memory_ring _ h h0
    · rw [hp]; decide
    · rw [hp, upd_other _ _ _ _ hG, hn]
      exact f0
  · refine ⟨?_, hr.2⟩
    apply RingFrom.frame_ring hr.1
    · intro q hq
      have hqh : q ≠ h := by
        rcases hq with e | e
        · rw [e]; exact fun e2 => hG e2.symm
        · exact fun e2 => hx (e2 ▸ e)
      exact (hrest q hqh).1
    · intro q hq
      have hqh : q ≠ h := by
        rcases hq with e | e
        · rw [e]; exact fun e2 => hG e2.symm
        · exact fun e2 => hx (e2 ▸ e)
      exact (hrest q hqh).2.1

/-- Witness of C19 on the ring of no block, with a mapping at `8192`. -/
theorem huge_splice_inverse_witness :
    alloc_huge_memory 8192 ring_state 40000 =
      Res.ok (8192 + SIZEOF_HUGEBLOCK, huge_link ring_state 8192 40000) ∧
    IsRing (huge_link ring_state 8192 40000) [8192] ∧
    free_huge_memory (huge_link ring_state 8192 40000) (8192 + SIZEOF_HUGEBLOCK) =
      Res.ok (huge_unlink (huge_link ring_state 8192 40000) 8192) ∧
    IsRing (huge_unlink (huge_link ring_state 8192 40000) 8192) [] :=
  have h := huge_splice_inverse ring_state [] 8192 40000 ⟨⟨rfl, rfl⟩, List.nodup_nil⟩
    (by decide) (by decide) (by simp)
  ⟨h.2.1, h.2.2.1, h.2.2.2.2.1, h.2.2.2.2.2.1⟩

/-- Index safety in the field-split heap `Mgr`, with sizes as unbounded naturals.
In every state reached from the fresh
allocator through calls that respect the contract: the slots of `small_list`
from index `SMALLLEVEL` on hold no block, the spare slot `small_list[SMALLLEVEL]`
among them, so no call ever stored a block at an index outside
`0 .. SMALLLEVEL - 1`, and the next call does not either; the class indices that
`memory_alloc` and `memory_free` compute for a small size are below
`SMALLLEVEL`; the scan of `alloc_small_memory` reads the indices
`idx + 1 .. SMALLLEVEL` only and gives what the scan over
`idx + 1 .. SMALLLEVEL - 1` gives; and `split_small_memory`, for a surplus of at
most 256 bytes, stores at indices below `SMALLLEVEL` only. -/
theorem small_index_safety (fuel : Nat) (ops : List Op) (w : World)
    (h : steps fuel ops ⟨init, []⟩ = some w) :
    (∀ i, SMALLLEVEL ≤ i → w.mgr.small_list i = 0) ∧
    (∀ c w1, step fuel w c = some w1 →
      ∀ i, SMALLLEVEL ≤ i → w1.mgr.small_list i = w.mgr.small_list i) ∧
    (∀ n, 1 ≤ n → n ≤ SMALLLEVEL * SMALLSIZE →
      alloc_index n < SMALLLEVEL ∧ free_index n < SMALLLEVEL) ∧
    (∀ left, 0 < left → ((left - 1) / SMALLSIZE < SMALLLEVEL ↔ left ≤ SMALLLEVEL * SMALLSIZE)) ∧
    (∀ sz idx, idx < SMALLLEVEL →
      lookup_larger w.mgr sz (SMALLLEVEL - idx) (idx + 1) =
        lookup_larger w.mgr sz (SMALLLEVEL - 1 - idx) (idx + 1)) ∧
    (∀ sz idx (t : Mgr), idx < SMALLLEVEL →
      (∀ j, idx + 1 ≤ j → j ≤ SMALLLEVEL → t.small_list j = w.mgr.small_list j) →
      (lookup_larger t sz (SMALLLEVEL - idx) (idx + 1)).map Prod.fst =
        (lookup_larger w.mgr sz (SMALLLEVEL - idx) (idx + 1)).map Prod.fst) ∧
    (∀ ptr nsize, nsize ≤ SMALLLEVEL * SMALLSIZE →
      ∀ i, SMALLLEVEL ≤ i →
        (split_small_memory w.mgr ptr nsize).small_list i = w.mgr.small_list i) := by
  have hs : ∀ i, SMALLLEVEL ≤ i → w.mgr.small_list i = 0 :=
    steps_slots ops _ _ (fun _ _ => rfl) h
  refine ⟨hs, ?_, ?_, ?_, ?_, ?_, ?_⟩
  · intro c w1 hc i hi
    rw [step_slots hs hc i hi, hs i hi]
  · intro n h1 h2
    have h256 : n ≤ 256 := by simpa [SMALLLEVEL, SMALLSIZE] using h2
    rw [index_agree n h1 h256]
    exact ⟨alloc_index_lt n h256, alloc_index_lt n h256⟩
  · intro left hl
    unfold SMALLSIZE SMALLLEVEL
    omega
  · intro sz idx hidx
    have e : SMALLLEVEL - idx = (SMALLLEVEL - 1 - idx) + 1 := by omega
    rw [e]
    apply lookup_larger_drop_last
    apply hs
    omega
  · intro sz idx t hidx ht
    exact lookup_larger_reads w.mgr t sz _ _ (fun j h1 h2 => ht j h1 (by omega))
  · intro ptr nsize hn i hi
    have hk := split_small_loop_kept nsize w.mgr ptr nsize hn
    have := slots_of_kept hk hs i hi
    unfold split_small_memory
    rw [this, hs i hi]

set_option maxRecDepth 100000 in
/-- An instance on the world of `rem256_ops`. -/
theorem small_index_safety_witness :
    (∀ i, SMALLLEVEL ≤ i → rem256_world.mgr.small_list i = 0) ∧
    (∀ sz idx, idx < SMALLLEVEL →
      lookup_larger rem256_world.mgr sz (SMALLLEVEL - idx) (idx + 1) =
        lookup_larger rem256_world.mgr sz (SMALLLEVEL - 1 - idx) (idx + 1)) :=
  have h := small_index_safety 1 rem256_ops rem256_world rfl
  ⟨h.1, h.2.2.2.2.1⟩

set_option maxRecDepth 100000 in
/-- C2 fails in the code.  The calls `alias_ops` respect the contract and the two
pages `73728` and `40960` do not overlap (the second ends where the first
starts).  `memory_alloc(32745)` opens the chunk at `40960` with
`chunk_used = 32776`, so its block ends 8 bytes past the mapping; once freed and
cut by `memory_alloc(32737)`, the 8-byte remainder is pushed at `73728`, which is
the `next` member of the chunk there.  The chunk walk of `memory_alloc(16)` then
follows that link to the free block at `73744`, reads the size word at `73752`
as its `chunk_used`, and returns `106488`: the last 8 bytes of the block
`(73760, 32736)` the caller still holds. -/
theorem live_blocks_overlap :
    Apart 73728 40960 ∧
    Flat.run 8 alias_ops ⟨Flat.init, []⟩ = some (Out.ok alias_world) ∧
    alias_world.live = [(106488, 16), (40984, 32737), (73760, 32736)] ∧
    (73760 ≤ 106488 ∧ 106488 < 73760 + 32736) ∧
    ¬ Disj (106488, 16) (73760, 32736) ∧
    alias_world.heap.chunk_head = 73728 ∧
    alias_world.heap.mem 73728 = 73744 ∧
    alias_world.heap.mem 73752 = 32760 :=
  ⟨by unfold Apart; decide, rfl, by decide, by decide, by unfold Disj; decide, by decide,
    by decide, by decide⟩

set_option maxRecDepth 100000 in
/-- C9 fails in the code.  A mapping request that fails gives `MAP_FAILED`, not
null, and `new_chunk` and `alloc_huge_memory` test for null only: the next store
goes through `MAP_FAILED` to an address that is not mapped.  So `new_chunk`
faults in every state; on the fresh allocator `memory_alloc(n)` faults for
every small `n` and for every huge `n`; and so does `memory_alloc(1000)` once the
only chunk is full and the big list is empty.  No call returns null. -/
theorem page_failure_faults :
    (∀ (h : Heap) (sz : Int), Flat.new_chunk MAP_FAILED h sz = Out.fault) ∧
    (∀ fuel n, 1 ≤ n → n ≤ SMALLLEVEL * SMALLSIZE →
      Flat.memory_alloc fuel MAP_FAILED Flat.init n = Out.fault) ∧
    (∀ fuel n, HUGESIZE < n → Flat.memory_alloc fuel MAP_FAILED Flat.init n = Out.fault) ∧
    Flat.memory_alloc 0 MAP_FAILED Flat.init 8 = Out.fault ∧
    Flat.run 8 full_ops ⟨Flat.init, []⟩ = some (Out.ok full_world) ∧
    full_world.heap.big_head = 0 ∧
    Flat.exec 8 full_world (Call.alloc 1000 MAP_FAILED) = some Out.fault := by
  have h1 : ∀ fuel n, 1 ≤ n → n ≤ SMALLLEVEL * SMALLSIZE →
      Flat.memory_alloc fuel MAP_FAILED Flat.init n = Out.fault := by
    intro fuel n hn1 hn2
    rw [flat_memory_alloc_fresh fuel MAP_FAILED n hn1 hn2]
    exact flat_new_chunk_failed _ _
  refine ⟨flat_new_chunk_failed, h1, ?_, h1 0 8 (by decide) (by decide), rfl, by decide, rfl⟩
  intro fuel n hn
  have hs : ¬ n ≤ SMALLLEVEL * SMALLSIZE := by
    unfold HUGESIZE CHUNKSIZE at hn
    unfold SMALLLEVEL SMALLSIZE
    omega
  have h0 : MAP_FAILED ≠ 0 := by decide
  have hp : ∀ len, Flat.alloc_page Flat.init MAP_FAILED len = Flat.init := by
    intro len
    simp [Flat.alloc_page]
  unfold Flat.memory_alloc
  rw [if_neg hs, if_pos hn]
  unfold Flat.alloc_huge_memory
  simp only [hp, if_neg h0]
  rfl

set_option maxRecDepth 100000 in
/-- C13, as stated, fails, in two ways.  By design: the calls `rem256_ops` respect
the contract and leave on the big list a remainder of `left = 264` bytes with
`left - 8 = 256` in its size field, which is not strictly greater than
`SMALLLEVEL * SMALLSIZE`; the flat heap holds the same word `256` at `4864`.
Through the defect of C8: the calls `wild_ops` respect
the contract, ask for `32745` bytes, and leave on the big list the block at
`2415984656` whose size word has been overwritten with the pointer `2415951872`,
far above `CHUNKSIZE`. -/
theorem big_list_size_counterexample :
    (steps 1 rem256_ops ⟨init, []⟩ = some rem256_world ∧
      BigFree rem256_world.mgr 4864 ∧
      rem256_world.mgr.bb_sz 4864 = 256 ∧
      ¬ SMALLLEVEL * SMALLSIZE < rem256_world.mgr.bb_sz 4864) ∧
    (Flat.run 8 rem256_calls ⟨Flat.init, []⟩ = some (Out.ok rem256_heap) ∧
      rem256_heap.heap.big_head = 4864 ∧ rem256_heap.heap.mem 4864 = 256) ∧
    (Flat.run 8 wild_ops ⟨Flat.init, []⟩ = some (Out.ok wild_world) ∧
      wild_world.heap.big_head = 2415984656 ∧ wild_world.heap.big_tail = 2415984656 ∧
      wild_world.heap.mem 2415984656 = 2415951872 ∧
      CHUNKSIZE < wild_world.heap.mem 2415984656) :=
  have h1 : rem256_world.mgr.big_head = 4864 := by decide
  have h2 : rem256_world.mgr.bb_sz 4864 = 256 := by decide
  have h3 : wild_world.heap.mem 2415984656 = 2415951872 := by decide
  ⟨⟨rfl, by unfold BigFree; rw [h1]; exact Reach.here 4864 (by decide), h2,
    by rw [h2]; decide⟩, ⟨rfl, by decide, by decide⟩,
    rfl, by decide, by decide, h3, by rw [h3]; decide⟩

/-- C13, amended.  In every state reached from the fresh allocator through calls
of `memory_alloc`, `memory_free` and `memory_realloc` that respect the contract
and never ask for one of the sizes `32745 .. 32752` (the sizes for which
`new_chunk` sets `chunk_used` above `CHUNKSIZE`), every block on the big free
list has a size field of at least `SMALLLEVEL * SMALLSIZE = 256` (not strictly
more) and at most `CHUNKSIZE`; and no `chunk_used` is above `CHUNKSIZE`, so that
no block runs past the mapping of its chunk. -/
theorem big_list_sizes (fuel : Nat) (ops : List Op) (w : World) (b : Nat)
    (hsafe : ∀ c ∈ ops, ¬ overflow_size c.request)
    (h : steps fuel ops ⟨init, []⟩ = some w) (hb : BigFree w.mgr b) :
    SMALLLEVEL * SMALLSIZE ≤ w.mgr.bb_sz b ∧ w.mgr.bb_sz b ≤ CHUNKSIZE ∧
      ∀ c, w.mgr.chunk_used c ≤ CHUNKSIZE := by
  have hl0 : LiveSizes ⟨init, []⟩ := fun pn hpn => absurd hpn (List.not_mem_nil pn)
  obtain ⟨hs, _⟩ := steps_sizes ops _ _ BigSizes.fresh hl0 h
  have hnz := hs.of_reach hs.head hb
  obtain ⟨_, r2, r3⟩ := hs.range b
  have hu : UsedOK w.mgr := steps_usedok ops _ _ (fun _ => Nat.zero_le _) hsafe h
  refine ⟨?_, ?_, hu⟩
  · rcases r3 with e | e
    · exact absurd e hnz
    · exact e
  · unfold CHUNKSIZE at r2 ⊢
    omega

set_option maxRecDepth 100000 in
/-- Witness of the amended C13 on the world of `rem256_ops`, whose big list holds a
block of size 256. -/
theorem big_list_sizes_witness :
    SMALLLEVEL * SMALLSIZE ≤ rem256_world.mgr.bb_sz 4864 ∧
      rem256_world.mgr.bb_sz 4864 ≤ CHUNKSIZE ∧
      ∀ c, rem256_world.mgr.chunk_used c ≤ CHUNKSIZE :=
  have h1 : rem256_world.mgr.big_head = 4864 := by decide
  big_list_sizes 1 rem256_ops rem256_world 4864
    (fun c hc => by
      rw [overflow_size_iff]
      simp only [rem256_ops, List.mem_cons, List.mem_singleton, List.not_mem_nil, or_false] at hc
      rcases hc with e | e | e | e | e <;> subst e <;> simp [Op.request])
    rfl
    (by unfold BigFree; rw [h1]; exact Reach.here 4864 (by decide))

set_option maxRecDepth 100000 in
/-- C20 fails in the code.  The calls `wild_ops` respect the contract.  As in
`alias_ops`, a block that ends 8 bytes past its mapping lets a remainder be pushed
on the `next` member of the chunk at `2415951872`, and the chunk walk of
`memory_alloc(24)` then raises the size word of the live block at `2415951896`
from `32744` to `32768`.  Freed and cut by `memory_alloc(32745)`, that block
leaves a remainder right at the header `2415984656` of a live block of the next
chunk, and the push stores the head of class 0, the pointer `2415951872`, into
that size word.  Once this block is freed, `memory_alloc(32000)` finds it on the
big list and computes `int left = b->sz - sz = -1879047432` and
`idx = (left - 1) / 8 = -234880929`; `idx < SMALLLEVEL` holds, and
`free_small_memory` reads `small_list[-234880929]`. -/
theorem small_index_wild :
    Flat.run 8 wild_ops ⟨Flat.init, []⟩ = some (Out.ok wild_world) ∧
    wild_world.heap.big_head = 2415984656 ∧
    wild_world.heap.mem 2415984656 = 2415951872 ∧
    Flat.big_size (toInt32 32000) = 32008 ∧
    toInt32 ((2415951872 + 2 ^ 64 - toU64 32008) % 2 ^ 64) = -1879047432 ∧
    ((-1879047432 : Int) - 1).tdiv SMALLSIZE = -234880929 ∧
    Flat.exec 8 wild_world (Call.alloc 32000 0) = some (Out.wild (-234880929)) ∧
    (-234880929 : Int) < 0 :=
  ⟨rfl, by decide, by decide, by decide, by decide, by decide, rfl, by decide⟩

end MemPool
